import Mathlib

/-!
# go-qr: the encoder pipeline of `pkg/qr-encode`

A shallow embedding of `Encoder.getVersion`, `Encoder.fillBuffer`,
`Encoder.divideIntoBlocks`, `Encoder.generateCorrectionBlocks`,
`Encoder.mergeBlocks` and `Encoder.Encode` (file `pkg/qr-encode/encode.go`),
with the properties of the encoder stated and proved over it.

Conventions.
* A Go `byte` is a `Nat`; every place where Go truncates to 8 bits carries an
  explicit `% 256`.  A Go `int` that only counts bytes or bits is a `Nat`
  (lengths stay far below `2^63`).
* A Go `[]byte` is a `List Nat`, a `[][]byte` a `List (List Nat)`; a `nil`
  slice returned next to an error is `none`.
* A run-time panic of the Go code (integer division by zero, index or slice
  bound out of range) is the result `none` of the function that performs it.
* An `error` is the list of the error values it contains (`[]` is `nil`),
  which is what `multierr.Combine` builds.
* The constant tables of the package (`versionSize`, `numberOfBlocks`,
  `numberOfCorrectionBytes`, `polynomialCoefficients`, `GF`, `invGF`,
  `FillerBytes`) and its constants (`headerNibble`, `Nible`, `Byte`) are
  declared in a file that is not part of the sources at hand: they are the
  fields of the parameter `Tables`.
-/

namespace QrEncode

/-! ## Data model -/

/-- Modelled from the spec: the type `CodeLevel` is declared outside the
sources at hand; the spec gives it as the fixed four-way enumeration of
correction levels L, M, Q, H (ascending correction strength). -/
inductive CodeLevel
  | L
  | M
  | Q
  | H
  deriving DecidableEq, Repr

/-- The error values of the planning stage.  `ErrVersionNotFound` and
`ErrTooLargeSize` are the two package-level errors `encode.go` names;
`ErrNotFound` stands for the error value of the search helper
`algorithms.LowerBound`, which lives in another package (that `qr_encode`
imports) and is therefore neither of the former two. -/
inductive Err
  | ErrVersionNotFound
  | ErrTooLargeSize
  | ErrNotFound
  deriving DecidableEq, Repr

/-- The package-level tables and constants used by the encoder, whose
declarations are not among the sources at hand.  `versionSize level` is the
array of bit capacities indexed by version index; the other tables are read
at indices that the code keeps inside their declared ranges. -/
structure Tables where
  versionSize : CodeLevel → List Nat
  numberOfBlocks : CodeLevel → Nat → Nat
  numberOfCorrectionBytes : CodeLevel → Nat → Nat
  polynomialCoefficients : Nat → List Nat
  GF : Nat → Nat
  invGF : Nat → Nat
  headerNibble : Nat
  Nible : Nat
  Byte : Nat
  FillerBytes : Nat → Nat

/-- The receiver `Encoder` of `encode.go`: a correction level and the
version index chosen by `Encode`. -/
structure Encoder where
  level : CodeLevel
  version : Nat
  deriving DecidableEq, Repr

/-- The constructor `NewEncoder(level)`: the version field has Go's zero value. -/
def NewEncoder (level : CodeLevel) : Encoder := { level := level, version := 0 }

/-! ## Helpers of package `algorithms` -/

/-- Modelled from the spec: the helper `algorithms.MaxInt` is not among the
sources; it is the larger of its two integer arguments. -/
def MaxInt (a b : Nat) : Nat := if a < b then b else a

/-- The scan behind `LowerBound`: walks the table from index `i`, keeping in
`best` the position and value of the smallest entry seen so far that is at
least `target` (the earliest one among equal entries). -/
def lowerBoundScan (target : Nat) : List Nat → Nat → Option (Nat × Nat) → Option (Nat × Nat)
  | [], _, best => best
  | x :: xs, i, best =>
    if target ≤ x then
      match best with
      | none => lowerBoundScan target xs (i + 1) (some (i, x))
      | some (j, y) =>
        if x < y then lowerBoundScan target xs (i + 1) (some (i, x))
        else lowerBoundScan target xs (i + 1) (some (j, y))
    else lowerBoundScan target xs (i + 1) best

/-- Modelled from the spec: the helper `algorithms.LowerBound` is not among
the sources.  The spec describes it as "finding the smallest table entry ≥ a
threshold" ("scanning the level's capacity table for the smallest entry ≥
header bit length"): it yields the index of that entry, and an error when no
entry reaches the threshold. -/
def LowerBound (array : List Nat) (target : Nat) : Except Err Nat :=
  match lowerBoundScan target array 0 none with
  | some (i, _) => Except.ok i
  | none => Except.error Err.ErrNotFound

/-! ## `Encoder.getVersion` -/

/-- The method `Encoder.getVersion` (encode.go, lines 31-51). -/
def getVersion (t : Tables) (e : Encoder) (byteLen : Nat) : Except Err Nat :=
  let bitLen := byteLen * 8 + 4
  let versionsArray := t.versionSize e.level
  match LowerBound versionsArray bitLen with
  | Except.error err => Except.error err
  | Except.ok version =>
    let maxVersionSize := (t.versionSize e.level).getD version 0
    let bitLen := if version < 9 then bitLen + 8 else bitLen + 16
    if bitLen > maxVersionSize then
      let version := version + 1
      if version ≥ (t.versionSize e.level).length then Except.error Err.ErrTooLargeSize
      else Except.ok version
    else Except.ok version

/-- The width in bits of the length field at a version index, the `w(v)` of
the specification: 8 below index 9, 16 from there on. -/
def lengthFieldWidth (v : Nat) : Nat := if v < 9 then 8 else 16

/-- The shape of a QR capacity table: each entry exceeds the one before it
by at least 16 bits (so the table is strictly increasing). -/
def CapacityGaps (table : List Nat) : Prop :=
  ∀ i, i < table.length - 1 → table.getD i 0 + 16 ≤ table.getD (i + 1) 0

instance (table : List Nat) : Decidable (CapacityGaps table) := by
  unfold CapacityGaps; infer_instance

/-! ## `Encoder.fillBuffer` -/

/-- The loop `for _, b := range data` of `fillBuffer` (lines 67-71): the
state is the buffer and the running byte `currByte`; byte arithmetic is
truncated to 8 bits. -/
def fillData (t : Tables) : List Nat → List Nat → Nat → List Nat × Nat
  | [], buff, currByte => (buff, currByte)
  | b :: rest, buff, currByte =>
    let currByte := ((currByte <<< 4) % 256) ||| (b &&& (t.Nible % 256))
    let buff := buff ++ [currByte]
    let currByte := (b >>> 4) &&& (t.Nible % 256)
    fillData t rest buff currByte

/-- The padding loop of `fillBuffer` (lines 75-81),
`for buff.Len()*8 < capacity`: the state is the buffer, `idx` and
`currByte`.  The first argument bounds the number of iterations; each
iteration adds 8 bits, so `capacity` iterations always suffice. -/
def padBuffer (t : Tables) (capacity : Nat) : Nat → List Nat → Nat → Nat → List Nat
  | 0, buff, _, _ => buff
  | fuel + 1, buff, idx, currByte =>
    if buff.length * 8 < capacity then
      let buff := buff ++ [currByte]
      let idx := (idx + 1) % 2
      let currByte := t.FillerBytes idx
      padBuffer t capacity fuel buff idx currByte
    else buff

/-- The method `Encoder.fillBuffer` (encode.go, lines 54-82); the buffer is
passed in and the filled buffer is the result. -/
def fillBuffer (t : Tables) (e : Encoder) (buff : List Nat) (data : List Nat) : List Nat :=
  let dataLen := data.length
  let start : List Nat × Nat :=
    if e.version < 9 then
      (buff ++ [((t.headerNibble <<< 4) ||| (dataLen &&& t.Nible)) % 256],
        ((dataLen >>> 4) &&& t.Nible) % 256)
    else
      (buff ++ [((t.headerNibble <<< 4) ||| (dataLen &&& t.Nible)) % 256]
          ++ [((dataLen >>> 4) &&& t.Byte) % 256],
        ((dataLen >>> 12) &&& t.Nible) % 256)
  let filled := fillData t data start.1 start.2
  let currByte := (filled.2 <<< 4) % 256
  let buff := filled.1 ++ [currByte]
  let idx := 0
  let currByte := t.FillerBytes idx
  let capacity := (t.versionSize e.level).getD e.version 0
  padBuffer t capacity capacity buff idx currByte

/-- The bytes `fillBuffer` writes for the payload, as a list: one byte per
payload byte (the loop of lines 67-71) and then the trailing byte of lines
72-73, starting from the running byte `currByte`. -/
def emitted (t : Tables) : List Nat → Nat → List Nat
  | [], currByte => [(currByte <<< 4) % 256]
  | b :: rest, currByte =>
    (((currByte <<< 4) % 256) ||| (b &&& (t.Nible % 256))) ::
      emitted t rest ((b >>> 4) &&& (t.Nible % 256))

/-! ## `Encoder.divideIntoBlocks` -/

/-- The Go slice expression `data[lo:hi]`; out-of-range bounds panic. -/
def sliceBytes (data : List Nat) (lo hi : Nat) : Option (List Nat) :=
  if lo ≤ hi ∧ hi ≤ data.length then some ((data.drop lo).take (hi - lo)) else none

/-- The Go assignment `result[i] = v`; an index out of range panics. -/
def setBlock (result : List (List Nat)) (i : Nat) (v : List Nat) : Option (List (List Nat)) :=
  if i < result.length then some (result.set i v) else none

/-- One of the two loops of `divideIntoBlocks` (lines 92-95 with `size =
blockSize`, `offset = 0`; lines 96-99 with `size = blockSize + 1`, `offset =
blocksNum - rem`): `result[offset+i] = data[currIdx : currIdx+size]` and
`currIdx += size`.  The first numeric argument is the number of iterations
left, the second is `i`. -/
def divideLoop (data : List Nat) (size offset : Nat) :
    Nat → Nat → List (List Nat) → Nat → Option (List (List Nat) × Nat)
  | 0, _, result, currIdx => some (result, currIdx)
  | k + 1, i, result, currIdx =>
    match sliceBytes data currIdx (currIdx + size) with
    | none => none
    | some s =>
      match setBlock result (offset + i) s with
      | none => none
      | some result => divideLoop data size offset k (i + 1) result (currIdx + size)

/-- The method `Encoder.divideIntoBlocks` (encode.go, lines 84-102).  With
a block count of zero the division `buff.Len() / blocksNum` panics. -/
def divideIntoBlocks (t : Tables) (e : Encoder) (buff : List Nat) : Option (List (List Nat)) :=
  let blocksNum := t.numberOfBlocks e.level e.version
  if blocksNum = 0 then none
  else
    let blockSize := buff.length / blocksNum
    let rem := buff.length % blocksNum
    let result : List (List Nat) := List.replicate blocksNum []
    let data := buff
    let currIdx := 0
    match divideLoop data blockSize 0 (blocksNum - rem) 0 result currIdx with
    | none => none
    | some (result, currIdx) =>
      match divideLoop data (blockSize + 1) (blocksNum - rem) rem 0 result currIdx with
      | none => none
      | some (result, _) => some result

/-- The `k` consecutive pieces of `size` bytes of `data` starting at byte
`currIdx`: what a loop of `divideIntoBlocks` stores, written as a list. -/
def chunks (data : List Nat) (size : Nat) : Nat → Nat → List (List Nat)
  | 0, _ => []
  | k + 1, currIdx => (data.drop currIdx).take size :: chunks data size k (currIdx + size)

/-! ## `Encoder.generateCorrectionBlocks` -/

/-- The Go statement `arr[i] ^= v`; an index out of range panics. -/
def xorAt (arr : List Nat) (i v : Nat) : Option (List Nat) :=
  if i < arr.length then some (arr.set i ((arr.getD i 0) ^^^ v)) else none

/-- The loop `for j := 0; j < coefficientsNum; j++` (lines 124-128) for the
element at position `i` with logarithm `b`.  The first numeric argument is
the number of iterations left, the second is `j`. -/
def xorGenerator (t : Tables) (coefficients : List Nat) (b i : Nat) :
    Nat → Nat → List Nat → Option (List Nat)
  | 0, _, correctionBytes => some correctionBytes
  | k + 1, j, correctionBytes =>
    match coefficients.get? j with
    | none => none
    | some g =>
      let c := (g + b) % 255
      let x := t.GF c
      match xorAt correctionBytes (i + j + 1) x with
      | none => none
      | some correctionBytes => xorGenerator t coefficients b i k (j + 1) correctionBytes

/-- The loop `for i, el := range correctionBytes[:len(block)]` (lines
118-129); `el` is read from the array when iteration `i` starts.  The first
numeric argument is the number of iterations left, the second is `i`. -/
def divideByGenerator (t : Tables) (coefficients : List Nat) (coefficientsNum : Nat) :
    Nat → Nat → List Nat → Option (List Nat)
  | 0, _, correctionBytes => some correctionBytes
  | k + 1, i, correctionBytes =>
    match correctionBytes.get? i with
    | none => none
    | some el =>
      if el = 0 then divideByGenerator t coefficients coefficientsNum k (i + 1) correctionBytes
      else
        let b := t.invGF el
        match xorGenerator t coefficients b i coefficientsNum 0 correctionBytes with
        | none => none
        | some correctionBytes =>
          divideByGenerator t coefficients coefficientsNum k (i + 1) correctionBytes

/-- The body of the loop over the data blocks (lines 111-130) for one
block: the working array is the block followed by
`MaxInt(len(block), coefficientsNum)` zero bytes, and the result is the
slice of its last `coefficientsNum` bytes. -/
def correctionBlock (t : Tables) (coefficients : List Nat) (coefficientsNum : Nat)
    (block : List Nat) : Option (List Nat) :=
  let correctionBytesNum := MaxInt block.length coefficientsNum
  let correctionBytes := block ++ List.replicate correctionBytesNum 0
  match divideByGenerator t coefficients coefficientsNum block.length 0 correctionBytes with
  | none => none
  | some correctionBytes =>
    if coefficientsNum ≤ correctionBytes.length then
      some (correctionBytes.drop (correctionBytes.length - coefficientsNum))
    else none

/-- The loop `for blockIdx, block := range dataBlocks` (line 110), which
stores one correction block per data block, in order. -/
def correctionBlocks (t : Tables) (coefficients : List Nat) (coefficientsNum : Nat) :
    List (List Nat) → Option (List (List Nat))
  | [] => some []
  | block :: rest =>
    match correctionBlock t coefficients coefficientsNum block with
    | none => none
    | some cb =>
      match correctionBlocks t coefficients coefficientsNum rest with
      | none => none
      | some more => some (cb :: more)

/-- The method `Encoder.generateCorrectionBlocks` (encode.go, lines 105-134). -/
def generateCorrectionBlocks (t : Tables) (e : Encoder) (dataBlocks : List (List Nat)) :
    Option (List (List Nat)) :=
  let coefficientsNum := t.numberOfCorrectionBytes e.level e.version
  let coefficients := t.polynomialCoefficients coefficientsNum
  correctionBlocks t coefficients coefficientsNum dataBlocks

/-- Reference for the inner step, following the specification: for every
generator coefficient `j < c`, XOR into position `i + j + 1` the
anti-logarithm of `(g[j] + b) mod 255`, `b` being the logarithm of the
coefficient at position `i`.  The first numeric argument is the number of
coefficients left, the second is `j`. -/
def referenceXor (t : Tables) (g : List Nat) (b i : Nat) : Nat → Nat → List Nat → List Nat
  | 0, _, arr => arr
  | k + 1, j, arr =>
    referenceXor t g b i k (j + 1)
      (arr.set (i + j + 1) (arr.getD (i + j + 1) 0 ^^^ t.GF ((g.getD j 0 + b) % 255)))

/-- Reference for the division, following the specification: for
`i = 0 .. n-1` in order, whenever the current byte at position `i` is
nonzero, apply `referenceXor` for it.  The first numeric argument is the
number of positions left, the second is `i`. -/
def referenceDivide (t : Tables) (g : List Nat) (c : Nat) : Nat → Nat → List Nat → List Nat
  | 0, _, arr => arr
  | k + 1, i, arr =>
    if arr.getD i 0 = 0 then referenceDivide t g c k (i + 1) arr
    else referenceDivide t g c k (i + 1) (referenceXor t g (t.invGF (arr.getD i 0)) i c 0 arr)

/-- Reference correction block, following the specification: append `c`
zero bytes to the block of `n` bytes, divide, and take the `c` bytes at
positions `n .. n+c-1`, the remainder of the division by the generator
polynomial. -/
def referenceCorrection (t : Tables) (g : List Nat) (c : Nat) (block : List Nat) : List Nat :=
  ((referenceDivide t g c block.length 0 (block ++ List.replicate c 0)).drop block.length).take c

/-! ## `Encoder.mergeBlocks` -/

/-- The inner loop `for i := 0; i < len(blocks); i++` of `mergeBlocks`
(lines 146-151 and 157-162): appends byte `currByteIdx` of every block that
has one. -/
def mergeColumn (currByteIdx : Nat) : List (List Nat) → List Nat → List Nat
  | [], result => result
  | block :: rest, result =>
    if currByteIdx ≥ block.length then mergeColumn currByteIdx rest result
    else mergeColumn currByteIdx rest (result ++ [block.getD currByteIdx 0])

/-- The outer loop `for currByteIdx < maxBlockSize` of `mergeBlocks`.  The
first numeric argument is the number of iterations left
(`maxBlockSize - currByteIdx`), the second is `currByteIdx`. -/
def mergeLoop (blocks : List (List Nat)) : Nat → Nat → List Nat → List Nat
  | 0, _, result => result
  | k + 1, currByteIdx, result =>
    mergeLoop blocks k (currByteIdx + 1) (mergeColumn currByteIdx blocks result)

/-- The loop of lines 139-142: the largest length among the data blocks. -/
def maxBlockSizeOf : List (List Nat) → Nat → Nat
  | [], maxBlockSize => maxBlockSize
  | block :: rest, maxBlockSize => maxBlockSizeOf rest (MaxInt maxBlockSize block.length)

/-- The method `Encoder.mergeBlocks` (encode.go, lines 136-167).  Both
interleaving loops run up to `maxBlockSize`, which is computed from the data
blocks alone. -/
def mergeBlocks (blocks : List (List Nat)) (correctionBlocks : List (List Nat)) : List Nat :=
  let result : List Nat := []
  let maxBlockSize := maxBlockSizeOf blocks 0
  let result := mergeLoop blocks maxBlockSize 0 result
  mergeLoop correctionBlocks maxBlockSize 0 result

/-- Byte `idx` of every block that has one, in block order: what one pass of
the inner loop of `mergeBlocks` appends, as a list. -/
def column (idx : Nat) : List (List Nat) → List Nat
  | [] => []
  | block :: rest =>
    if idx ≥ block.length then column idx rest else block.getD idx 0 :: column idx rest

/-- The columns `idx, idx+1, ..., idx+k-1` of the blocks, one after the
other: what an interleaving loop of `mergeBlocks` appends, as a list. -/
def columns (blocks : List (List Nat)) : Nat → Nat → List Nat
  | 0, _ => []
  | k + 1, idx => column idx blocks ++ columns blocks k (idx + 1)

/-! ## `Encoder.Encode` -/

/-- The function `multierr.Combine`: the error holding every error of its
non-nil arguments, in order (a nil argument is the empty list). -/
def Combine (errs : List (List Err)) : List Err := errs.flatten

/-- The method `Encoder.Encode` (encode.go, lines 13-29).  The result is
`none` when the call panics, and otherwise the returned pair: the byte slice
(`none` for `nil`) and the error (`[]` for `nil`). -/
def Encode (t : Tables) (e : Encoder) (text : List Nat) :
    Option (Option (List Nat) × List Err) :=
  let byteLen := text.length
  match getVersion t e byteLen with
  | Except.error err => some (none, Combine [[Err.ErrVersionNotFound], [err]])
  | Except.ok codeVersion =>
    let e : Encoder := { level := e.level, version := codeVersion }
    let currBuff := fillBuffer t e [] text
    match divideIntoBlocks t e currBuff with
    | none => none
    | some blocks =>
      match generateCorrectionBlocks t e blocks with
      | none => none
      | some correctionBlocks =>
        let result := mergeBlocks blocks correctionBlocks
        some (some result, [])

/-! ## Bit unpacking -/

/-- Modelled from the spec: the helper `algorithms.ToBoolArray` is not among
the sources (only its test `TestToBoolArray` is).  The spec describes it as
the bit-unpacking of a byte, most-significant bit first: entry `i` of the 8
booleans tells whether the mask `0x80 >> i` meets the byte. -/
def ToBoolArray (b : Nat) : List Bool :=
  (List.range 8).map (fun i => (b &&& (128 >>> i)) != 0)

/-- The table of `TestToBoolArray` (conversions_test.go, lines 12-19):
inputs and wanted outputs. -/
def toBoolArrayTests : List (Nat × List Bool) :=
  [(0x00, [false, false, false, false, false, false, false, false]),
   (0x01, [false, false, false, false, false, false, false, true]),
   (0x10, [false, false, false, true, false, false, false, false]),
   (0xAB, [true, false, true, false, true, false, true, true]),
   (0x44, [false, true, false, false, false, true, false, false]),
   (0x0F, [false, false, false, false, true, true, true, true]),
   (0xF0, [true, true, true, true, false, false, false, false]),
   (0xFF, [true, true, true, true, true, true, true, true])]

/-! ## The matrix of `qrcode.go`

The constants `bl`, `wh`, the type `Pattern` with the patterns
`searchPatternTL`, `searchPatternTR`, `searchPatternBL`, `alignPattern`, and
the tables `alignmentPatterns` and `versionCodes` are declared outside the
sources at hand: they are the fields of the parameter `LayoutTables`.  A Go
`int` used as an index is an `Int`, since the loops of `Write` let it go below
zero. -/

/-- The struct `Module` (qrcode.go, lines 25-28): a colour (`Pixel`, a
bool) and the reserved flag. -/
structure Module where
  value : Bool
  isUsed : Bool
  deriving DecidableEq, Repr

/-- The method `Module.Set` (lines 31-34): sets the colour and marks the
module as reserved. -/
def Module.Set (_m : Module) (value : Bool) : Module := { value := value, isUsed := true }

/-- The type `Pattern`, read off its uses in `placePattern`: two sizes and
the pixels `data[pi][pj]`. -/
structure Pattern where
  xSize : Nat
  ySize : Nat
  data : List (List Bool)
  deriving DecidableEq, Repr

/-- The package-level patterns, tables and pixel constants used by
`qrcode.go`, whose declarations are not among the sources at hand. -/
structure LayoutTables where
  searchPatternTL : Pattern
  searchPatternTR : Pattern
  searchPatternBL : Pattern
  alignPattern : Pattern
  alignmentPatterns : Nat → List Nat
  versionCodes : Nat → List Nat
  bl : Bool
  wh : Bool

/-- The struct `QRCode` (lines 36-45). -/
structure QRCode where
  data : List Nat
  version : Nat
  correction : CodeLevel
  canvas : List (List Module)
  size : Nat
  alignments : List Nat
  deriving DecidableEq, Repr

/-- The constants `versionPadding` and `syncPadding` (lines 11-14). -/
def versionPadding : Int := 11

/-- The constant `syncPadding` (line 13). -/
def syncPadding : Int := 7

/-- The Go expression `canvas[y][x]` read; an index out of range panics. -/
def getModule (canvas : List (List Module)) (y x : Int) : Option Module :=
  if 0 ≤ y ∧ 0 ≤ x then
    match canvas.get? y.toNat with
    | none => none
    | some row => row.get? x.toNat
  else none

/-- The Go statement `canvas[y][x].Set(value)`; an index out of range
panics. -/
def setModule (canvas : List (List Module)) (y x : Int) (value : Bool) :
    Option (List (List Module)) :=
  if 0 ≤ y ∧ 0 ≤ x then
    match canvas.get? y.toNat with
    | none => none
    | some row =>
      match row.get? x.toNat with
      | none => none
      | some m => some (canvas.set y.toNat (row.set x.toNat (m.Set value)))
  else none

/-- The statement shared by `Write` and `placeSync`:
`if !canvas[y][x].isUsed { canvas[y][x].Set(value) }`. -/
def setIfUnused (canvas : List (List Module)) (y x : Int) (value : Bool) :
    Option (List (List Module)) :=
  match getModule canvas y x with
  | none => none
  | some m => if !m.isUsed then setModule canvas y x value else some canvas

/-- The canvas built by `NewQRCode` (lines 56-66): every module has the
colour `true` and is not reserved. -/
def newCanvas (canvasSize : Nat) : List (List Module) :=
  List.replicate canvasSize (List.replicate canvasSize { value := true, isUsed := false })

/-- The constructor `NewQRCode` (lines 47-76).  With a version other than 1
the side is the last alignment coordinate plus 7; an empty alignment list
then makes `alignments[aLen-1]` panic. -/
def NewQRCode (t : LayoutTables) (e : Encoder) (data : List Nat) : Option QRCode :=
  let alignments := t.alignmentPatterns e.version
  let canvasSize : Option Nat :=
    if e.version ≠ 1 then
      match alignments.getLast? with
      | none => none
      | some a => some (a + 7)
    else some 21
  match canvasSize with
  | none => none
  | some canvasSize =>
    some { data := data, version := e.version, correction := e.level,
           canvas := newCanvas canvasSize, size := canvasSize, alignments := alignments }

/-! ### `QRCode.bitsGenerator` and `QRCode.Write` -/

/-- The loop of `bitsGenerator` (lines 154-157): the bits of every byte are
appended to `dataBits`. -/
def appendDataBits : List Nat → List Bool → List Bool
  | [], dataBits => dataBits
  | b :: rest, dataBits => appendDataBits rest (dataBits ++ ToBoolArray b)

/-- The state of the closure returned by `bitsGenerator`: the bits and the
counter `i`. -/
structure BitsGenerator where
  dataBits : List Bool
  i : Nat
  deriving DecidableEq, Repr

/-- The method `QRCode.bitsGenerator` (lines 152-169): the closure starts at
`i = 0`. -/
def bitsGenerator (g : QRCode) : BitsGenerator :=
  { dataBits := appendDataBits g.data [], i := 0 }

/-- One call of the closure (lines 160-168): `false` once the bits are
exhausted, else the bit at `i`, and `i` advances. -/
def nextBit (s : BitsGenerator) : Bool × BitsGenerator :=
  if s.i ≥ s.dataBits.length then (false, s)
  else (s.dataBits.getD s.i false, { dataBits := s.dataBits, i := s.i + 1 })

/-- One of the two statements in the body of the inner loop of `Write`
(lines 130-136): `if !canvas[y][x].isUsed { canvas[y][x].Set(Pixel(!nextBit())) }`. -/
def writeCell (canvas : List (List Module)) (gen : BitsGenerator) (y x : Int) :
    Option (List (List Module) × BitsGenerator) :=
  match getModule canvas y x with
  | none => none
  | some m =>
    if !m.isUsed then
      match setModule canvas y x (!(nextBit gen).1) with
      | none => none
      | some canvas => some (canvas, (nextBit gen).2)
    else some (canvas, gen)

/-- The inner loop `for y != border` of `Write` (lines 129-143).  The first
numeric argument bounds the number of iterations; running out of it before
`y` reaches `border` gives no result. -/
def writeRows (xl xr : Int) (upwards : Bool) (border : Int) :
    Nat → Int → List (List Module) → BitsGenerator →
      Option (List (List Module) × BitsGenerator)
  | 0, y, canvas, gen => if y ≠ border then none else some (canvas, gen)
  | fuel + 1, y, canvas, gen =>
    if y ≠ border then
      match writeCell canvas gen y xr with
      | none => none
      | some (canvas, gen) =>
        match writeCell canvas gen y xl with
        | none => none
        | some (canvas, gen) =>
          writeRows xl xr upwards border fuel (if upwards then y - 1 else y + 1) canvas gen
    else some (canvas, gen)

/-- The outer loop `for xl >= 0` of `Write` (lines 119-147).  The first
numeric argument bounds the number of iterations; running out of it while
`xl >= 0` gives no result. -/
def writePairs (size : Nat) :
    Nat → Int → Int → Bool → List (List Module) → BitsGenerator →
      Option (List (List Module) × BitsGenerator)
  | 0, xl, _, _, canvas, gen => if xl ≥ 0 then none else some (canvas, gen)
  | fuel + 1, xl, xr, upwards, canvas, gen =>
    if xl ≥ 0 then
      let xl2 := if xr = 6 then xl - 1 else xl
      let xr2 := if xr = 6 then xr - 1 else xr
      let y : Int := if !upwards then 0 else (size : Int) - 1
      let border : Int := if !upwards then (size : Int) else -1
      match writeRows xl2 xr2 upwards border size y canvas gen with
      | none => none
      | some (canvas, gen) => writePairs size fuel (xl2 - 2) (xr2 - 2) (!upwards) canvas gen
    else some (canvas, gen)

/-- The method `QRCode.Write` (lines 113-150).  The argument `bytes` is not
used by the code: the bits come from `g.data`.  The result is the matrix
after the call together with the returned pair `(n, err)`; `n` is never
incremented and the error is always `nil`. -/
def Write (g : QRCode) (_bytes : List Nat) : Option (QRCode × (Int × List Err)) :=
  let n : Int := 0
  match writePairs g.size g.size ((g.size : Int) - 2) ((g.size : Int) - 1) true g.canvas
      (bitsGenerator g) with
  | none => none
  | some (canvas, _) =>
    some ({ data := g.data, version := g.version, correction := g.correction,
            canvas := canvas, size := g.size, alignments := g.alignments }, (n, []))

/-! ### Patterns, timing lines, version information, mask -/

/-- The inner loop of `isUnused` (lines 238-242) over the columns of row
`i`: `some false` at the first reserved module.  The first numeric argument
is the number of columns left. -/
def isUnusedRow (canvas : List (List Module)) (i : Int) : Nat → Int → Option Bool
  | 0, _ => some true
  | k + 1, j =>
    match getModule canvas i j with
    | none => none
    | some m => if m.isUsed then some false else isUnusedRow canvas i k (j + 1)

/-- The outer loop of `isUnused` (lines 237-243) over the rows.  The first
numeric argument is the number of rows left. -/
def isUnusedRows (canvas : List (List Module)) (startY : Int) (cols : Nat) :
    Nat → Int → Option Bool
  | 0, _ => some true
  | k + 1, i =>
    match isUnusedRow canvas i cols startY with
    | none => none
    | some false => some false
    | some true => isUnusedRows canvas startY cols k (i + 1)

/-- The method `QRCode.isUnused` (lines 230-246). -/
def isUnused (g : QRCode) (startX startY endX endY : Int) : Option Bool :=
  if startX ≥ g.size ∨ startY ≥ g.size ∨ endX > g.size ∨ endY > g.size then some false
  else isUnusedRows g.canvas startY (endY - startY).toNat (endX - startX).toNat startX

/-- The inner loop of `placePattern` (lines 256-258) over the columns, for
canvas row `i` and pattern row `pi`.  The first numeric argument is
`pyLen - pj`. -/
def placePatternRow (size : Nat) (p : Pattern) (i : Int) (pi : Nat) :
    Nat → Int → Nat → List (List Module) → Option (List (List Module))
  | 0, _, _, canvas => some canvas
  | k + 1, j, pj, canvas =>
    if j < size then
      match p.data.get? pi with
      | none => none
      | some row =>
        match row.get? pj with
        | none => none
        | some v =>
          match setModule canvas i j v with
          | none => none
          | some canvas => placePatternRow size p i pi k (j + 1) (pj + 1) canvas
    else some canvas

/-- The outer loop of `placePattern` (lines 255-259) over the rows.  The
first numeric argument is `pxLen - pi`. -/
def placePatternRows (size : Nat) (p : Pattern) (locY : Int) :
    Nat → Int → Nat → List (List Module) → Option (List (List Module))
  | 0, _, _, canvas => some canvas
  | k + 1, i, pi, canvas =>
    if i < size then
      match placePatternRow size p i pi p.ySize locY 0 canvas with
      | none => none
      | some canvas => placePatternRows size p locY k (i + 1) (pi + 1) canvas
    else some canvas

/-- The method `QRCode.placePattern` (lines 248-260). -/
def placePattern (g : QRCode) (locX locY : Int) (p : Pattern) : Option QRCode :=
  let pxLen := p.xSize
  let pyLen := p.ySize
  match isUnused g locX locY (locX + pxLen) (locY + pyLen) with
  | none => none
  | some false => some g
  | some true =>
    match placePatternRows g.size p locY pxLen locX 0 g.canvas with
    | none => none
    | some canvas =>
      some { data := g.data, version := g.version, correction := g.correction,
             canvas := canvas, size := g.size, alignments := g.alignments }

/-- The method `QRCode.placeSearchPatterns` (lines 171-175). -/
def placeSearchPatterns (t : LayoutTables) (g : QRCode) : Option QRCode :=
  match placePattern g 0 0 t.searchPatternTL with
  | none => none
  | some g =>
    match placePattern g 0 ((g.size : Int) - t.searchPatternTR.xSize) t.searchPatternTR with
    | none => none
    | some g => placePattern g ((g.size : Int) - t.searchPatternBL.ySize) 0 t.searchPatternBL

/-- Modelled from the spec: the helper `algorithms.GeneratePermutations` is
not among the sources.  The spec describes it as "enumerating coordinate pairs
from two index lists", here "all pairwise combinations of that table with
itself": every pair of two entries of the list, the first entry varying
slowest. -/
def GeneratePermutations (l : List Nat) : List (Nat × Nat) :=
  (l.map (fun a => l.map (fun b => (a, b)))).flatten

/-- The loop of `placeAlignments` (lines 180-182) over the coordinate
pairs. -/
def placeAlignmentsLoop (t : LayoutTables) : List (Nat × Nat) → QRCode → Option QRCode
  | [], g => some g
  | loc :: rest, g =>
    match placePattern g ((loc.1 : Int) - ((t.alignPattern.xSize / 2 : Nat) : Int))
        ((loc.2 : Int) - ((t.alignPattern.ySize / 2 : Nat) : Int)) t.alignPattern with
    | none => none
    | some g => placeAlignmentsLoop t rest g

/-- The method `QRCode.placeAlignments` (lines 177-183). -/
def placeAlignments (t : LayoutTables) (g : QRCode) : Option QRCode :=
  let perms := GeneratePermutations g.alignments
  placeAlignmentsLoop t perms g

/-- One of the two loops of `placeSync` (lines 191-195 with `vertical`,
lines 198-202 without): the module at distance `loc` along the line gets
`syncPixels[i]` unless it is reserved.  The first numeric argument is the
number of iterations left. -/
def placeSyncLine (t : LayoutTables) (vertical : Bool) :
    Nat → Nat → Int → List (List Module) → Option (List (List Module))
  | 0, _, _, canvas => some canvas
  | k + 1, i, loc, canvas =>
    match setIfUnused canvas (if vertical then loc else 6) (if vertical then 6 else loc)
        (if i = 0 then t.bl else t.wh) with
    | none => none
    | some canvas => placeSyncLine t vertical k ((i + 1) % 2) (loc + 1) canvas

/-- The method `QRCode.placeSync` (lines 185-204): both loops run from 8 up
to `size - syncPadding`. -/
def placeSync (t : LayoutTables) (g : QRCode) : Option QRCode :=
  match placeSyncLine t true ((g.size : Int) - syncPadding - 8).toNat 0 8 g.canvas with
  | none => none
  | some canvas =>
    match placeSyncLine t false ((g.size : Int) - syncPadding - 8).toNat 0 8 canvas with
    | none => none
    | some canvas =>
      some { data := g.data, version := g.version, correction := g.correction,
             canvas := canvas, size := g.size, alignments := g.alignments }

/-- The inner loop of `placeVersion` (lines 215-220) over the bits
`bits[2:]` of one byte: both copies are set without looking at the reserved
flag. -/
def placeVersionBits (locX locY : Int) (yOffset : Nat) :
    List Bool → Nat → List (List Module) → Option (List (List Module))
  | [], _, canvas => some canvas
  | bit :: rest, xOffset, canvas =>
    match setModule canvas (locY + yOffset) (locX + xOffset) (!bit) with
    | none => none
    | some canvas =>
      match setModule canvas (locX + xOffset) (locY + yOffset) (!bit) with
      | none => none
      | some canvas => placeVersionBits locX locY yOffset rest (xOffset + 1) canvas

/-- The outer loop of `placeVersion` (lines 212-221) over the bytes of the
version code. -/
def placeVersionBytes (locX locY : Int) :
    List Nat → Nat → List (List Module) → Option (List (List Module))
  | [], _, canvas => some canvas
  | b :: rest, yOffset, canvas =>
    match placeVersionBits locX locY yOffset ((ToBoolArray b).drop 2) 0 canvas with
    | none => none
    | some canvas => placeVersionBytes locX locY rest (yOffset + 1) canvas

/-- The method `QRCode.placeVersion` (lines 206-223). -/
def placeVersion (t : LayoutTables) (g : QRCode) : Option QRCode :=
  let locX : Int := 0
  let locY : Int := (g.size : Int) - versionPadding
  let versionBinary := t.versionCodes g.version
  match placeVersionBytes locX locY versionBinary 0 g.canvas with
  | none => none
  | some canvas =>
    some { data := g.data, version := g.version, correction := g.correction,
           canvas := canvas, size := g.size, alignments := g.alignments }

/-- The method `QRCode.placeMask` (lines 225-228): its body holds only two
commented-out lines, so the matrix is left as it is. -/
def placeMask (g : QRCode) : Option QRCode := some g

/-- The method `QRCode.MakeLayout` (lines 99-111); the results of `Write`
are dropped by the code. -/
def MakeLayout (t : LayoutTables) (g : QRCode) : Option QRCode :=
  match placeSearchPatterns t g with
  | none => none
  | some g =>
    match placeAlignments t g with
    | none => none
    | some g =>
      match placeSync t g with
      | none => none
      | some g =>
        match (if g.version > 6 then placeVersion t g else some g) with
        | none => none
        | some g =>
          match Write g g.data with
          | none => none
          | some (g, _) => placeMask g

/-! ### The matrix as a function of row and column -/

/-- The module at row `y`, column `x`, with a default outside the canvas. -/
def cellAt (canvas : List (List Module)) (y x : Nat) : Module :=
  (canvas.getD y []).getD x { value := false, isUsed := false }

/-- The canvas with the module at row `y`, column `x` replaced. -/
def setCell (canvas : List (List Module)) (y x : Nat) (m : Module) : List (List Module) :=
  canvas.set y ((canvas.getD y []).set x m)

/-- A square canvas of side `n`: `n` rows of `n` modules. -/
def WellFormed (canvas : List (List Module)) (n : Nat) : Prop :=
  canvas.length = n ∧ ∀ row, row ∈ canvas → row.length = n

instance (canvas : List (List Module)) (n : Nat) : Decidable (WellFormed canvas n) := by
  unfold WellFormed; infer_instance

/-! ### The reference zigzag placement -/

/-- The column pairs `(left, right)` of the zigzag, in the order of the
specification for an odd side `n >= 7`: `(n-2, n-1)`, `(n-4, n-3)`, ... down to
`(7, 8)`, then `(4, 5)` instead of `(5, 6)`, then `(2, 3)` and `(0, 1)`. -/
def zigzagPairs (n : Nat) : List (Nat × Nat) :=
  (List.range ((n - 7) / 2)).map (fun k => (n - 2 - 2 * k, n - 1 - 2 * k)) ++
    [(4, 5), (2, 3), (0, 1)]

/-- The cells `(row, column)` of one column pair: rows bottom-to-top when
`upwards`, top-to-bottom otherwise, and within a row the right cell, then
the left cell. -/
def pairCells (n : Nat) (upwards : Bool) (p : Nat × Nat) : List (Nat × Nat) :=
  ((if upwards then (List.range n).reverse else List.range n).map
    (fun y => [(y, p.2), (y, p.1)])).flatten

/-- The cells of a list of column pairs, the direction being reversed after
each pair. -/
def zigzagFrom (n : Nat) : Bool → List (Nat × Nat) → List (Nat × Nat)
  | _, [] => []
  | upwards, p :: rest => pairCells n upwards p ++ zigzagFrom n (!upwards) rest

/-- The reference enumeration of the cells: the column pairs of
`zigzagPairs`, bottom-to-top for the first pair. -/
def zigzagCells (n : Nat) : List (Nat × Nat) := zigzagFrom n true (zigzagPairs n)

/-- The column pairs from `(2j+5, 2j+6)` down, written by recursion: the
pairs above `(5, 6)` and then `(4, 5)`, `(2, 3)`, `(0, 1)`. -/
def pairsFrom : Nat → List (Nat × Nat)
  | 0 => [(4, 5), (2, 3), (0, 1)]
  | j + 1 => (2 * j + 7, 2 * j + 8) :: pairsFrom j

/-- The state of the closure of `bitsGenerator` after `k` calls. -/
def genAfter (dataBits : List Bool) (k : Nat) : BitsGenerator :=
  { dataBits := dataBits, i := min k dataBits.length }

/-- Reference step: an unreserved cell receives the negation of bit `k` of
the stream (`false` once the stream is exhausted), `k` counting the cells
written so far; a reserved cell is left alone. -/
def placeCell (dataBits : List Bool) (st : List (List Module) × Nat) (cell : Nat × Nat) :
    List (List Module) × Nat :=
  if (cellAt st.1 cell.1 cell.2).isUsed then st
  else (setCell st.1 cell.1 cell.2 { value := !(dataBits.getD st.2 false), isUsed := true },
    st.2 + 1)

/-- Reference placement over a list of cells. -/
def placeCells (dataBits : List Bool) (cells : List (Nat × Nat))
    (st : List (List Module) × Nat) : List (List Module) × Nat :=
  cells.foldl (placeCell dataBits) st

/-- The cells of a list that are not reserved in a canvas, in order. -/
def unreservedCells (canvas : List (List Module)) (cells : List (Nat × Nat)) :
    List (Nat × Nat) :=
  cells.filter (fun c => !(cellAt canvas c.1 c.2).isUsed)

/-- Every module reserved in the first canvas is the same module in the
second: a step from the first to the second overwrites no reserved module. -/
def Keeps (c1 c2 : List (List Module)) : Prop :=
  ∀ y x, (cellAt c1 y x).isUsed = true → cellAt c2 y x = cellAt c1 y x

/-- Every module reserved in the first canvas is reserved in the second: a
step from the first to the second clears no reserved flag. -/
def Grows (c1 c2 : List (List Module)) : Prop :=
  ∀ y x, (cellAt c1 y x).isUsed = true → (cellAt c2 y x).isUsed = true

/-- A pattern whose `data` holds at least `xSize` rows of at least `ySize`
pixels, so that `data[pi][pj]` is in range for `pi < xSize`, `pj < ySize`. -/
def PatternShaped (p : Pattern) : Prop :=
  p.xSize ≤ p.data.length ∧ ∀ row, row ∈ p.data → p.ySize ≤ row.length

instance (p : Pattern) : Decidable (PatternShaped p) := by
  unfold PatternShaped; infer_instance

/-! ### The mask step of the specification -/

/-- The statements of `MakeLayout` before the call of `Write` (lines
100-106): the search patterns, the alignment patterns, the timing lines and,
above version 6, the version information. -/
def layoutBeforeWrite (t : LayoutTables) (g : QRCode) : Option QRCode :=
  match placeSearchPatterns t g with
  | none => none
  | some g =>
    match placeAlignments t g with
    | none => none
    | some g =>
      match placeSync t g with
      | none => none
      | some g => if g.version > 6 then placeVersion t g else some g

/-- Modelled from the spec: the 8 standard mask formulas, as functions of
the mask index, the row and the column; `true` where the mask flips the
module. -/
def maskFormula (k r c : Nat) : Bool :=
  match k with
  | 0 => (r + c) % 2 == 0
  | 1 => r % 2 == 0
  | 2 => c % 3 == 0
  | 3 => (r + c) % 3 == 0
  | 4 => (r / 2 + c / 3) % 2 == 0
  | 5 => (r * c) % 2 + (r * c) % 3 == 0
  | 6 => ((r * c) % 2 + (r * c) % 3) % 2 == 0
  | 7 => ((r + c) % 2 + (r * c) % 3) % 2 == 0
  | _ => false

/-- Modelled from the spec: the module at row `r`, column `c` of the
candidate matrix of mask `k`.  The mask is XOR-applied to the colour of the
module `m` left by `Write` when the module was not reserved before `Write`
(a data module), and a module reserved before `Write` is left as it is. -/
def maskedCell (k : Nat) (reservedBeforeWrite : Bool) (m : Module) (r c : Nat) : Module :=
  if reservedBeforeWrite then m
  else { value := xor m.value (maskFormula k r c), isUsed := m.isUsed }

/-! ## Sample tables

Concrete tables on which the definitions are evaluated: the 40 data
capacities in bits of the QR standard at the lowest correction level, one
block, 7 correction codewords with their generator exponents, the GF(256)
antilog/log tables of the polynomial `x^8 + x^4 + x^3 + x^2 + 1`, the
byte-mode header `0100` and the filler bytes `0xEC`, `0x11`. -/

/-- Powers of the generator 2 of GF(256) modulo `0x11D`. -/
def gfPow : Nat → Nat
  | 0 => 1
  | k + 1 => if 256 ≤ 2 * gfPow k then (2 * gfPow k) ^^^ 285 else 2 * gfPow k

/-- Discrete logarithm to base 2 in GF(256), by search. -/
def gfLog (v : Nat) : Nat := ((List.range 255).find? (fun k => gfPow k == v)).getD 0

/-- Bit capacities of versions 1 to 40 at the lowest correction level. -/
def sampleVersionSize : List Nat :=
  [152, 272, 440, 640, 864, 1088, 1248, 1552, 1856, 2192,
   2592, 2960, 3424, 3688, 4184, 4712, 5176, 5768, 6360, 6888,
   7456, 8048, 8752, 9392, 10208, 10960, 11744, 12248, 13048, 13880,
   14744, 15640, 16568, 17528, 18448, 19472, 20528, 21616, 22496, 23648]

/-- A full set of tables for evaluation. -/
def sampleTables : Tables where
  versionSize := fun _ => sampleVersionSize
  numberOfBlocks := fun _ _ => 1
  numberOfCorrectionBytes := fun _ _ => 7
  polynomialCoefficients := fun _ => [87, 229, 146, 149, 238, 102, 21]
  GF := gfPow
  invGF := gfLog
  headerNibble := 4
  Nible := 15
  Byte := 255
  FillerBytes := fun i => if i = 0 then 236 else 17

/-- The tables of `sampleTables` with three blocks per symbol. -/
def sampleTables3 : Tables := { sampleTables with numberOfBlocks := fun _ _ => 3 }

/-- The 19-byte buffer that `fillBuffer` produces for "HI!" at the first
version of the lowest level, which is also the only data block. -/
def sampleBlock : List Nat :=
  [67, 8, 73, 65, 32, 236, 17, 236, 17, 236, 17, 236, 17, 236, 17, 236, 17, 236, 17]

/-- A data block of 9 bytes, the size of the single block of the first
version at the highest correction level. -/
def sampleShortBlock : List Nat := [67, 8, 73, 65, 32, 236, 17, 236, 17]

/-- Seventeen correction bytes, the count that goes with `sampleShortBlock`. -/
def sampleCorrection : List Nat :=
  [1, 2, 3, 4, 5, 6, 7, 8, 9, 10, 11, 12, 13, 14, 15, 16, 17]

/-- The bytes of `sampleCorrection` with a different last byte. -/
def sampleCorrectionAlt : List Nat :=
  [1, 2, 3, 4, 5, 6, 7, 8, 9, 10, 11, 12, 13, 14, 15, 16, 99]

/-- A text of 2954 bytes, one byte more than the largest version of the
lowest level holds. -/
def sampleLongText : List Nat := List.replicate 2954 65

/-- A search pattern with its separator: the 7×7 finder in the corner of an
8×8 square given by the row and column offsets of the finder. -/
def sampleFinder (rowOff colOff : Nat) : Pattern :=
  { xSize := 8, ySize := 8,
    data := (List.range 8).map (fun i => (List.range 8).map (fun j =>
      decide (rowOff ≤ i ∧ i < rowOff + 7 ∧ colOff ≤ j ∧ j < colOff + 7 ∧
        (i = rowOff ∨ i = rowOff + 6 ∨ j = colOff ∨ j = colOff + 6 ∨
          (rowOff + 2 ≤ i ∧ i ≤ rowOff + 4 ∧ colOff + 2 ≤ j ∧ j ≤ colOff + 4))))) }

/-- Layout tables for evaluation: search patterns with separators, the 5×5
alignment pattern, alignment coordinates and the version code of version 7,
dark as `true`. -/
def sampleLayout : LayoutTables where
  searchPatternTL := sampleFinder 0 0
  searchPatternTR := sampleFinder 0 1
  searchPatternBL := sampleFinder 1 0
  alignPattern :=
    { xSize := 5, ySize := 5,
      data := [[true, true, true, true, true], [true, false, false, false, true],
               [true, false, true, false, true], [true, false, false, false, true],
               [true, true, true, true, true]] }
  alignmentPatterns := fun v => if v = 2 then [6, 18] else if v = 7 then [6, 22, 38] else []
  versionCodes := fun v => if v = 7 then [2, 30, 38] else []
  bl := true
  wh := false

/-- A fresh matrix of side 21 (the side `NewQRCode` gives version 1) carrying
two codewords. -/
def sampleFresh21 : QRCode :=
  { data := [0xAB, 0xCD], version := 1, correction := CodeLevel.L,
    canvas := newCanvas 21, size := 21, alignments := [] }

/-- A fresh matrix of side 21 carrying 60 codewords, 480 bits, more than its
420 modules outside column 6. -/
def sampleOverfull21 : QRCode :=
  { data := List.replicate 60 0xFF, version := 1, correction := CodeLevel.L,
    canvas := newCanvas 21, size := 21, alignments := [] }

/-- A fresh matrix of side 45 (the side `NewQRCode` gives version 7, whose
last alignment coordinate is 38) carrying two codewords. -/
def sampleFresh45 : QRCode :=
  { data := [0xAB, 0xCD], version := 7, correction := CodeLevel.L,
    canvas := newCanvas 45, size := 45, alignments := [6, 22, 38] }

/-- A matrix of version 7 (side 45) whose module at row 34, column 4, inside
the region of the version information, is already reserved with the colour
`true`; every other module is fresh. -/
def sampleReserved45 : QRCode :=
  { data := [], version := 7, correction := CodeLevel.L,
    canvas := setCell (newCanvas 45) 34 4 { value := true, isUsed := true },
    size := 45, alignments := [6, 22, 38] }

/-! ## Facts about the search helper -/

theorem lowerBoundScan_some (target : Nat) :
    ∀ (xs : List Nat) (i : Nat) (best : Option (Nat × Nat)) (j y : Nat),
      lowerBoundScan target xs i best = some (j, y) →
      (best = some (j, y) ∨ ∃ k, k < xs.length ∧ j = i + k ∧ xs.getD k 0 = y ∧ target ≤ y) ∧
      (∀ k, k < xs.length → target ≤ xs.getD k 0 → y ≤ xs.getD k 0) ∧
      (∀ j0 y0, best = some (j0, y0) → y ≤ y0) := by
  intro xs
  induction xs with
  | nil =>
    intro i best j y h
    simp only [lowerBoundScan] at h
    subst h
    refine ⟨Or.inl rfl, ?_, ?_⟩
    · intro k hk; simp at hk
    · intro j0 y0 h0; cases h0; exact le_refl _
  | cons x xs ih =>
    intro i best j y h
    have key : ∀ b2, lowerBoundScan target xs (i + 1) b2 = some (j, y) →
        (b2 = best ∨ (b2 = some (i, x) ∧ target ≤ x ∧ ∀ j0 y0, best = some (j0, y0) → x < y0)) →
        (b2 = best → target ≤ x → ∀ j0 y0, best = some (j0, y0) → y0 ≤ x) →
        (b2 = best → target ≤ x → best ≠ none) →
        (best = some (j, y) ∨ ∃ k, k < (x :: xs).length ∧ j = i + k ∧ (x :: xs).getD k 0 = y ∧ target ≤ y) ∧
        (∀ k, k < (x :: xs).length → target ≤ (x :: xs).getD k 0 → y ≤ (x :: xs).getD k 0) ∧
        (∀ j0 y0, best = some (j0, y0) → y ≤ y0) := by
      intro b2 hb2 hcase hkeep hkeep2
      obtain ⟨h1, h2, h3⟩ := ih (i + 1) b2 j y hb2
      have hyx : target ≤ x → y ≤ x := by
        intro htx
        rcases hcase with hc | ⟨hc, _, _⟩
        · subst hc
          cases hbq : b2 with
          | none => exact absurd hbq (hkeep2 rfl htx)
          | some p =>
            obtain ⟨j0, y0⟩ := p
            exact le_trans (h3 j0 y0 hbq) (hkeep rfl htx j0 y0 hbq)
        · exact h3 i x hc
      refine ⟨?_, ?_, ?_⟩
      · rcases h1 with h1 | ⟨k, hk, hj, hy, ht⟩
        · rcases hcase with hc | ⟨hc, htx, _⟩
          · left; rw [← hc]; exact h1
          · right
            rw [hc] at h1
            cases h1
            exact ⟨0, by simp, by simp, by simp, htx⟩
        · right
          exact ⟨k + 1, by simp; omega, by omega, by simpa using hy, ht⟩
      · intro k hk hkt
        cases k with
        | zero => simpa using hyx (by simpa using hkt)
        | succ k =>
          have := h2 k (by simpa using hk) (by simpa using hkt)
          simpa using this
      · intro j0 y0 hb
        rcases hcase with hc | ⟨hc, _, hlt⟩
        · exact h3 j0 y0 (by rw [hc]; exact hb)
        · exact le_trans (h3 i x hc) (le_of_lt (hlt j0 y0 hb))
    simp only [lowerBoundScan] at h
    by_cases htx : target ≤ x
    · rw [if_pos htx] at h
      cases hbest : best with
      | none =>
        rw [hbest] at h
        simp only at h
        have := key (some (i, x)) h (Or.inr ⟨rfl, htx, by intro j0 y0 h0; rw [hbest] at h0; cases h0⟩)
          (by intro h0; rw [hbest] at h0; cases h0) (by intro h0; rw [hbest] at h0; cases h0)
        rw [hbest] at this
        exact this
      | some p =>
        obtain ⟨j1, y1⟩ := p
        rw [hbest] at h
        simp only at h
        by_cases hxy : x < y1
        · rw [if_pos hxy] at h
          have := key (some (i, x)) h
            (Or.inr ⟨rfl, htx, by intro j0 y0 h0; rw [hbest] at h0; cases h0; exact hxy⟩)
            (by intro h0; rw [hbest] at h0; cases h0; exact absurd hxy (lt_irrefl _))
            (by intro _ _; rw [hbest]; simp)
          rw [hbest] at this
          exact this
        · rw [if_neg hxy] at h
          have := key (some (j1, y1)) h (Or.inl hbest.symm)
            (by intro _ _ j0 y0 h0; rw [hbest] at h0; cases h0; omega)
            (by intro _ _; rw [hbest]; simp)
          rw [hbest] at this
          exact this
    · rw [if_neg htx] at h
      exact key best h (Or.inl rfl) (by intro _ h0; exact absurd h0 htx)
        (by intro _ h0; exact absurd h0 htx)

theorem lowerBoundScan_none (target : Nat) :
    ∀ (xs : List Nat) (i : Nat) (best : Option (Nat × Nat)),
      lowerBoundScan target xs i best = none →
      best = none ∧ ∀ k, k < xs.length → xs.getD k 0 < target := by
  intro xs
  induction xs with
  | nil =>
    intro i best h
    simp only [lowerBoundScan] at h
    exact ⟨h, by intro k hk; simp at hk⟩
  | cons x xs ih =>
    intro i best h
    simp only [lowerBoundScan] at h
    by_cases htx : target ≤ x
    · rw [if_pos htx] at h
      cases hbest : best with
      | none =>
        rw [hbest] at h
        simp only at h
        exact absurd (ih _ _ h).1 (by simp)
      | some p =>
        obtain ⟨j1, y1⟩ := p
        rw [hbest] at h
        simp only at h
        by_cases hxy : x < y1
        · rw [if_pos hxy] at h
          exact absurd (ih _ _ h).1 (by simp)
        · rw [if_neg hxy] at h
          exact absurd (ih _ _ h).1 (by simp)
    · rw [if_neg htx] at h
      obtain ⟨h1, h2⟩ := ih _ _ h
      refine ⟨h1, ?_⟩
      intro k hk
      cases k with
      | zero => simpa using htx
      | succ k => simpa using h2 k (by simpa using hk)

/-- What a successful `LowerBound` returns: a valid index whose entry reaches
the target and is the smallest such entry. -/
theorem LowerBound_ok (array : List Nat) (target i : Nat)
    (h : LowerBound array target = Except.ok i) :
    i < array.length ∧ target ≤ array.getD i 0 ∧
      ∀ k, k < array.length → target ≤ array.getD k 0 → array.getD i 0 ≤ array.getD k 0 := by
  unfold LowerBound at h
  cases hs : lowerBoundScan target array 0 none with
  | none => rw [hs] at h; cases h
  | some p =>
    obtain ⟨j, y⟩ := p
    rw [hs] at h
    simp only at h
    cases h
    obtain ⟨h1, h2, _⟩ := lowerBoundScan_some target array 0 none i y hs
    rcases h1 with h1 | ⟨k, hk, hj, hy, ht⟩
    · cases h1
    · have hik : i = k := by omega
      subst hik
      refine ⟨hk, by omega, ?_⟩
      intro k2 hk2 ht2
      rw [hy]
      exact h2 k2 hk2 ht2

/-- When `LowerBound` fails it fails with its own error, and no entry of the
table reaches the target. -/
theorem LowerBound_error (array : List Nat) (target : Nat) (err : Err)
    (h : LowerBound array target = Except.error err) :
    err = Err.ErrNotFound ∧ ∀ k, k < array.length → array.getD k 0 < target := by
  unfold LowerBound at h
  cases hs : lowerBoundScan target array 0 none with
  | none =>
    rw [hs] at h
    simp only at h
    cases h
    exact ⟨rfl, (lowerBoundScan_none target array 0 none hs).2⟩
  | some p =>
    obtain ⟨j, y⟩ := p
    rw [hs] at h
    cases h

/-- In a table with capacity gaps, entries grow by at least 16 per index. -/
theorem CapacityGaps_lt (table : List Nat) (hg : CapacityGaps table) :
    ∀ d i, i + d + 1 < table.length → table.getD i 0 + 16 ≤ table.getD (i + d + 1) 0 := by
  intro d
  induction d with
  | zero =>
    intro i hi
    exact hg i (by omega)
  | succ d ih =>
    intro i hi
    have h1 := ih i (by omega)
    have h2 := hg (i + d + 1) (by omega)
    have : i + (d + 1) + 1 = i + d + 1 + 1 := by omega
    rw [this]
    omega

/-- Strict monotonicity of a table with capacity gaps. -/
theorem CapacityGaps_mono (table : List Nat) (hg : CapacityGaps table) (i j : Nat)
    (hij : i < j) (hj : j < table.length) : table.getD i 0 + 16 ≤ table.getD j 0 := by
  have := CapacityGaps_lt table hg (j - i - 1) i (by omega)
  have h2 : i + (j - i - 1) + 1 = j := by omega
  rw [h2] at this
  exact this

/-! ## `getVersion`: the selected version -/

/-- The three ways `getVersion` can end, read off its body. -/
theorem getVersion_cases (t : Tables) (e : Encoder) (byteLen : Nat) :
    (∃ err, LowerBound (t.versionSize e.level) (byteLen * 8 + 4) = Except.error err ∧
        getVersion t e byteLen = Except.error err) ∨
    (∃ s, LowerBound (t.versionSize e.level) (byteLen * 8 + 4) = Except.ok s ∧
        byteLen * 8 + 4 + lengthFieldWidth s ≤ (t.versionSize e.level).getD s 0 ∧
        getVersion t e byteLen = Except.ok s) ∨
    (∃ s, LowerBound (t.versionSize e.level) (byteLen * 8 + 4) = Except.ok s ∧
        (t.versionSize e.level).getD s 0 < byteLen * 8 + 4 + lengthFieldWidth s ∧
        s + 1 < (t.versionSize e.level).length ∧
        getVersion t e byteLen = Except.ok (s + 1)) ∨
    (∃ s, LowerBound (t.versionSize e.level) (byteLen * 8 + 4) = Except.ok s ∧
        (t.versionSize e.level).getD s 0 < byteLen * 8 + 4 + lengthFieldWidth s ∧
        (t.versionSize e.level).length ≤ s + 1 ∧
        getVersion t e byteLen = Except.error Err.ErrTooLargeSize) := by
  cases hlb : LowerBound (t.versionSize e.level) (byteLen * 8 + 4) with
  | error err =>
    left
    refine ⟨err, rfl, ?_⟩
    unfold getVersion
    simp only [hlb]
  | ok s =>
    right
    by_cases h9 : s < 9
    · have hw : lengthFieldWidth s = 8 := by simp [lengthFieldWidth, h9]
      by_cases hfit : byteLen * 8 + 4 + 8 > (t.versionSize e.level).getD s 0
      · by_cases hlen : s + 1 ≥ (t.versionSize e.level).length
        · right; right
          refine ⟨s, rfl, by omega, hlen, ?_⟩
          unfold getVersion
          simp only [hlb, if_pos h9, if_pos hfit, if_pos hlen]
        · right; left
          refine ⟨s, rfl, by omega, by omega, ?_⟩
          unfold getVersion
          simp only [hlb, if_pos h9, if_pos hfit, if_neg hlen]
      · left
        refine ⟨s, rfl, by omega, ?_⟩
        unfold getVersion
        simp only [hlb, if_pos h9, if_neg hfit]
    · have hw : lengthFieldWidth s = 16 := by simp [lengthFieldWidth, h9]
      by_cases hfit : byteLen * 8 + 4 + 16 > (t.versionSize e.level).getD s 0
      · by_cases hlen : s + 1 ≥ (t.versionSize e.level).length
        · right; right
          refine ⟨s, rfl, by omega, hlen, ?_⟩
          unfold getVersion
          simp only [hlb, if_neg h9, if_pos hfit, if_pos hlen]
        · right; left
          refine ⟨s, rfl, by omega, by omega, ?_⟩
          unfold getVersion
          simp only [hlb, if_neg h9, if_pos hfit, if_neg hlen]
      · left
        refine ⟨s, rfl, by omega, ?_⟩
        unfold getVersion
        simp only [hlb, if_neg h9, if_neg hfit]

/-- Below the index found by `LowerBound`, a table with capacity gaps holds
only entries smaller than the target. -/
theorem LowerBound_below (table : List Nat) (hg : CapacityGaps table) (target s : Nat)
    (h : LowerBound table target = Except.ok s) (k : Nat) (hk : k < s) :
    table.getD k 0 < target := by
  obtain ⟨hs, _, hmin⟩ := LowerBound_ok table target s h
  by_contra hcon
  have h1 := hmin k (by omega) (by omega)
  have h2 := CapacityGaps_mono table hg k s hk hs
  omega

/-- A version returned by `getVersion` over a table with capacity gaps is a
valid index, holds the header, length field and data, and is the first
index that does. -/
theorem getVersion_ok (t : Tables) (e : Encoder) (byteLen v : Nat)
    (hg : CapacityGaps (t.versionSize e.level))
    (hok : getVersion t e byteLen = Except.ok v) :
    v < (t.versionSize e.level).length ∧
    4 + lengthFieldWidth v + 8 * byteLen ≤ (t.versionSize e.level).getD v 0 ∧
    ∀ v2, v2 < v →
      ¬ (4 + lengthFieldWidth v2 + 8 * byteLen ≤ (t.versionSize e.level).getD v2 0) := by
  have hw : ∀ n, lengthFieldWidth n = 8 ∨ lengthFieldWidth n = 16 := by
    intro n; unfold lengthFieldWidth; by_cases h : n < 9 <;> simp [h]
  rcases getVersion_cases t e byteLen with ⟨err, _, h⟩ | ⟨s, hlb, hfit, h⟩ |
      ⟨s, hlb, hfit, hlen, h⟩ | ⟨s, _, _, _, h⟩
  · rw [h] at hok; cases hok
  · rw [h] at hok; cases hok
    obtain ⟨hs, _, _⟩ := LowerBound_ok _ _ _ hlb
    refine ⟨hs, by omega, ?_⟩
    intro v2 hv2 hcon
    have := LowerBound_below _ hg _ _ hlb v2 hv2
    rcases hw v2 with h2 | h2 <;> omega
  · rw [h] at hok; cases hok
    obtain ⟨hs, htar, _⟩ := LowerBound_ok _ _ _ hlb
    have hstep := CapacityGaps_mono _ hg s (s + 1) (by omega) hlen
    refine ⟨hlen, ?_, ?_⟩
    · rcases hw (s + 1) with h2 | h2 <;> omega
    · intro v2 hv2 hcon
      by_cases hv2s : v2 = s
      · subst hv2s; omega
      · have := LowerBound_below _ hg _ _ hlb v2 (by omega)
        rcases hw v2 with h2 | h2 <;> omega
  · rw [h] at hok; cases hok

/-- When `getVersion` fails over a table with capacity gaps, no version of
the table holds the header, length field and data. -/
theorem getVersion_error (t : Tables) (e : Encoder) (byteLen : Nat) (err : Err)
    (hg : CapacityGaps (t.versionSize e.level))
    (herr : getVersion t e byteLen = Except.error err) :
    ∀ v, v < (t.versionSize e.level).length →
      ¬ (4 + lengthFieldWidth v + 8 * byteLen ≤ (t.versionSize e.level).getD v 0) := by
  have hw : ∀ n, lengthFieldWidth n = 8 ∨ lengthFieldWidth n = 16 := by
    intro n; unfold lengthFieldWidth; by_cases h : n < 9 <;> simp [h]
  rcases getVersion_cases t e byteLen with ⟨err2, hlb, h⟩ | ⟨s, hlb, hfit, h⟩ |
      ⟨s, hlb, hfit, hlen, h⟩ | ⟨s, hlb, hfit, hlen, h⟩
  · intro v hv hcon
    have := (LowerBound_error _ _ _ hlb).2 v hv
    rcases hw v with h2 | h2 <;> omega
  · rw [h] at herr; cases herr
  · rw [h] at herr; cases herr
  · intro v hv hcon
    obtain ⟨hs, _, _⟩ := LowerBound_ok _ _ _ hlb
    by_cases hvs : v = s
    · subst hvs; omega
    · have := LowerBound_below _ hg _ _ hlb v (by omega)
      rcases hw v with h2 | h2 <;> omega

/-- C1: for every correction level and payload length for which
`getVersion` succeeds over a capacity table whose consecutive entries are at
least 16 bits apart, the returned version `v` satisfies
`4 + w(v) + 8*L <= versionSize[level][v]` and no smaller version does. -/
theorem getVersion_smallest_fitting (t : Tables) (e : Encoder) (byteLen v : Nat)
    (hgaps : CapacityGaps (t.versionSize e.level))
    (hok : getVersion t e byteLen = Except.ok v) :
    v < (t.versionSize e.level).length ∧
    4 + lengthFieldWidth v + 8 * byteLen ≤ (t.versionSize e.level).getD v 0 ∧
    ∀ v2, v2 < v →
      ¬ (4 + lengthFieldWidth v2 + 8 * byteLen ≤ (t.versionSize e.level).getD v2 0) :=
  getVersion_ok t e byteLen v hgaps hok

/-- The 3-byte input "HI!" at the lowest level, over the standard capacities:
the first version (index 0) is selected, 36 bits being needed. -/
theorem getVersion_smallest_fitting_witness :
    CapacityGaps (sampleTables.versionSize CodeLevel.L) ∧
    getVersion sampleTables (NewEncoder CodeLevel.L) 3 = Except.ok 0 ∧
    (0 < (sampleTables.versionSize CodeLevel.L).length ∧
      4 + lengthFieldWidth 0 + 8 * 3 ≤ (sampleTables.versionSize CodeLevel.L).getD 0 0 ∧
      ∀ v2, v2 < 0 →
        ¬ (4 + lengthFieldWidth v2 + 8 * 3 ≤ (sampleTables.versionSize CodeLevel.L).getD v2 0)) :=
  ⟨by decide, rfl,
    getVersion_smallest_fitting sampleTables (NewEncoder CodeLevel.L) 3 0 (by decide) rfl⟩

/-! ## `fillBuffer`: the length of the buffer -/

theorem fillData_length (t : Tables) :
    ∀ (data buff : List Nat) (currByte : Nat),
      (fillData t data buff currByte).1.length = buff.length + data.length := by
  intro data
  induction data with
  | nil => intro buff currByte; simp [fillData]
  | cons b rest ih =>
    intro buff currByte
    simp only [fillData]
    rw [ih]
    simp
    omega

/-- The padding loop ends exactly at a capacity that is a multiple of 8,
when it starts at or below it and is given enough iterations. -/
theorem padBuffer_length (t : Tables) (capacity : Nat) (h8 : 8 ∣ capacity) :
    ∀ (fuel : Nat) (buff : List Nat) (idx currByte : Nat),
      buff.length * 8 ≤ capacity → capacity ≤ buff.length * 8 + fuel * 8 →
      (padBuffer t capacity fuel buff idx currByte).length * 8 = capacity := by
  intro fuel
  induction fuel with
  | zero =>
    intro buff idx currByte h1 h2
    simp only [padBuffer]
    omega
  | succ fuel ih =>
    intro buff idx currByte h1 h2
    simp only [padBuffer]
    by_cases hlt : buff.length * 8 < capacity
    · rw [if_pos hlt]
      apply ih
      · obtain ⟨k, hk⟩ := h8
        simp only [List.length_append, List.length_singleton]
        omega
      · simp only [List.length_append, List.length_singleton]
        omega
    · rw [if_neg hlt]
      omega

/-- The number of bytes `fillBuffer` has written when the padding loop
starts: header byte, length field, payload and the trailing nibble byte. -/
theorem fillBuffer_eq_pad (t : Tables) (e : Encoder) (data : List Nat) :
    ∃ buff idx currByte,
      buff.length = data.length + (if e.version < 9 then 2 else 3) ∧
      fillBuffer t e [] data =
        padBuffer t ((t.versionSize e.level).getD e.version 0)
          ((t.versionSize e.level).getD e.version 0) buff idx currByte := by
  unfold fillBuffer
  by_cases h9 : e.version < 9
  · simp only [if_pos h9]
    refine ⟨_, _, _, ?_, rfl⟩
    simp only [List.length_append, List.length_singleton, fillData_length, List.nil_append]
    omega
  · simp only [if_neg h9]
    refine ⟨_, _, _, ?_, rfl⟩
    simp only [List.length_append, List.length_singleton, fillData_length, List.nil_append]
    omega

/-- The buffer filled for a version that holds header, length field and data
has exactly the capacity of that version, when the capacity is a multiple
of 8. -/
theorem fillBuffer_length (t : Tables) (e : Encoder) (data : List Nat)
    (h8 : 8 ∣ (t.versionSize e.level).getD e.version 0)
    (hfit : 4 + lengthFieldWidth e.version + 8 * data.length ≤
      (t.versionSize e.level).getD e.version 0) :
    8 * (data.length + (if e.version < 9 then 2 else 3)) ≤
        (t.versionSize e.level).getD e.version 0 ∧
      8 * (fillBuffer t e [] data).length = (t.versionSize e.level).getD e.version 0 := by
  obtain ⟨buff, idx, currByte, hlen, heq⟩ := fillBuffer_eq_pad t e data
  have hpre : 8 * (data.length + (if e.version < 9 then 2 else 3)) ≤
      (t.versionSize e.level).getD e.version 0 := by
    obtain ⟨k, hk⟩ := h8
    unfold lengthFieldWidth at hfit
    by_cases h9 : e.version < 9
    · simp only [if_pos h9] at hfit ⊢
      omega
    · simp only [if_neg h9] at hfit ⊢
      omega
  refine ⟨hpre, ?_⟩
  rw [heq]
  have := padBuffer_length t _ h8 ((t.versionSize e.level).getD e.version 0) buff idx currByte
    (by rw [hlen]; omega) (by omega)
  omega

/-- C2: for every correction level and every payload for which `getVersion`
succeeds (capacities being multiples of 8, in a table with the gaps of the QR
capacity tables), header, length field, payload and trailing nibble byte do
not exceed the capacity of the selected version, and the buffer produced by
`fillBuffer` has a bit length exactly equal to that capacity. -/
theorem fillBuffer_bit_length_eq_capacity (t : Tables) (e : Encoder) (data : List Nat) (v : Nat)
    (hgaps : CapacityGaps (t.versionSize e.level))
    (h8 : ∀ k, k < (t.versionSize e.level).length → 8 ∣ (t.versionSize e.level).getD k 0)
    (hok : getVersion t e data.length = Except.ok v) :
    8 * (data.length + (if v < 9 then 2 else 3)) ≤ (t.versionSize e.level).getD v 0 ∧
      8 * (fillBuffer t { level := e.level, version := v } [] data).length =
        (t.versionSize e.level).getD v 0 := by
  obtain ⟨hv, hfit, _⟩ := getVersion_ok t e data.length v hgaps hok
  exact fillBuffer_length t { level := e.level, version := v } data (h8 v hv) hfit

/-- The input "HI!" at the lowest level over the standard capacities: the
buffer has 152 bits, the capacity of the first version. -/
theorem fillBuffer_bit_length_eq_capacity_witness :
    CapacityGaps (sampleTables.versionSize CodeLevel.L) ∧
    (∀ k, k < (sampleTables.versionSize CodeLevel.L).length →
      8 ∣ (sampleTables.versionSize CodeLevel.L).getD k 0) ∧
    getVersion sampleTables (NewEncoder CodeLevel.L) [72, 73, 33].length = Except.ok 0 ∧
    (8 * ([72, 73, 33].length + (if 0 < 9 then 2 else 3)) ≤
        (sampleTables.versionSize CodeLevel.L).getD 0 0 ∧
      8 * (fillBuffer sampleTables { level := CodeLevel.L, version := 0 } [] [72, 73, 33]).length =
        (sampleTables.versionSize CodeLevel.L).getD 0 0) :=
  ⟨by decide, by decide, rfl,
    fillBuffer_bit_length_eq_capacity sampleTables (NewEncoder CodeLevel.L) [72, 73, 33] 0
      (by decide) (by decide) rfl⟩

/-! ## `divideIntoBlocks`: the blocks -/

theorem sliceBytes_eq (data : List Nat) (c size : Nat) (h : c + size ≤ data.length) :
    sliceBytes data c (c + size) = some ((data.drop c).take size) := by
  unfold sliceBytes
  rw [if_pos ⟨by omega, h⟩]
  simp

/-- A loop of `divideIntoBlocks` that stays inside the buffer and inside the
result array replaces `k` consecutive entries of the array by the `k`
consecutive pieces of the buffer. -/
theorem divideLoop_eq (data : List Nat) (size offset : Nat) :
    ∀ (k i : Nat) (pre mid post : List (List Nat)) (currIdx : Nat),
      pre.length = offset + i → mid.length = k → currIdx + k * size ≤ data.length →
      divideLoop data size offset k i (pre ++ mid ++ post) currIdx =
        some (pre ++ chunks data size k currIdx ++ post, currIdx + k * size) := by
  intro k
  induction k with
  | zero =>
    intro i pre mid post currIdx _ hmid _
    have : mid = [] := List.length_eq_zero.mp hmid
    subst this
    simp [divideLoop, chunks]
  | succ k ih =>
    intro i pre mid post currIdx hpre hmid hlen
    cases mid with
    | nil => simp at hmid
    | cons m mid =>
      have hsz : currIdx + size ≤ data.length := by
        have : (k + 1) * size = k * size + size := by ring
        omega
      simp only [divideLoop, sliceBytes_eq data currIdx size hsz]
      have hset : setBlock (pre ++ m :: mid ++ post) (offset + i) ((data.drop currIdx).take size) =
          some ((pre ++ [(data.drop currIdx).take size]) ++ mid ++ post) := by
        unfold setBlock
        rw [if_pos (by simp; omega)]
        rw [List.append_assoc, List.set_append_right _ _ (by omega)]
        simp [hpre]
      rw [hset]
      simp only
      rw [ih (i + 1) (pre ++ [(data.drop currIdx).take size]) mid post (currIdx + size)
        (by simp; omega) (by simpa using hmid)
        (by have : (k + 1) * size = k * size + size := by ring
            omega)]
      have : currIdx + size + k * size = currIdx + (k + 1) * size := by ring
      simp [chunks, this]

theorem chunks_length (data : List Nat) (size : Nat) :
    ∀ (k c : Nat), (chunks data size k c).length = k := by
  intro k
  induction k with
  | zero => intro c; simp [chunks]
  | succ k ih => intro c; simp [chunks, ih]

theorem chunks_flatten (data : List Nat) (size : Nat) :
    ∀ (k c : Nat), (chunks data size k c).flatten = (data.drop c).take (k * size) := by
  intro k
  induction k with
  | zero => intro c; simp [chunks]
  | succ k ih =>
    intro c
    simp only [chunks, List.flatten_cons, ih]
    have : (k + 1) * size = size + k * size := by ring
    rw [this, List.take_add, List.drop_drop]

theorem chunks_getD_length (data : List Nat) (size : Nat) :
    ∀ (k c j : Nat), j < k → c + k * size ≤ data.length →
      ((chunks data size k c).getD j []).length = size := by
  intro k
  induction k with
  | zero => intro c j hj; omega
  | succ k ih =>
    intro c j hj hlen
    have hexp : (k + 1) * size = k * size + size := by ring
    cases j with
    | zero =>
      simp only [chunks, List.getD_cons_zero, List.length_take, List.length_drop]
      omega
    | succ j =>
      simp only [chunks, List.getD_cons_succ]
      exact ih (c + size) j (by omega) (by omega)

/-- The arithmetic of the split: `N - r` blocks of the base size and `r`
blocks one byte longer cover the buffer. -/
theorem divide_sizes (n blocksNum : Nat) :
    (blocksNum - n % blocksNum) * (n / blocksNum) + n % blocksNum * (n / blocksNum + 1) = n := by
  by_cases h0 : blocksNum = 0
  · subst h0; simp
  · have hlt : n % blocksNum < blocksNum := Nat.mod_lt _ (by omega)
    have h1 : (blocksNum - n % blocksNum) * (n / blocksNum) + n % blocksNum * (n / blocksNum) =
        blocksNum * (n / blocksNum) := by
      rw [← Nat.add_mul, Nat.sub_add_cancel (le_of_lt hlt)]
    have h2 := Nat.div_add_mod n blocksNum
    have h3 : n % blocksNum * (n / blocksNum + 1) =
        n % blocksNum * (n / blocksNum) + n % blocksNum := by ring
    omega

/-- With at least one block, `divideIntoBlocks` returns the base-size pieces
followed by the longer pieces. -/
theorem divideIntoBlocks_eq (t : Tables) (e : Encoder) (buff : List Nat)
    (hN : 1 ≤ t.numberOfBlocks e.level e.version) :
    divideIntoBlocks t e buff =
      some (chunks buff (buff.length / t.numberOfBlocks e.level e.version)
          (t.numberOfBlocks e.level e.version - buff.length % t.numberOfBlocks e.level e.version) 0 ++
        chunks buff (buff.length / t.numberOfBlocks e.level e.version + 1)
          (buff.length % t.numberOfBlocks e.level e.version)
          ((t.numberOfBlocks e.level e.version -
            buff.length % t.numberOfBlocks e.level e.version) *
              (buff.length / t.numberOfBlocks e.level e.version))) := by
  unfold divideIntoBlocks
  generalize hNdef : t.numberOfBlocks e.level e.version = N at hN ⊢
  have hsz := divide_sizes buff.length N
  have hlt : buff.length % N < N := Nat.mod_lt _ (by omega)
  simp only [if_neg (show ¬ N = 0 by omega)]
  have hrep : List.replicate N ([] : List Nat) =
      [] ++ List.replicate (N - buff.length % N) [] ++ List.replicate (buff.length % N) [] := by
    rw [List.nil_append, ← List.replicate_add]
    congr 1
    omega
  rw [hrep, divideLoop_eq buff (buff.length / N) 0 (N - buff.length % N) 0 []
    (List.replicate (N - buff.length % N) []) (List.replicate (buff.length % N) []) 0
    (by simp) (by simp) (by omega)]
  simp only [List.nil_append, Nat.zero_add]
  have h2 := divideLoop_eq buff (buff.length / N + 1) (N - buff.length % N) (buff.length % N) 0
    (chunks buff (buff.length / N) (N - buff.length % N) 0)
    (List.replicate (buff.length % N) []) []
    ((N - buff.length % N) * (buff.length / N))
    (by simp [chunks_length]) (by simp) (by omega)
  simp only [List.append_nil] at h2
  rw [h2]

/-- C3: for every buffer and every block count `N >= 1`,
`divideIntoBlocks` returns exactly `N` blocks whose concatenation in order
is the input buffer, so that the block lengths add up to the buffer length. -/
theorem divideIntoBlocks_lossless (t : Tables) (e : Encoder) (buff : List Nat)
    (hN : 1 ≤ t.numberOfBlocks e.level e.version) :
    ∃ blocks, divideIntoBlocks t e buff = some blocks ∧
      blocks.length = t.numberOfBlocks e.level e.version ∧
      blocks.flatten = buff ∧
      (blocks.map List.length).sum = buff.length := by
  have hflat : (chunks buff (buff.length / t.numberOfBlocks e.level e.version)
          (t.numberOfBlocks e.level e.version - buff.length % t.numberOfBlocks e.level e.version) 0 ++
        chunks buff (buff.length / t.numberOfBlocks e.level e.version + 1)
          (buff.length % t.numberOfBlocks e.level e.version)
          ((t.numberOfBlocks e.level e.version -
            buff.length % t.numberOfBlocks e.level e.version) *
              (buff.length / t.numberOfBlocks e.level e.version))).flatten = buff := by
    generalize t.numberOfBlocks e.level e.version = N at hN ⊢
    have hsz := divide_sizes buff.length N
    rw [List.flatten_append, chunks_flatten, chunks_flatten, List.drop_zero, ← List.take_add]
    apply List.take_of_length_le
    exact hsz.ge
  refine ⟨_, divideIntoBlocks_eq t e buff hN, ?_, hflat, ?_⟩
  · have hlt : buff.length % t.numberOfBlocks e.level e.version <
        t.numberOfBlocks e.level e.version := Nat.mod_lt _ (by omega)
    simp only [List.length_append, chunks_length]
    omega
  · rw [← List.length_flatten, hflat]

/-- Eight bytes in three blocks: sizes 2, 3, 3, concatenating to the input. -/
theorem divideIntoBlocks_lossless_witness :
    1 ≤ sampleTables3.numberOfBlocks CodeLevel.L 0 ∧
    ∃ blocks, divideIntoBlocks sampleTables3 (NewEncoder CodeLevel.L) [1, 2, 3, 4, 5, 6, 7, 8] =
        some blocks ∧
      blocks.length = sampleTables3.numberOfBlocks CodeLevel.L 0 ∧
      blocks.flatten = [1, 2, 3, 4, 5, 6, 7, 8] ∧
      (blocks.map List.length).sum = [1, 2, 3, 4, 5, 6, 7, 8].length :=
  ⟨by decide,
    divideIntoBlocks_lossless sampleTables3 (NewEncoder CodeLevel.L) [1, 2, 3, 4, 5, 6, 7, 8]
      (by decide)⟩

/-- C4: for every buffer of length `n` and block count `N >= 1`, with
`base = n / N` and `r = n mod N`, the blocks returned by `divideIntoBlocks`
at indices `0 .. N-r-1` have length `base` and those at indices
`N-r .. N-1` have length `base + 1`; any two blocks differ in length by at
most one byte. -/
theorem divideIntoBlocks_block_sizes (t : Tables) (e : Encoder) (buff : List Nat)
    (hN : 1 ≤ t.numberOfBlocks e.level e.version) :
    ∃ blocks, divideIntoBlocks t e buff = some blocks ∧
      (∀ i, i < t.numberOfBlocks e.level e.version -
            buff.length % t.numberOfBlocks e.level e.version →
          (blocks.getD i []).length = buff.length / t.numberOfBlocks e.level e.version) ∧
      (∀ i, t.numberOfBlocks e.level e.version -
            buff.length % t.numberOfBlocks e.level e.version ≤ i →
          i < t.numberOfBlocks e.level e.version →
          (blocks.getD i []).length = buff.length / t.numberOfBlocks e.level e.version + 1) ∧
      (∀ i j, i < t.numberOfBlocks e.level e.version →
          j < t.numberOfBlocks e.level e.version →
          (blocks.getD i []).length ≤ (blocks.getD j []).length + 1) := by
  refine ⟨_, divideIntoBlocks_eq t e buff hN, ?_⟩
  generalize t.numberOfBlocks e.level e.version = N at hN ⊢
  have hsz := divide_sizes buff.length N
  have hlt : buff.length % N < N := Nat.mod_lt _ (by omega)
  have hfirst : ∀ i, i < N - buff.length % N →
      ((chunks buff (buff.length / N) (N - buff.length % N) 0 ++
        chunks buff (buff.length / N + 1) (buff.length % N)
          ((N - buff.length % N) * (buff.length / N))).getD i []).length = buff.length / N := by
    intro i hi
    rw [List.getD_append _ _ _ _ (by rw [chunks_length]; exact hi)]
    exact chunks_getD_length buff _ _ 0 i hi (by omega)
  have hlast : ∀ i, N - buff.length % N ≤ i → i < N →
      ((chunks buff (buff.length / N) (N - buff.length % N) 0 ++
        chunks buff (buff.length / N + 1) (buff.length % N)
          ((N - buff.length % N) * (buff.length / N))).getD i []).length =
        buff.length / N + 1 := by
    intro i hi1 hi2
    rw [List.getD_append_right _ _ _ _ (by rw [chunks_length]; exact hi1), chunks_length]
    exact chunks_getD_length buff _ _ _ _ (by omega) (by omega)
  refine ⟨hfirst, hlast, ?_⟩
  intro i j hi hj
  by_cases h1 : i < N - buff.length % N <;> by_cases h2 : j < N - buff.length % N
  · rw [hfirst i h1, hfirst j h2]; omega
  · rw [hfirst i h1, hlast j (by omega) hj]; omega
  · rw [hlast i (by omega) hi, hfirst j h2]
  · rw [hlast i (by omega) hi, hlast j (by omega) hj]; omega

/-- Eight bytes in three blocks: one block of 2 bytes, then two of 3. -/
theorem divideIntoBlocks_block_sizes_witness :
    1 ≤ sampleTables3.numberOfBlocks CodeLevel.L 0 ∧
    divideIntoBlocks sampleTables3 (NewEncoder CodeLevel.L) [1, 2, 3, 4, 5, 6, 7, 8] =
      some [[1, 2], [3, 4, 5], [6, 7, 8]] ∧
    ∃ blocks, divideIntoBlocks sampleTables3 (NewEncoder CodeLevel.L) [1, 2, 3, 4, 5, 6, 7, 8] =
        some blocks ∧
      (∀ i, i < sampleTables3.numberOfBlocks CodeLevel.L 0 -
            [1, 2, 3, 4, 5, 6, 7, 8].length % sampleTables3.numberOfBlocks CodeLevel.L 0 →
          (blocks.getD i []).length =
            [1, 2, 3, 4, 5, 6, 7, 8].length / sampleTables3.numberOfBlocks CodeLevel.L 0) ∧
      (∀ i, sampleTables3.numberOfBlocks CodeLevel.L 0 -
            [1, 2, 3, 4, 5, 6, 7, 8].length % sampleTables3.numberOfBlocks CodeLevel.L 0 ≤ i →
          i < sampleTables3.numberOfBlocks CodeLevel.L 0 →
          (blocks.getD i []).length =
            [1, 2, 3, 4, 5, 6, 7, 8].length / sampleTables3.numberOfBlocks CodeLevel.L 0 + 1) ∧
      (∀ i j, i < sampleTables3.numberOfBlocks CodeLevel.L 0 →
          j < sampleTables3.numberOfBlocks CodeLevel.L 0 →
          (blocks.getD i []).length ≤ (blocks.getD j []).length + 1) :=
  ⟨by decide, by decide,
    divideIntoBlocks_block_sizes sampleTables3 (NewEncoder CodeLevel.L) [1, 2, 3, 4, 5, 6, 7, 8]
      (by decide)⟩

/-! ## `generateCorrectionBlocks`: the division and what is returned -/

theorem referenceXor_length (t : Tables) (g : List Nat) (b i : Nat) :
    ∀ (k j : Nat) (arr : List Nat), (referenceXor t g b i k j arr).length = arr.length := by
  intro k
  induction k with
  | zero => intro j arr; simp [referenceXor]
  | succ k ih => intro j arr; simp [referenceXor, ih]

theorem referenceDivide_length (t : Tables) (g : List Nat) (c : Nat) :
    ∀ (k i : Nat) (arr : List Nat), (referenceDivide t g c k i arr).length = arr.length := by
  intro k
  induction k with
  | zero => intro i arr; simp [referenceDivide]
  | succ k ih =>
    intro i arr
    simp only [referenceDivide]
    by_cases h : arr.getD i 0 = 0
    · rw [if_pos h, ih]
    · rw [if_neg h, ih, referenceXor_length]

/-- Inside the bounds of the generator and of the working array, the inner
loop of the code does not panic and performs the XOR updates of the
specification. -/
theorem xorGenerator_eq (t : Tables) (g : List Nat) (b i : Nat) :
    ∀ (k j : Nat) (arr : List Nat), j + k ≤ g.length → i + j + k < arr.length →
      xorGenerator t g b i k j arr = some (referenceXor t g b i k j arr) := by
  intro k
  induction k with
  | zero => intro j arr _ _; simp [xorGenerator, referenceXor]
  | succ k ih =>
    intro j arr hg hlen
    have hj : j < g.length := by omega
    have hget : g.get? j = some (g.getD j 0) := by
      simp [List.getD, List.getElem?_eq_getElem hj]
    simp only [xorGenerator, hget, referenceXor]
    have hx : xorAt arr (i + j + 1) (t.GF ((g.getD j 0 + b) % 255)) =
        some (arr.set (i + j + 1) (arr.getD (i + j + 1) 0 ^^^ t.GF ((g.getD j 0 + b) % 255))) := by
      unfold xorAt
      rw [if_pos (by omega)]
    rw [hx]
    simp only
    exact ih (j + 1) _ (by omega) (by simp; omega)

/-- While the positions `i .. i+k-1` and the `c` positions after each of
them lie inside the working array, the loop over the block does not panic
and performs the division of the specification. -/
theorem divideByGenerator_eq (t : Tables) (g : List Nat) (c : Nat) (hc : c ≤ g.length) :
    ∀ (k i : Nat) (arr : List Nat), i + k + c ≤ arr.length →
      divideByGenerator t g c k i arr = some (referenceDivide t g c k i arr) := by
  intro k
  induction k with
  | zero => intro i arr _; simp [divideByGenerator, referenceDivide]
  | succ k ih =>
    intro i arr hlen
    have hi : i < arr.length := by omega
    have hget : arr.get? i = some (arr.getD i 0) := by
      simp [List.getD, List.getElem?_eq_getElem hi]
    simp only [divideByGenerator, hget, referenceDivide]
    by_cases h0 : arr.getD i 0 = 0
    · rw [if_pos h0, if_pos h0]
      exact ih (i + 1) arr (by omega)
    · rw [if_neg h0, if_neg h0]
      rw [xorGenerator_eq t g (t.invGF (arr.getD i 0)) i c 0 arr (by omega) (by omega)]
      simp only
      exact ih (i + 1) _ (by rw [referenceXor_length]; omega)

theorem MaxInt_ge_left (a b : Nat) : a ≤ MaxInt a b := by
  unfold MaxInt; by_cases h : a < b <;> simp [h]; omega

theorem MaxInt_ge_right (a b : Nat) : b ≤ MaxInt a b := by
  unfold MaxInt; by_cases h : a < b <;> simp [h]; omega

/-- With a generator of at least `c` coefficients the code does not panic on
any block: it divides the block extended by `MaxInt n c` zero bytes and
returns the last `c` bytes of that array. -/
theorem correctionBlock_eq (t : Tables) (g : List Nat) (c : Nat) (hc : c ≤ g.length)
    (block : List Nat) :
    correctionBlock t g c block =
      some ((referenceDivide t g c block.length 0
          (block ++ List.replicate (MaxInt block.length c) 0)).drop
        (block.length + MaxInt block.length c - c)) := by
  unfold correctionBlock
  have hm := MaxInt_ge_right block.length c
  simp only
  rw [divideByGenerator_eq t g c hc block.length 0 _ (by simp; omega)]
  simp only [referenceDivide_length, List.length_append, List.length_replicate]
  rw [if_pos (by omega)]

/-- With a generator of at least `c` coefficients the code produces one
correction block of `c` bytes per data block, without panicking. -/
theorem correctionBlocks_some (t : Tables) (g : List Nat) (c : Nat) (hc : c ≤ g.length) :
    ∀ blocks : List (List Nat), ∃ cbs, correctionBlocks t g c blocks = some cbs ∧
      cbs.length = blocks.length ∧ ∀ cb, cb ∈ cbs → cb.length = c := by
  intro blocks
  induction blocks with
  | nil => exact ⟨[], by simp [correctionBlocks], rfl, by simp⟩
  | cons block rest ih =>
    obtain ⟨more, hmore, hlen, hall⟩ := ih
    refine ⟨(referenceDivide t g c block.length 0
          (block ++ List.replicate (MaxInt block.length c) 0)).drop
        (block.length + MaxInt block.length c - c) :: more,
      by simp only [correctionBlocks, correctionBlock_eq t g c hc, hmore],
      by simp [hlen], ?_⟩
    intro cb hcb
    rcases List.mem_cons.mp hcb with h | h
    · subst h
      have hm := MaxInt_ge_right block.length c
      simp only [List.length_drop, referenceDivide_length, List.length_append,
        List.length_replicate]
      omega
    · exact hall cb h

/-- C5 (the code departs from it): for the 19-byte block of "HI!" and 7
correction codewords, the remainder of the division by the generator
polynomial, the bytes at positions `n .. n+c-1`, is
`[80, 252, 198, 153, 66, 43, 4]`, whereas `generateCorrectionBlocks` returns
seven zero bytes, and `Encode` ends its stream with them. -/
theorem generateCorrectionBlocks_misses_remainder :
    referenceCorrection sampleTables (sampleTables.polynomialCoefficients 7) 7 sampleBlock =
      [80, 252, 198, 153, 66, 43, 4] ∧
    generateCorrectionBlocks sampleTables { level := CodeLevel.L, version := 0 } [sampleBlock] =
      some [[0, 0, 0, 0, 0, 0, 0]] ∧
    Encode sampleTables (NewEncoder CodeLevel.L) [72, 73, 33] =
      some (some (sampleBlock ++ [0, 0, 0, 0, 0, 0, 0]), []) := by
  set_option maxRecDepth 1000000 in
  refine ⟨by decide, by decide, by decide⟩

/-! ## `mergeBlocks`: the interleaved stream -/

/-- C6 (the code departs from it): with one data block of 9 bytes and one
correction block of 17 bytes, the stream returned by `mergeBlocks` has 18
bytes, not 9 + 17 = 26: the correction bytes at indices 9 to 16 are
dropped. -/
theorem mergeBlocks_drops_correction_bytes :
    mergeBlocks [sampleShortBlock] [sampleCorrection] =
      sampleShortBlock ++ [1, 2, 3, 4, 5, 6, 7, 8, 9] ∧
    (mergeBlocks [sampleShortBlock] [sampleCorrection]).length = 18 ∧
    (([sampleShortBlock].map List.length).sum + ([sampleCorrection].map List.length).sum) = 26 := by
  refine ⟨by decide, by decide, by decide⟩

/-- C7 (the code departs from it): two inputs with the same data block and
with correction blocks of the same length that differ in their last byte are
merged into the same stream, so the stream does not determine the blocks. -/
theorem mergeBlocks_not_reversible :
    mergeBlocks [sampleShortBlock] [sampleCorrection] =
      mergeBlocks [sampleShortBlock] [sampleCorrectionAlt] ∧
    [sampleCorrection].map List.length = [sampleCorrectionAlt].map List.length ∧
    [sampleCorrection] ≠ [sampleCorrectionAlt] := by
  refine ⟨by decide, by decide, by decide⟩

/-! ## `Encode`: results and errors -/

/-- When `getVersion` fails, `Encode` returns no bytes and the error that
combines `ErrVersionNotFound` with the error of `getVersion`. -/
theorem Encode_of_error (t : Tables) (e : Encoder) (text : List Nat) (err0 : Err)
    (h : getVersion t e text.length = Except.error err0) :
    Encode t e text = some (none, [Err.ErrVersionNotFound, err0]) := by
  unfold Encode
  simp only [h, Combine, List.flatten, List.cons_append, List.nil_append]

/-- When `getVersion` succeeds, `Encode` either panics or returns bytes and a
nil error. -/
theorem Encode_of_ok (t : Tables) (e : Encoder) (text : List Nat) (v : Nat)
    (h : getVersion t e text.length = Except.ok v) :
    Encode t e text = none ∨ ∃ result, Encode t e text = some (some result, []) := by
  unfold Encode
  simp only [h]
  cases divideIntoBlocks t { level := e.level, version := v }
      (fillBuffer t { level := e.level, version := v } [] text) with
  | none => left; rfl
  | some blocks =>
    simp only
    cases generateCorrectionBlocks t { level := e.level, version := v } blocks with
    | none => left; rfl
    | some cbs => right; exact ⟨_, rfl⟩

/-- When `getVersion` succeeds and the tables give the version at least one
block and a generator with all its coefficients, `Encode` does not panic: it
returns bytes and a nil error. -/
theorem Encode_of_ok_tables (t : Tables) (e : Encoder) (text : List Nat) (v : Nat)
    (h : getVersion t e text.length = Except.ok v)
    (hblocks : 1 ≤ t.numberOfBlocks e.level v)
    (hgen : t.numberOfCorrectionBytes e.level v ≤
      (t.polynomialCoefficients (t.numberOfCorrectionBytes e.level v)).length) :
    ∃ result, Encode t e text = some (some result, []) := by
  unfold Encode
  simp only [h]
  rw [divideIntoBlocks_eq t { level := e.level, version := v }
    (fillBuffer t { level := e.level, version := v } [] text) hblocks]
  simp only
  obtain ⟨cbs, hcbs, _⟩ := correctionBlocks_some t _ _ hgen
    (chunks (fillBuffer t { level := e.level, version := v } [] text)
        ((fillBuffer t { level := e.level, version := v } [] text).length /
          t.numberOfBlocks e.level v)
        (t.numberOfBlocks e.level v -
          (fillBuffer t { level := e.level, version := v } [] text).length %
            t.numberOfBlocks e.level v) 0 ++
      chunks (fillBuffer t { level := e.level, version := v } [] text)
        ((fillBuffer t { level := e.level, version := v } [] text).length /
          t.numberOfBlocks e.level v + 1)
        ((fillBuffer t { level := e.level, version := v } [] text).length %
          t.numberOfBlocks e.level v)
        ((t.numberOfBlocks e.level v -
          (fillBuffer t { level := e.level, version := v } [] text).length %
            t.numberOfBlocks e.level v) *
          ((fillBuffer t { level := e.level, version := v } [] text).length /
            t.numberOfBlocks e.level v)))
  unfold generateCorrectionBlocks
  simp only [hcbs]
  exact ⟨_, rfl⟩

/-- C8: over tables of the QR shape (capacity gaps of at least 16 bits, at
least one block and a full generator for every version), `Encode` never
panics; it returns a non-nil error if and only if no version of the level's
capacity table can hold `4 + w + 8*len(text)` bits; with an error the
returned byte slice is nil, and without one it is not. -/
theorem Encode_error_iff_no_version_fits (t : Tables) (e : Encoder) (text : List Nat)
    (hgaps : CapacityGaps (t.versionSize e.level))
    (hblocks : ∀ v, v < (t.versionSize e.level).length → 1 ≤ t.numberOfBlocks e.level v)
    (hgen : ∀ v, v < (t.versionSize e.level).length →
      t.numberOfCorrectionBytes e.level v ≤
        (t.polynomialCoefficients (t.numberOfCorrectionBytes e.level v)).length) :
    ∃ bytes err, Encode t e text = some (bytes, err) ∧
      (err ≠ [] ↔ ¬ ∃ v, v < (t.versionSize e.level).length ∧
        4 + lengthFieldWidth v + 8 * text.length ≤ (t.versionSize e.level).getD v 0) ∧
      (err ≠ [] → bytes = none) ∧
      (err = [] → bytes ≠ none) := by
  cases hv : getVersion t e text.length with
  | error err0 =>
    refine ⟨none, [Err.ErrVersionNotFound, err0], Encode_of_error t e text err0 hv, ?_, ?_, ?_⟩
    · constructor
      · intro _ hex
        obtain ⟨v, hvlt, hfit⟩ := hex
        exact getVersion_error t e text.length err0 hgaps hv v hvlt hfit
      · intro _; simp
    · intro _; rfl
    · intro h; simp at h
  | ok v =>
    obtain ⟨hvlt, hfit, _⟩ := getVersion_ok t e text.length v hgaps hv
    obtain ⟨result, hres⟩ := Encode_of_ok_tables t e text v hv (hblocks v hvlt) (hgen v hvlt)
    refine ⟨some result, [], hres, ?_, ?_, ?_⟩
    · constructor
      · intro h; exact absurd rfl h
      · intro h; exact absurd ⟨v, hvlt, hfit⟩ h
    · intro h; exact absurd rfl h
    · intro _; simp

/-- The input "HI!" at the lowest level over the sample tables. -/
theorem Encode_error_iff_no_version_fits_witness :
    CapacityGaps (sampleTables.versionSize CodeLevel.L) ∧
    (∀ v, v < (sampleTables.versionSize CodeLevel.L).length →
      1 ≤ sampleTables.numberOfBlocks CodeLevel.L v) ∧
    (∀ v, v < (sampleTables.versionSize CodeLevel.L).length →
      sampleTables.numberOfCorrectionBytes CodeLevel.L v ≤
        (sampleTables.polynomialCoefficients
          (sampleTables.numberOfCorrectionBytes CodeLevel.L v)).length) ∧
    ∃ bytes err, Encode sampleTables (NewEncoder CodeLevel.L) [72, 73, 33] = some (bytes, err) ∧
      (err ≠ [] ↔ ¬ ∃ v, v < (sampleTables.versionSize CodeLevel.L).length ∧
        4 + lengthFieldWidth v + 8 * [72, 73, 33].length ≤
          (sampleTables.versionSize CodeLevel.L).getD v 0) ∧
      (err ≠ [] → bytes = none) ∧
      (err = [] → bytes ≠ none) :=
  ⟨by decide, by decide, by decide,
    Encode_error_iff_no_version_fits sampleTables (NewEncoder CodeLevel.L) [72, 73, 33]
      (by decide) (by decide) (by decide)⟩

/-- C9 as stated fails: for a text of 2954 bytes at the lowest level the
search does find a version with capacity at least `4 + 8*L` (the last one,
index 39, 23648 bits against 23636), the input is of the too-large kind, and
the error returned by `Encode` contains `ErrVersionNotFound` all the same,
next to `ErrTooLargeSize`. -/
theorem Encode_too_large_is_reported_as_version_not_found :
    ∃ bytes err, Encode sampleTables (NewEncoder CodeLevel.L) sampleLongText = some (bytes, err) ∧
      Err.ErrVersionNotFound ∈ err ∧ Err.ErrTooLargeSize ∈ err ∧
      LowerBound (sampleTables.versionSize CodeLevel.L) (sampleLongText.length * 8 + 4) =
        Except.ok 39 ∧
      ¬ (∀ k, k < (sampleTables.versionSize CodeLevel.L).length →
        (sampleTables.versionSize CodeLevel.L).getD k 0 < 4 + 8 * sampleLongText.length) := by
  have hlen : sampleLongText.length = 2954 := by
    unfold sampleLongText; exact List.length_replicate _ _
  have hv : getVersion sampleTables (NewEncoder CodeLevel.L) sampleLongText.length =
      Except.error Err.ErrTooLargeSize := by
    rw [hlen]; rfl
  refine ⟨none, [Err.ErrVersionNotFound, Err.ErrTooLargeSize],
    Encode_of_error sampleTables (NewEncoder CodeLevel.L) sampleLongText Err.ErrTooLargeSize hv,
    by decide, by decide, by rw [hlen]; rfl, ?_⟩
  rw [hlen]
  decide

/-- C9, amended: over a capacity table with gaps of at least 16 bits, every
error returned by `Encode` contains `ErrVersionNotFound`, whichever the
cause; it contains `ErrTooLargeSize` exactly when the search finds a starting
version but even the largest version cannot hold the bit length with its
length field; it contains the error of the search exactly when no version
has a capacity of at least `4 + 8*L`; the latter two never occur together,
and a failing `Encode` returns rather than panics. -/
theorem Encode_error_kinds (t : Tables) (e : Encoder) (text : List Nat)
    (hgaps : CapacityGaps (t.versionSize e.level)) :
    (∀ bytes err, Encode t e text = some (bytes, err) →
      (err ≠ [] → Err.ErrVersionNotFound ∈ err) ∧
      (Err.ErrTooLargeSize ∈ err ↔
        (∃ s, LowerBound (t.versionSize e.level) (text.length * 8 + 4) = Except.ok s) ∧
        (t.versionSize e.level).getD ((t.versionSize e.level).length - 1) 0 <
          4 + lengthFieldWidth ((t.versionSize e.level).length - 1) + 8 * text.length) ∧
      (Err.ErrNotFound ∈ err ↔
        ∀ k, k < (t.versionSize e.level).length →
          (t.versionSize e.level).getD k 0 < 4 + 8 * text.length) ∧
      ¬ (Err.ErrTooLargeSize ∈ err ∧ Err.ErrNotFound ∈ err)) ∧
    ((∃ err0, getVersion t e text.length = Except.error err0) →
      ∃ err, Encode t e text = some (none, err) ∧ err ≠ []) := by
  have hw : ∀ n, lengthFieldWidth n = 8 ∨ lengthFieldWidth n = 16 := by
    intro n; unfold lengthFieldWidth; by_cases h : n < 9 <;> simp [h]
  constructor
  · intro bytes err henc
    rcases getVersion_cases t e text.length with ⟨err0, hlb, h⟩ | ⟨s, hlb, hfit, h⟩ |
        ⟨s, hlb, hfit, hlen, h⟩ | ⟨s, hlb, hfit, hlen, h⟩
    · -- the search fails
      obtain ⟨he0, hall⟩ := LowerBound_error _ _ _ hlb
      subst he0
      rw [Encode_of_error t e text _ h] at henc
      cases henc
      refine ⟨by intro _; simp, ?_, ?_, by simp⟩
      · constructor
        · intro hmem; simp at hmem
        · rintro ⟨⟨s, hs⟩, _⟩
          rw [hlb] at hs; cases hs
      · constructor
        · intro _ k hk
          have := hall k hk
          omega
        · intro _; simp
    · -- the starting version fits
      obtain ⟨hs, htar, _⟩ := LowerBound_ok _ _ _ hlb
      have herr : err = [] := by
        rcases Encode_of_ok t e text s h with h2 | ⟨r, h2⟩
        · rw [h2] at henc; cases henc
        · rw [h2] at henc; cases henc; rfl
      subst herr
      refine ⟨by intro h0; exact absurd rfl h0, ?_, ?_, by simp⟩
      · constructor
        · intro hmem; simp at hmem
        · rintro ⟨_, hlast⟩
          exfalso
          by_cases hsl : s = (t.versionSize e.level).length - 1
          · rw [← hsl] at hlast; omega
          · have := CapacityGaps_mono _ hgaps s ((t.versionSize e.level).length - 1)
              (by omega) (by omega)
            rcases hw s with h2 | h2 <;>
              rcases hw ((t.versionSize e.level).length - 1) with h3 | h3 <;> omega
      · constructor
        · intro hmem; simp at hmem
        · intro hall
          have := hall s hs
          omega
    · -- the next version is taken
      obtain ⟨hs, htar, _⟩ := LowerBound_ok _ _ _ hlb
      have herr : err = [] := by
        rcases Encode_of_ok t e text (s + 1) h with h2 | ⟨r, h2⟩
        · rw [h2] at henc; cases henc
        · rw [h2] at henc; cases henc; rfl
      subst herr
      refine ⟨by intro h0; exact absurd rfl h0, ?_, ?_, by simp⟩
      · constructor
        · intro hmem; simp at hmem
        · rintro ⟨_, hlast⟩
          exfalso
          have := CapacityGaps_mono _ hgaps s ((t.versionSize e.level).length - 1)
            (by omega) (by omega)
          rcases hw ((t.versionSize e.level).length - 1) with h3 | h3 <;> omega
      · constructor
        · intro hmem; simp at hmem
        · intro hall
          have := hall s hs
          omega
    · -- no next version
      obtain ⟨hs, htar, _⟩ := LowerBound_ok _ _ _ hlb
      rw [Encode_of_error t e text _ h] at henc
      cases henc
      have hsl : s = (t.versionSize e.level).length - 1 := by omega
      refine ⟨by intro _; simp, ?_, ?_, by simp⟩
      · constructor
        · intro _
          refine ⟨⟨s, hlb⟩, ?_⟩
          rw [← hsl]
          omega
        · intro _; simp
      · constructor
        · intro hmem; simp at hmem
        · intro hall
          have := hall s hs
          omega
  · rintro ⟨err0, h0⟩
    exact ⟨_, Encode_of_error t e text err0 h0, by simp⟩

/-- The text of 2954 bytes at the lowest level over the sample tables. -/
theorem Encode_error_kinds_witness :
    CapacityGaps (sampleTables.versionSize (NewEncoder CodeLevel.L).level) ∧
    ((∀ bytes err, Encode sampleTables (NewEncoder CodeLevel.L) sampleLongText =
        some (bytes, err) →
      (err ≠ [] → Err.ErrVersionNotFound ∈ err) ∧
      (Err.ErrTooLargeSize ∈ err ↔
        (∃ s, LowerBound (sampleTables.versionSize (NewEncoder CodeLevel.L).level)
          (sampleLongText.length * 8 + 4) = Except.ok s) ∧
        (sampleTables.versionSize (NewEncoder CodeLevel.L).level).getD
            ((sampleTables.versionSize (NewEncoder CodeLevel.L).level).length - 1) 0 <
          4 + lengthFieldWidth ((sampleTables.versionSize (NewEncoder CodeLevel.L).level).length - 1) +
            8 * sampleLongText.length) ∧
      (Err.ErrNotFound ∈ err ↔
        ∀ k, k < (sampleTables.versionSize (NewEncoder CodeLevel.L).level).length →
          (sampleTables.versionSize (NewEncoder CodeLevel.L).level).getD k 0 < 4 + 8 * sampleLongText.length) ∧
      ¬ (Err.ErrTooLargeSize ∈ err ∧ Err.ErrNotFound ∈ err)) ∧
    ((∃ err0, getVersion sampleTables (NewEncoder CodeLevel.L) sampleLongText.length =
        Except.error err0) →
      ∃ err, Encode sampleTables (NewEncoder CodeLevel.L) sampleLongText = some (none, err) ∧
        err ≠ [])) :=
  ⟨by decide, Encode_error_kinds sampleTables (NewEncoder CodeLevel.L) sampleLongText (by decide)⟩

/-! ## `ToBoolArray`: the bits of a byte -/

theorem and_two_pow_ne_zero (b k : Nat) : b &&& 2 ^ k ≠ 0 ↔ b.testBit k = true := by
  cases h : b.testBit k with
  | true =>
    have h1 : (b &&& 2 ^ k).testBit k = true := by
      rw [Nat.testBit_and, h, Nat.testBit_two_pow]; simp
    have h2 : b &&& 2 ^ k ≠ 0 := by
      intro h0; rw [h0] at h1; simp at h1
    simpa using h2
  | false =>
    have h0 : b &&& 2 ^ k = 0 := by
      apply Nat.eq_of_testBit_eq
      intro j
      rw [Nat.testBit_and, Nat.testBit_two_pow, Nat.zero_testBit]
      by_cases hkj : k = j
      · subst hkj; simp [h]
      · simp [hkj]
    simp [h0]

/-- C10: for every byte `b` and every index `i` in `0..7`, entry `i` of
`ToBoolArray(b)` is true if and only if bit `7 - i` of `b` is set: the 8
booleans are the bits of `b`, most-significant bit first.  The model meets
every row of the table of `TestToBoolArray`, among them
`ToBoolArray(0xAB) = {1,0,1,0,1,0,1,1}`. -/
theorem ToBoolArray_msb_first :
    (∀ (b : Nat) (i : Fin 8),
      (ToBoolArray b).getD i.val false = true ↔ b.testBit (7 - i.val) = true) ∧
    (∀ b : Nat, (ToBoolArray b).length = 8) ∧
    ToBoolArray 0xAB = [true, false, true, false, true, false, true, true] ∧
    (∀ p, p ∈ toBoolArrayTests → ToBoolArray p.1 = p.2) := by
  refine ⟨?_, ?_, by decide, by decide⟩
  · intro b i
    have h7 := and_two_pow_ne_zero b 7
    have h6 := and_two_pow_ne_zero b 6
    have h5 := and_two_pow_ne_zero b 5
    have h4 := and_two_pow_ne_zero b 4
    have h3 := and_two_pow_ne_zero b 3
    have h2 := and_two_pow_ne_zero b 2
    have h1 := and_two_pow_ne_zero b 1
    fin_cases i
    · simpa [ToBoolArray, List.range, List.range.loop] using h7
    · simpa [ToBoolArray, List.range, List.range.loop] using h6
    · simpa [ToBoolArray, List.range, List.range.loop] using h5
    · simpa [ToBoolArray, List.range, List.range.loop] using h4
    · simpa [ToBoolArray, List.range, List.range.loop] using h3
    · simpa [ToBoolArray, List.range, List.range.loop] using h2
    · simpa [ToBoolArray, List.range, List.range.loop] using h1
    · simp [ToBoolArray, List.range, List.range.loop]
  · intro b
    simp [ToBoolArray]

/-! ## `generateCorrectionBlocks`: blocks at least twice as long as the correction count -/

/-- The XOR updates for position `i` change nothing beyond position
`i + c`. -/
theorem referenceXor_getD_far (t : Tables) (g : List Nat) (b i : Nat) :
    ∀ (k j : Nat) (arr : List Nat) (p : Nat), i + j + k < p →
      (referenceXor t g b i k j arr).getD p 0 = arr.getD p 0 := by
  intro k
  induction k with
  | zero => intro j arr p _; simp [referenceXor]
  | succ k ih =>
    intro j arr p hp
    simp only [referenceXor]
    rw [ih (j + 1) _ p (by omega)]
    simp only [List.getD_eq_getElem?_getD]
    rw [List.getElem?_set_ne (by omega)]

/-- The division over the positions `i .. i+k-1` changes nothing from
position `i + k + c` on. -/
theorem referenceDivide_getD_far (t : Tables) (g : List Nat) (c : Nat) :
    ∀ (k i : Nat) (arr : List Nat) (p : Nat), i + k + c ≤ p →
      (referenceDivide t g c k i arr).getD p 0 = arr.getD p 0 := by
  intro k
  induction k with
  | zero => intro i arr p _; simp [referenceDivide]
  | succ k ih =>
    intro i arr p hp
    simp only [referenceDivide]
    by_cases h0 : arr.getD i 0 = 0
    · rw [if_pos h0]
      exact ih (i + 1) arr p (by omega)
    · rw [if_neg h0, ih (i + 1) _ p (by omega)]
      exact referenceXor_getD_far t g _ i c 0 arr p (by omega)

/-- A list all of whose entries, read with default 0, are 0 is a list of
zeros. -/
theorem eq_replicate_zero_of_getD (l : List Nat) (h : ∀ q, l.getD q 0 = 0) :
    l = List.replicate l.length 0 := by
  apply List.ext_getElem (by simp)
  intro q h1 h2
  have := h q
  simp only [List.getD_eq_getElem?_getD, List.getElem?_eq_getElem h1, Option.getD_some] at this
  simp [this]

/-- For a block of `n >= 2c` bytes the code returns `c` zero bytes, whatever
the contents of the block and of the tables, provided the generator has its
`c` coefficients. -/
theorem correctionBlock_zero (t : Tables) (g : List Nat) (c : Nat) (hc : c ≤ g.length)
    (block : List Nat) (hn : 2 * c ≤ block.length) :
    correctionBlock t g c block = some (List.replicate c 0) := by
  rw [correctionBlock_eq t g c hc block]
  have hm : MaxInt block.length c = block.length := by
    unfold MaxInt
    rw [if_neg (by omega)]
  rw [hm]
  congr 1
  have hlen : ((referenceDivide t g c block.length 0
      (block ++ List.replicate block.length 0)).drop
        (block.length + block.length - c)).length = c := by
    simp only [List.length_drop, referenceDivide_length, List.length_append,
      List.length_replicate]
    omega
  have hz := eq_replicate_zero_of_getD ((referenceDivide t g c block.length 0
      (block ++ List.replicate block.length 0)).drop (block.length + block.length - c)) (by
    intro q
    rw [List.getD_eq_getElem?_getD, List.getElem?_drop, ← List.getD_eq_getElem?_getD,
      referenceDivide_getD_far t g c block.length 0 _ _ (by omega)]
    rw [List.getD_append_right _ _ _ _ (by omega)]
    simp only [List.getD_eq_getElem?_getD, List.getElem?_replicate]
    split <;> rfl)
  rw [hlen] at hz
  exact hz

/-- C19: for every data block of `n` bytes and correction count `c >= 1`
with `n >= 2c`, whatever the block's contents and whatever the Galois-field
and generator tables (the generator holding its `c` coefficients), the
correction block returned by `generateCorrectionBlocks` consists of `c` zero
bytes: the working array has `n + max(n, c) = 2n` bytes, the XOR updates
leave every position from `n + c` on at zero, and the returned slice is made
of the positions `2n-c .. 2n-1`. -/
theorem generateCorrectionBlocks_zero_for_long_blocks (t : Tables) (e : Encoder)
    (dataBlocks : List (List Nat))
    (hc : 1 ≤ t.numberOfCorrectionBytes e.level e.version)
    (hg : t.numberOfCorrectionBytes e.level e.version ≤
      (t.polynomialCoefficients (t.numberOfCorrectionBytes e.level e.version)).length)
    (hn : ∀ block, block ∈ dataBlocks →
      2 * t.numberOfCorrectionBytes e.level e.version ≤ block.length) :
    generateCorrectionBlocks t e dataBlocks =
        some (List.replicate dataBlocks.length
          (List.replicate (t.numberOfCorrectionBytes e.level e.version) 0)) ∧
      ∀ block, block ∈ dataBlocks →
        MaxInt block.length (t.numberOfCorrectionBytes e.level e.version) = block.length ∧
        ∀ p, block.length + t.numberOfCorrectionBytes e.level e.version ≤ p →
          (referenceDivide t (t.polynomialCoefficients (t.numberOfCorrectionBytes e.level e.version))
            (t.numberOfCorrectionBytes e.level e.version) block.length 0
            (block ++ List.replicate block.length 0)).getD p 0 = 0 := by
  constructor
  · unfold generateCorrectionBlocks
    simp only
    induction dataBlocks with
    | nil => simp [correctionBlocks]
    | cons block rest ih =>
      simp only [correctionBlocks]
      rw [correctionBlock_zero t _ _ hg block (hn block (by simp))]
      simp only
      rw [ih (fun b hb => hn b (by simp [hb]))]
      simp [List.replicate_succ]
  · intro block hb
    have h2 := hn block hb
    constructor
    · unfold MaxInt
      rw [if_neg (by omega)]
    · intro p hp
      rw [referenceDivide_getD_far t _ _ block.length 0 _ p (by omega)]
      rw [List.getD_append_right _ _ _ _ (by omega)]
      simp only [List.getD_eq_getElem?_getD, List.getElem?_replicate]
      split <;> rfl

/-- The 19-byte block of "HI!" with 7 correction codewords. -/
theorem generateCorrectionBlocks_zero_for_long_blocks_witness :
    1 ≤ sampleTables.numberOfCorrectionBytes CodeLevel.L 0 ∧
    generateCorrectionBlocks sampleTables { level := CodeLevel.L, version := 0 } [sampleBlock] =
      some (List.replicate [sampleBlock].length
        (List.replicate
          (sampleTables.numberOfCorrectionBytes
            ({ level := CodeLevel.L, version := 0 } : Encoder).level
            ({ level := CodeLevel.L, version := 0 } : Encoder).version) 0)) :=
  ⟨by decide,
    (generateCorrectionBlocks_zero_for_long_blocks sampleTables
      { level := CodeLevel.L, version := 0 } [sampleBlock] (by decide) (by decide)
      (by decide)).1⟩

/-! ## `fillBuffer`: the nibbles of the buffer -/

theorem and_15 (b : Nat) : b &&& 15 = b % 16 := Nat.and_pow_two_sub_one_eq_mod b 4

theorem and_255 (b : Nat) : b &&& 255 = b % 256 := Nat.and_pow_two_sub_one_eq_mod b 8

theorem shiftLeft_4 (b : Nat) : b <<< 4 = b * 16 := by rw [Nat.shiftLeft_eq]

theorem shiftLeft_12 (b : Nat) : b <<< 12 = b * 4096 := by rw [Nat.shiftLeft_eq]

theorem shiftRight_4 (b : Nat) : b >>> 4 = b / 16 := by rw [Nat.shiftRight_eq_div_pow]

theorem shiftRight_12 (b : Nat) : b >>> 12 = b / 4096 := by rw [Nat.shiftRight_eq_div_pow]

theorem or_low_nibble (a c : Nat) (h : c < 16) : a * 16 ||| c = a * 16 + c := by
  have := Nat.mul_add_lt_is_or (i := 4) (b := c) (by simpa using h) a
  rw [Nat.mul_comm] at this
  simpa using this.symm

theorem or_low_12 (a c : Nat) (h : c < 4096) : a * 4096 ||| c = a * 4096 + c := by
  have := Nat.mul_add_lt_is_or (i := 12) (b := c) (by simpa using h) a
  rw [Nat.mul_comm] at this
  simpa using this.symm

theorem and_240 : ∀ x, x < 256 → x &&& 240 = x / 16 * 16 := by
  set_option maxRecDepth 100000 in decide

/-- A byte made of a running byte shifted left and the low nibble of a
payload byte, in arithmetic. -/
theorem packed_byte (cur b : Nat) :
    ((cur <<< 4) % 256 ||| (b &&& 15)) = (cur % 16) * 16 + b % 16 := by
  rw [shiftLeft_4, and_15]
  have : cur * 16 % 256 = (cur % 16) * 16 := by omega
  rw [this, or_low_nibble _ _ (by omega)]

/-- The payload loop followed by the trailing byte appends `emitted`. -/
theorem fillData_emitted (t : Tables) :
    ∀ (data buff : List Nat) (cur : Nat),
      (fillData t data buff cur).1 ++ [((fillData t data buff cur).2 <<< 4) % 256] =
        buff ++ emitted t data cur := by
  intro data
  induction data with
  | nil => intro buff cur; simp [fillData, emitted]
  | cons b rest ih =>
    intro buff cur
    simp only [fillData, emitted]
    rw [ih]
    simp

/-- The padding loop only appends. -/
theorem padBuffer_prefix (t : Tables) (capacity : Nat) :
    ∀ (fuel : Nat) (buff : List Nat) (idx cb : Nat),
      ∃ pad, padBuffer t capacity fuel buff idx cb = buff ++ pad := by
  intro fuel
  induction fuel with
  | zero => intro buff idx cb; exact ⟨[], by simp [padBuffer]⟩
  | succ fuel ih =>
    intro buff idx cb
    simp only [padBuffer]
    by_cases h : buff.length * 8 < capacity
    · rw [if_pos h]
      obtain ⟨pad, hpad⟩ := ih (buff ++ [cb]) ((idx + 1) % 2) (t.FillerBytes ((idx + 1) % 2))
      exact ⟨cb :: pad, by rw [hpad]; simp⟩
    · rw [if_neg h]
      exact ⟨[], by simp⟩

/-- Below version index 9 the buffer is the header byte, the emitted payload
bytes and padding. -/
theorem fillBuffer_layout_low (t : Tables) (e : Encoder) (data : List Nat)
    (h9 : e.version < 9) :
    ∃ pad, fillBuffer t e [] data =
      [((t.headerNibble <<< 4) ||| (data.length &&& t.Nible)) % 256] ++
        emitted t data (((data.length >>> 4) &&& t.Nible) % 256) ++ pad := by
  unfold fillBuffer
  simp only [if_pos h9]
  obtain ⟨pad, hpad⟩ := padBuffer_prefix t ((t.versionSize e.level).getD e.version 0)
    ((t.versionSize e.level).getD e.version 0)
    ((fillData t data ([] ++ [((t.headerNibble <<< 4) ||| (data.length &&& t.Nible)) % 256])
        (((data.length >>> 4) &&& t.Nible) % 256)).1 ++
      [((fillData t data ([] ++ [((t.headerNibble <<< 4) ||| (data.length &&& t.Nible)) % 256])
        (((data.length >>> 4) &&& t.Nible) % 256)).2 <<< 4) % 256]) 0 (t.FillerBytes 0)
  refine ⟨pad, ?_⟩
  rw [hpad, fillData_emitted]
  simp

/-- From version index 9 on the buffer is the header byte, the second length
byte, the emitted payload bytes and padding. -/
theorem fillBuffer_layout_high (t : Tables) (e : Encoder) (data : List Nat)
    (h9 : ¬ e.version < 9) :
    ∃ pad, fillBuffer t e [] data =
      [((t.headerNibble <<< 4) ||| (data.length &&& t.Nible)) % 256,
          ((data.length >>> 4) &&& t.Byte) % 256] ++
        emitted t data (((data.length >>> 12) &&& t.Nible) % 256) ++ pad := by
  unfold fillBuffer
  simp only [if_neg h9]
  obtain ⟨pad, hpad⟩ := padBuffer_prefix t ((t.versionSize e.level).getD e.version 0)
    ((t.versionSize e.level).getD e.version 0)
    ((fillData t data ([] ++ [((t.headerNibble <<< 4) ||| (data.length &&& t.Nible)) % 256] ++
          [((data.length >>> 4) &&& t.Byte) % 256])
        (((data.length >>> 12) &&& t.Nible) % 256)).1 ++
      [((fillData t data ([] ++ [((t.headerNibble <<< 4) ||| (data.length &&& t.Nible)) % 256] ++
          [((data.length >>> 4) &&& t.Byte) % 256])
        (((data.length >>> 12) &&& t.Nible) % 256)).2 <<< 4) % 256]) 0 (t.FillerBytes 0)
  refine ⟨pad, ?_⟩
  rw [hpad, fillData_emitted]
  simp

theorem emitted_length (t : Tables) :
    ∀ (data : List Nat) (cur : Nat), (emitted t data cur).length = data.length + 1 := by
  intro data
  induction data with
  | nil => intro cur; simp [emitted]
  | cons b rest ih => intro cur; simp [emitted, ih]

/-- The high nibble of the first emitted byte is the running nibble. -/
theorem emitted_head_high (t : Tables) (hN : t.Nible = 15) (data : List Nat) (cur : Nat) :
    (emitted t data cur).getD 0 0 / 16 = cur % 16 := by
  cases data with
  | nil =>
    simp only [emitted, List.getD_cons_zero, shiftLeft_4]
    omega
  | cons b rest =>
    simp only [emitted, List.getD_cons_zero, hN]
    rw [show (15 : Nat) % 256 = 15 from rfl, packed_byte]
    omega

/-- The low nibble of the byte emitted for payload byte `k` is the low
nibble of that payload byte. -/
theorem emitted_low (t : Tables) (hN : t.Nible = 15) :
    ∀ (data : List Nat) (cur k : Nat), k < data.length →
      (emitted t data cur).getD k 0 % 16 = data.getD k 0 % 16 := by
  intro data
  induction data with
  | nil => intro cur k hk; simp at hk
  | cons b rest ih =>
    intro cur k hk
    cases k with
    | zero =>
      simp only [emitted, List.getD_cons_zero, hN]
      rw [show (15 : Nat) % 256 = 15 from rfl, packed_byte]
      omega
    | succ k =>
      simp only [emitted, List.getD_cons_succ]
      exact ih _ k (by simpa using hk)

/-- The high nibble of the byte emitted after payload byte `k` is the high
nibble of that payload byte. -/
theorem emitted_next_high (t : Tables) (hN : t.Nible = 15) :
    ∀ (data : List Nat) (cur k : Nat), k < data.length →
      (emitted t data cur).getD (k + 1) 0 / 16 = data.getD k 0 / 16 % 16 := by
  intro data
  induction data with
  | nil => intro cur k hk; simp at hk
  | cons b rest ih =>
    intro cur k hk
    cases k with
    | zero =>
      simp only [emitted, List.getD_cons_succ, List.getD_cons_zero]
      rw [emitted_head_high t hN, hN, show (15 : Nat) % 256 = 15 from rfl, and_15, shiftRight_4]
      omega
    | succ k =>
      simp only [emitted, List.getD_cons_succ]
      exact ih _ k (by simpa using hk)

/-- Every emitted byte is a byte. -/
theorem emitted_lt (t : Tables) (hN : t.Nible = 15) :
    ∀ (data : List Nat) (cur k : Nat), (emitted t data cur).getD k 0 < 256 := by
  intro data
  induction data with
  | nil =>
    intro cur k
    cases k with
    | zero => simp only [emitted, List.getD_cons_zero]; omega
    | succ k => simp [emitted]
  | cons b rest ih =>
    intro cur k
    cases k with
    | zero =>
      simp only [emitted, List.getD_cons_zero, hN]
      rw [show (15 : Nat) % 256 = 15 from rfl, packed_byte]
      omega
    | succ k =>
      simp only [emitted, List.getD_cons_succ]
      exact ih _ k

/-- Below version index 9: the nibbles of the buffer in terms of the payload.
Byte 0 carries the low nibble of the length, the high nibble of byte 1 is the
second nibble of the length, byte `k+1` carries the low nibble of payload byte
`k` and the high nibble of byte `k+2` is its high nibble. -/
theorem fillBuffer_nibbles_low (t : Tables) (e : Encoder) (d : List Nat)
    (hN : t.Nible = 15) (h9 : e.version < 9) :
    (fillBuffer t e [] d).getD 0 0 % 16 = d.length % 16 ∧
    (fillBuffer t e [] d).getD 0 0 < 256 ∧
    (fillBuffer t e [] d).getD 1 0 / 16 = d.length / 16 % 16 ∧
    (∀ j, j ≤ d.length → (fillBuffer t e [] d).getD (j + 1) 0 < 256) ∧
    (∀ k, k < d.length →
      (fillBuffer t e [] d).getD (k + 1) 0 % 16 = d.getD k 0 % 16 ∧
      (fillBuffer t e [] d).getD (k + 2) 0 / 16 = d.getD k 0 / 16 % 16) := by
  obtain ⟨pad, hpad⟩ := fillBuffer_layout_low t e d h9
  rw [hpad]
  have hget : ∀ j, j ≤ d.length →
      ([((t.headerNibble <<< 4) ||| (d.length &&& t.Nible)) % 256] ++
        emitted t d (((d.length >>> 4) &&& t.Nible) % 256) ++ pad).getD (j + 1) 0 =
      (emitted t d (((d.length >>> 4) &&& t.Nible) % 256)).getD j 0 := by
    intro j hj
    rw [List.append_assoc, List.singleton_append, List.getD_cons_succ,
      List.getD_append _ _ _ _ (by rw [emitted_length]; omega)]
  have h0 : ([((t.headerNibble <<< 4) ||| (d.length &&& t.Nible)) % 256] ++
        emitted t d (((d.length >>> 4) &&& t.Nible) % 256) ++ pad).getD 0 0 =
      (t.headerNibble * 16 + d.length % 16) % 256 := by
    rw [List.append_assoc, List.singleton_append, List.getD_cons_zero, hN, shiftLeft_4, and_15,
      or_low_nibble _ _ (by omega)]
  refine ⟨by rw [h0]; omega, by rw [h0]; omega, ?_, ?_, ?_⟩
  · rw [hget 0 (by omega), emitted_head_high t hN, hN, and_15, shiftRight_4]
    omega
  · intro j hj
    rw [hget j hj]
    exact emitted_lt t hN _ _ _
  · intro k hk
    rw [hget k (by omega), hget (k + 1) (by omega)]
    exact ⟨emitted_low t hN d _ k hk, emitted_next_high t hN d _ k hk⟩

/-- From version index 9 on: the nibbles of the buffer in terms of the
payload.  Byte 0 carries the low nibble of the length, byte 1 the next eight
bits, the high nibble of byte 2 the last four; byte `k+2` carries the low
nibble of payload byte `k` and the high nibble of byte `k+3` is its high
nibble. -/
theorem fillBuffer_nibbles_high (t : Tables) (e : Encoder) (d : List Nat)
    (hN : t.Nible = 15) (hB : t.Byte = 255) (h9 : ¬ e.version < 9) :
    (fillBuffer t e [] d).getD 0 0 % 16 = d.length % 16 ∧
    (fillBuffer t e [] d).getD 0 0 < 256 ∧
    (fillBuffer t e [] d).getD 1 0 = d.length / 16 % 256 ∧
    (fillBuffer t e [] d).getD 2 0 / 16 = d.length / 4096 % 16 ∧
    (∀ j, j ≤ d.length → (fillBuffer t e [] d).getD (j + 2) 0 < 256) ∧
    (∀ k, k < d.length →
      (fillBuffer t e [] d).getD (k + 2) 0 % 16 = d.getD k 0 % 16 ∧
      (fillBuffer t e [] d).getD (k + 3) 0 / 16 = d.getD k 0 / 16 % 16) := by
  obtain ⟨pad, hpad⟩ := fillBuffer_layout_high t e d h9
  rw [hpad]
  have hget : ∀ j, j ≤ d.length →
      ([((t.headerNibble <<< 4) ||| (d.length &&& t.Nible)) % 256,
          ((d.length >>> 4) &&& t.Byte) % 256] ++
        emitted t d (((d.length >>> 12) &&& t.Nible) % 256) ++ pad).getD (j + 2) 0 =
      (emitted t d (((d.length >>> 12) &&& t.Nible) % 256)).getD j 0 := by
    intro j hj
    rw [List.append_assoc, List.cons_append, List.cons_append, List.nil_append,
      List.getD_cons_succ, List.getD_cons_succ,
      List.getD_append _ _ _ _ (by rw [emitted_length]; omega)]
  have h0 : ([((t.headerNibble <<< 4) ||| (d.length &&& t.Nible)) % 256,
          ((d.length >>> 4) &&& t.Byte) % 256] ++
        emitted t d (((d.length >>> 12) &&& t.Nible) % 256) ++ pad).getD 0 0 =
      (t.headerNibble * 16 + d.length % 16) % 256 := by
    rw [List.append_assoc, List.cons_append, List.getD_cons_zero, hN, shiftLeft_4, and_15,
      or_low_nibble _ _ (by omega)]
  have h1 : ([((t.headerNibble <<< 4) ||| (d.length &&& t.Nible)) % 256,
          ((d.length >>> 4) &&& t.Byte) % 256] ++
        emitted t d (((d.length >>> 12) &&& t.Nible) % 256) ++ pad).getD 1 0 =
      d.length / 16 % 256 := by
    rw [List.append_assoc, List.cons_append, List.cons_append, List.getD_cons_succ,
      List.getD_cons_zero, hB, and_255, shiftRight_4]
    omega
  refine ⟨by rw [h0]; omega, by rw [h0]; omega, h1, ?_, ?_, ?_⟩
  · rw [hget 0 (by omega), emitted_head_high t hN, hN, and_15, shiftRight_12]
    omega
  · intro j hj
    rw [hget j hj]
    exact emitted_lt t hN _ _ _
  · intro k hk
    rw [hget k (by omega), hget (k + 1) (by omega)]
    exact ⟨emitted_low t hN d _ k hk, emitted_next_high t hN d _ k hk⟩

/-- Two byte lists of equal length with equal entries are equal. -/
theorem list_eq_of_getD (d d2 : List Nat) (hlen : d.length = d2.length)
    (h : ∀ k, k < d.length → d.getD k 0 = d2.getD k 0) : d = d2 := by
  apply List.ext_getElem hlen
  intro k h1 h2
  have := h k h1
  simpa [List.getD_eq_getElem?_getD, List.getElem?_eq_getElem h1,
    List.getElem?_eq_getElem h2] using this

/-- Entries of a list of bytes, read with default 0, are bytes. -/
theorem getD_lt_256 (d : List Nat) (hbytes : ∀ b, b ∈ d → b < 256) (k : Nat) :
    d.getD k 0 < 256 := by
  by_cases hk : k < d.length
  · have : d.getD k 0 = d[k] := by
      simp [List.getD_eq_getElem?_getD, List.getElem?_eq_getElem hk]
    rw [this]
    exact hbytes _ (List.getElem_mem hk)
  · have : d.getD k 0 = 0 := by
      simp [List.getD_eq_getElem?_getD, List.getElem?_eq_none (by omega : d.length ≤ k)]
    omega

/-- A byte is rebuilt from the high nibble of one buffer byte and the low
nibble of another, in the words of the claim. -/
theorem nibbles_join (x hi lo : Nat) (hx : x < 256) (hhi : hi < 256)
    (h1 : hi / 16 = x / 16 % 16) (h2 : lo % 16 = x % 16) :
    x = (hi &&& 0xF0) ||| (lo &&& 0x0F) := by
  rw [and_240 hi hhi, and_15, or_low_nibble _ _ (by omega)]
  omega

/-- Below version index 9 the length and the payload are read back from the
buffer. -/
theorem fillBuffer_decode_low (t : Tables) (e : Encoder) (d : List Nat)
    (hN : t.Nible = 15) (h9 : e.version < 9) (hbytes : ∀ b, b ∈ d → b < 256)
    (hL : d.length < 256) :
    d.length = ((fillBuffer t e [] d).getD 1 0 &&& 0xF0) |||
        ((fillBuffer t e [] d).getD 0 0 &&& 0x0F) ∧
    ∀ k, k < d.length →
      d.getD k 0 = ((fillBuffer t e [] d).getD (k + 2) 0 &&& 0xF0) |||
        ((fillBuffer t e [] d).getD (k + 1) 0 &&& 0x0F) := by
  obtain ⟨h0, _, h1, hlt, hk⟩ := fillBuffer_nibbles_low t e d hN h9
  constructor
  · exact nibbles_join d.length _ _ hL (hlt 0 (by omega)) (by omega) h0
  · intro k hklt
    obtain ⟨hlo, hhi⟩ := hk k hklt
    have hb := getD_lt_256 d hbytes k
    exact nibbles_join (d.getD k 0) _ _ hb (hlt (k + 1) (by omega)) (by omega) hlo

/-- From version index 9 on the length and the payload are read back from
the buffer. -/
theorem fillBuffer_decode_high (t : Tables) (e : Encoder) (d : List Nat)
    (hN : t.Nible = 15) (hB : t.Byte = 255) (h9 : ¬ e.version < 9)
    (hbytes : ∀ b, b ∈ d → b < 256) (hL : d.length < 65536) :
    d.length = (((fillBuffer t e [] d).getD 2 0 >>> 4) <<< 12) |||
        ((fillBuffer t e [] d).getD 1 0 <<< 4) |||
        ((fillBuffer t e [] d).getD 0 0 &&& 0x0F) ∧
    ∀ k, k < d.length →
      d.getD k 0 = ((fillBuffer t e [] d).getD (k + 3) 0 &&& 0xF0) |||
        ((fillBuffer t e [] d).getD (k + 2) 0 &&& 0x0F) := by
  obtain ⟨h0, _, h1, h2, hlt, hk⟩ := fillBuffer_nibbles_high t e d hN hB h9
  constructor
  · rw [shiftRight_4, shiftLeft_12, shiftLeft_4, and_15, or_low_12 _ _ (by omega)]
    have hrw : (fillBuffer t e [] d).getD 2 0 / 16 * 4096 + (fillBuffer t e [] d).getD 1 0 * 16 =
        ((fillBuffer t e [] d).getD 2 0 / 16 * 256 + (fillBuffer t e [] d).getD 1 0) * 16 := by
      omega
    rw [hrw, or_low_nibble _ _ (by omega)]
    omega
  · intro k hklt
    obtain ⟨hlo, hhi⟩ := hk k hklt
    have hb := getD_lt_256 d hbytes k
    exact nibbles_join (d.getD k 0) _ _ hb (hlt (k + 1) (by omega)) (by omega) hlo

/-- C20: `fillBuffer` is decodable.  With `Nible = 0x0F` and `Byte = 0xFF`,
for every payload `d` of bytes, of length `L`, and its buffer `o`: if
`version < 9` and `L < 256` then `L = (o[1] & 0xF0) | (o[0] & 0x0F)` and
`d[k] = (o[k+2] & 0xF0) | (o[k+1] & 0x0F)` for every `k < L`; if
`version >= 9` and `L < 65536` then
`L = ((o[2] >> 4) << 12) | (o[1] << 4) | (o[0] & 0x0F)` and
`d[k] = (o[k+3] & 0xF0) | (o[k+2] & 0x0F)` for every `k < L`.  Hence at a
fixed version two payloads within these lengths with the same buffer are
equal. -/
theorem fillBuffer_round_trip (t : Tables) (e : Encoder) (d : List Nat)
    (hN : t.Nible = 0x0F) (hB : t.Byte = 0xFF) (hbytes : ∀ b, b ∈ d → b < 256) :
    (e.version < 9 → d.length < 256 →
      d.length = ((fillBuffer t e [] d).getD 1 0 &&& 0xF0) |||
          ((fillBuffer t e [] d).getD 0 0 &&& 0x0F) ∧
      ∀ k, k < d.length →
        d.getD k 0 = ((fillBuffer t e [] d).getD (k + 2) 0 &&& 0xF0) |||
          ((fillBuffer t e [] d).getD (k + 1) 0 &&& 0x0F)) ∧
    (9 ≤ e.version → d.length < 65536 →
      d.length = (((fillBuffer t e [] d).getD 2 0 >>> 4) <<< 12) |||
          ((fillBuffer t e [] d).getD 1 0 <<< 4) |||
          ((fillBuffer t e [] d).getD 0 0 &&& 0x0F) ∧
      ∀ k, k < d.length →
        d.getD k 0 = ((fillBuffer t e [] d).getD (k + 3) 0 &&& 0xF0) |||
          ((fillBuffer t e [] d).getD (k + 2) 0 &&& 0x0F)) ∧
    (∀ d2 : List Nat, (∀ b, b ∈ d2 → b < 256) →
      (if e.version < 9 then d.length < 256 ∧ d2.length < 256
        else d.length < 65536 ∧ d2.length < 65536) →
      fillBuffer t e [] d = fillBuffer t e [] d2 → d = d2) := by
  refine ⟨fun h9 hL => fillBuffer_decode_low t e d hN h9 hbytes hL,
    fun h9 hL => fillBuffer_decode_high t e d hN hB (by omega) hbytes hL, ?_⟩
  intro d2 hbytes2 hlens heq
  by_cases h9 : e.version < 9
  · rw [if_pos h9] at hlens
    obtain ⟨hl1, hd1⟩ := fillBuffer_decode_low t e d hN h9 hbytes hlens.1
    obtain ⟨hl2, hd2⟩ := fillBuffer_decode_low t e d2 hN h9 hbytes2 hlens.2
    rw [← heq] at hl2 hd2
    have hlen : d.length = d2.length := by rw [hl1]; exact hl2.symm
    exact list_eq_of_getD d d2 hlen (fun k hk => by rw [hd1 k hk, hd2 k (by omega)])
  · rw [if_neg h9] at hlens
    obtain ⟨hl1, hd1⟩ := fillBuffer_decode_high t e d hN hB h9 hbytes hlens.1
    obtain ⟨hl2, hd2⟩ := fillBuffer_decode_high t e d2 hN hB h9 hbytes2 hlens.2
    rw [← heq] at hl2 hd2
    have hlen : d.length = d2.length := by rw [hl1]; exact hl2.symm
    exact list_eq_of_getD d d2 hlen (fun k hk => by rw [hd1 k hk, hd2 k (by omega)])

/-- The payload "HI!" at the first version of the lowest level: the buffer
starts `67, 8, 73, 65, 32` and is read back as length 3 and bytes 72, 73, 33. -/
theorem fillBuffer_round_trip_witness :
    sampleTables.Nible = 0x0F ∧ sampleTables.Byte = 0xFF ∧
    (∀ b, b ∈ [72, 73, 33] → b < 256) ∧
    fillBuffer sampleTables (NewEncoder CodeLevel.L) [] [72, 73, 33] = sampleBlock ∧
    ((NewEncoder CodeLevel.L).version < 9 → [72, 73, 33].length < 256 →
      [72, 73, 33].length =
          ((fillBuffer sampleTables (NewEncoder CodeLevel.L) [] [72, 73, 33]).getD 1 0 &&& 0xF0) |||
          ((fillBuffer sampleTables (NewEncoder CodeLevel.L) [] [72, 73, 33]).getD 0 0 &&& 0x0F) ∧
      ∀ k, k < [72, 73, 33].length →
        [72, 73, 33].getD k 0 =
          ((fillBuffer sampleTables (NewEncoder CodeLevel.L) [] [72, 73, 33]).getD (k + 2) 0
            &&& 0xF0) |||
          ((fillBuffer sampleTables (NewEncoder CodeLevel.L) [] [72, 73, 33]).getD (k + 1) 0
            &&& 0x0F)) :=
  ⟨rfl, rfl, by decide, by decide,
    (fillBuffer_round_trip sampleTables (NewEncoder CodeLevel.L) [72, 73, 33] rfl rfl
      (by decide)).1⟩

/-- C15 as stated fails: for the one-byte payload `0x12` at the first
version, the byte emitted when `0x12` is consumed is `0x02` and the next
emitted byte is `0x10`; the low nibble of that next byte is 0, whereas the
high nibble of the payload byte is 1 (it sits in the high nibble of the next
byte). -/
theorem fillBuffer_high_nibble_not_in_low_half :
    (fillBuffer sampleTables (NewEncoder CodeLevel.L) [] [0x12]).getD 1 0 = 0x02 ∧
    (fillBuffer sampleTables (NewEncoder CodeLevel.L) [] [0x12]).getD 2 0 = 0x10 ∧
    (fillBuffer sampleTables (NewEncoder CodeLevel.L) [] [0x12]).getD 2 0 &&& 0x0F ≠ 0x12 >>> 4 ∧
    (fillBuffer sampleTables (NewEncoder CodeLevel.L) [] [0x12]).getD 2 0 >>> 4 = 0x12 >>> 4 := by
  refine ⟨by decide, by decide, by decide, by decide⟩

/-- C15, amended: in `fillBuffer` with `Nible = 0x0F`, for every payload of
bytes and every payload byte `b = d[k]`, the byte emitted when `b` is
consumed (at offset `h + k`, `h` being 1 below version index 9 and 2 from
there on) has the running nibble as its high nibble and `b`'s low nibble as
its low nibble; `b`'s high nibble then becomes the running nibble, that is
the high nibble of the next emitted byte. -/
theorem fillBuffer_nibble_packing (t : Tables) (e : Encoder) (d : List Nat)
    (hN : t.Nible = 0x0F) (hB : t.Byte = 0xFF) (hbytes : ∀ b, b ∈ d → b < 256)
    (k : Nat) (hk : k < d.length) :
    (fillBuffer t e [] d).getD ((if e.version < 9 then 1 else 2) + k) 0 &&& 0x0F =
        d.getD k 0 &&& 0x0F ∧
    (fillBuffer t e [] d).getD ((if e.version < 9 then 1 else 2) + k) 0 >>> 4 =
        (if k = 0 then
          (if e.version < 9 then (d.length >>> 4) &&& 0x0F else (d.length >>> 12) &&& 0x0F)
        else d.getD (k - 1) 0 >>> 4) ∧
    (fillBuffer t e [] d).getD ((if e.version < 9 then 1 else 2) + k + 1) 0 >>> 4 =
        d.getD k 0 >>> 4 := by
  have hb := getD_lt_256 d hbytes k
  have hb1 := getD_lt_256 d hbytes (k - 1)
  by_cases h9 : e.version < 9
  · simp only [if_pos h9]
    obtain ⟨_, _, h1, _, hnib⟩ := fillBuffer_nibbles_low t e d hN h9
    obtain ⟨hlo, hhi⟩ := hnib k hk
    have e1 : 1 + k = k + 1 := by omega
    have e2 : k + 1 + 1 = k + 2 := rfl
    rw [e1, e2, and_15, and_15, shiftRight_4, shiftRight_4, shiftRight_4]
    refine ⟨hlo, ?_, by omega⟩
    cases k with
    | zero => simp only [if_pos]; rw [and_15]; simpa using h1
    | succ k =>
      rw [if_neg (by omega)]
      have h3 : (fillBuffer t e [] d).getD (k + 1 + 1) 0 / 16 = d.getD k 0 / 16 % 16 :=
        (hnib k (by omega)).2
      simp only [Nat.add_sub_cancel] at hb1 ⊢
      omega
  · simp only [if_neg h9]
    obtain ⟨_, _, _, h2, _, hnib⟩ := fillBuffer_nibbles_high t e d hN hB h9
    obtain ⟨hlo, hhi⟩ := hnib k hk
    have e1 : 2 + k = k + 2 := by omega
    have e2 : k + 2 + 1 = k + 3 := rfl
    rw [e1, e2, and_15, and_15, shiftRight_4, shiftRight_4, shiftRight_4]
    refine ⟨hlo, ?_, by omega⟩
    cases k with
    | zero => simp only [if_pos]; rw [and_15, shiftRight_12]; simpa using h2
    | succ k =>
      rw [if_neg (by omega)]
      have h3 : (fillBuffer t e [] d).getD (k + 1 + 2) 0 / 16 = d.getD k 0 / 16 % 16 :=
        (hnib k (by omega)).2
      simp only [Nat.add_sub_cancel] at hb1 ⊢
      omega

/-- The payload "HI!" at the first version, second byte `I = 0x49`: the byte
emitted for it is `0x49`'s low nibble under the high nibble of `H`. -/
theorem fillBuffer_nibble_packing_witness :
    sampleTables.Nible = 0x0F ∧ sampleTables.Byte = 0xFF ∧
    (∀ b, b ∈ [72, 73, 33] → b < 256) ∧ 1 < [72, 73, 33].length ∧
    ((fillBuffer sampleTables (NewEncoder CodeLevel.L) [] [72, 73, 33]).getD
        ((if (NewEncoder CodeLevel.L).version < 9 then 1 else 2) + 1) 0 &&& 0x0F =
        [72, 73, 33].getD 1 0 &&& 0x0F ∧
    (fillBuffer sampleTables (NewEncoder CodeLevel.L) [] [72, 73, 33]).getD
        ((if (NewEncoder CodeLevel.L).version < 9 then 1 else 2) + 1) 0 >>> 4 =
        (if 1 = 0 then
          (if (NewEncoder CodeLevel.L).version < 9 then ([72, 73, 33].length >>> 4) &&& 0x0F
            else ([72, 73, 33].length >>> 12) &&& 0x0F)
        else [72, 73, 33].getD (1 - 1) 0 >>> 4) ∧
    (fillBuffer sampleTables (NewEncoder CodeLevel.L) [] [72, 73, 33]).getD
        ((if (NewEncoder CodeLevel.L).version < 9 then 1 else 2) + 1 + 1) 0 >>> 4 =
        [72, 73, 33].getD 1 0 >>> 4) :=
  ⟨rfl, rfl, by decide, by decide,
    fillBuffer_nibble_packing sampleTables (NewEncoder CodeLevel.L) [72, 73, 33] rfl rfl
      (by decide) 1 (by decide)⟩

/-! ## `mergeBlocks`: the column-major order of the data bytes -/

theorem mergeColumn_eq (idx : Nat) :
    ∀ (blocks : List (List Nat)) (acc : List Nat),
      mergeColumn idx blocks acc = acc ++ column idx blocks := by
  intro blocks
  induction blocks with
  | nil => intro acc; simp [mergeColumn, column]
  | cons b rest ih =>
    intro acc
    simp only [mergeColumn, column]
    by_cases h : idx ≥ b.length
    · rw [if_pos h, if_pos h, ih]
    · rw [if_neg h, if_neg h, ih]
      simp

theorem mergeLoop_eq (blocks : List (List Nat)) :
    ∀ (k idx : Nat) (acc : List Nat),
      mergeLoop blocks k idx acc = acc ++ columns blocks k idx := by
  intro k
  induction k with
  | zero => intro idx acc; simp [mergeLoop, columns]
  | succ k ih =>
    intro idx acc
    simp only [mergeLoop, columns]
    rw [ih, mergeColumn_eq]
    simp

/-- The stream is the columns of the data blocks followed by the columns of
the correction blocks, both up to the largest data block length. -/
theorem mergeBlocks_eq (blocks cbs : List (List Nat)) :
    mergeBlocks blocks cbs =
      columns blocks (maxBlockSizeOf blocks 0) 0 ++ columns cbs (maxBlockSizeOf blocks 0) 0 := by
  unfold mergeBlocks
  simp only [mergeLoop_eq, List.nil_append]

theorem columns_add (blocks : List (List Nat)) :
    ∀ (a b idx : Nat),
      columns blocks (a + b) idx = columns blocks a idx ++ columns blocks b (idx + a) := by
  intro a
  induction a with
  | zero => intro b idx; simp [columns]
  | succ a ih =>
    intro b idx
    have : a + 1 + b = (a + b) + 1 := by omega
    rw [this]
    simp only [columns]
    rw [ih b (idx + 1)]
    have h2 : idx + 1 + a = idx + (a + 1) := by omega
    rw [h2]
    simp

theorem column_empty (idx : Nat) :
    ∀ blocks : List (List Nat), (∀ b, b ∈ blocks → b.length ≤ idx) → column idx blocks = [] := by
  intro blocks
  induction blocks with
  | nil => intro _; simp [column]
  | cons b rest ih =>
    intro h
    simp only [column]
    rw [if_pos (h b (by simp))]
    exact ih (fun x hx => h x (by simp [hx]))

theorem columns_empty (blocks : List (List Nat)) :
    ∀ (k idx : Nat), (∀ b, b ∈ blocks → b.length ≤ idx) → columns blocks k idx = [] := by
  intro k
  induction k with
  | zero => intro idx _; simp [columns]
  | succ k ih =>
    intro idx h
    simp only [columns]
    rw [column_empty idx blocks h, ih (idx + 1) (fun b hb => by have := h b hb; omega)]
    simp

theorem column_full (idx : Nat) :
    ∀ blocks : List (List Nat), (∀ b, b ∈ blocks → idx < b.length) →
      column idx blocks = blocks.map (fun b => b.getD idx 0) := by
  intro blocks
  induction blocks with
  | nil => intro _; simp [column]
  | cons b rest ih =>
    intro h
    simp only [column, List.map_cons]
    rw [if_neg (by have := h b (by simp); omega), ih (fun x hx => h x (by simp [hx]))]

theorem column_append (idx : Nat) :
    ∀ (A B : List (List Nat)), column idx (A ++ B) = column idx A ++ column idx B := by
  intro A
  induction A with
  | nil => intro B; simp [column]
  | cons a rest ih =>
    intro B
    rw [List.cons_append]
    by_cases h : idx ≥ a.length
    · rw [column, column, if_pos h, if_pos h, ih]
    · rw [column, column, if_neg h, if_neg h, ih]
      simp

theorem maxBlockSizeOf_ge :
    ∀ (blocks : List (List Nat)) (m : Nat),
      m ≤ maxBlockSizeOf blocks m ∧ ∀ b, b ∈ blocks → b.length ≤ maxBlockSizeOf blocks m := by
  intro blocks
  induction blocks with
  | nil => intro m; simp [maxBlockSizeOf]
  | cons x rest ih =>
    intro m
    simp only [maxBlockSizeOf]
    obtain ⟨h1, h2⟩ := ih (MaxInt m x.length)
    have hl := MaxInt_ge_left m x.length
    have hr := MaxInt_ge_right m x.length
    refine ⟨by omega, ?_⟩
    intro b hb
    rcases List.mem_cons.mp hb with h | h
    · subst h; omega
    · exact h2 b h

/-- Beyond the length of the longest block the columns are empty, so any
bound that covers all blocks gives the same columns. -/
theorem columns_eq_of_bound (blocks : List (List Nat)) (M K : Nat)
    (hM : ∀ b, b ∈ blocks → b.length ≤ M) (hK : ∀ b, b ∈ blocks → b.length ≤ K) :
    columns blocks M 0 = columns blocks K 0 := by
  have key : ∀ A B, (∀ b, b ∈ blocks → b.length ≤ A) →
      columns blocks (A + B) 0 = columns blocks A 0 := by
    intro A B hA
    rw [columns_add, columns_empty blocks B (0 + A) (fun b hb => by have := hA b hb; omega)]
    simp
  by_cases h : M ≤ K
  · have := key M (K - M) hM
    rw [show M + (K - M) = K by omega] at this
    exact this.symm
  · have := key K (M - K) hK
    rw [show K + (M - K) = M by omega] at this
    exact this

theorem getD_map_getD (blocks : List (List Nat)) (idx j : Nat) (hj : j < blocks.length) :
    (blocks.map (fun b => b.getD idx 0)).getD j 0 = (blocks.getD j []).getD idx 0 := by
  simp [List.getD_eq_getElem?_getD, List.getElem?_eq_getElem hj]

/-- When every block has at least `s` bytes, the first `s` columns hold
`N * s` bytes and byte `k` among them is byte `k / N` of block `k mod N`. -/
theorem columns_full (blocks : List (List Nat)) :
    ∀ s : Nat, (∀ b, b ∈ blocks → s ≤ b.length) →
      (columns blocks s 0).length = blocks.length * s ∧
      ∀ k, k < blocks.length * s →
        (columns blocks s 0).getD k 0 =
          (blocks.getD (k % blocks.length) []).getD (k / blocks.length) 0 := by
  intro s
  induction s with
  | zero => intro _; simp [columns]
  | succ s ih =>
    intro h
    obtain ⟨hlen, hget⟩ := ih (fun b hb => by have := h b hb; omega)
    have hcol : column s blocks = blocks.map (fun b => b.getD s 0) :=
      column_full s blocks (fun b hb => by have := h b hb; omega)
    have hsplit : columns blocks (s + 1) 0 = columns blocks s 0 ++ column s blocks := by
      rw [columns_add blocks s 1 0]
      simp [columns]
    rw [hsplit]
    constructor
    · rw [List.length_append, hlen, hcol, List.length_map]
      ring
    · intro k hk
      by_cases hks : k < blocks.length * s
      · rw [List.getD_append _ _ _ _ (by rw [hlen]; exact hks)]
        exact hget k hks
      · have hN : 0 < blocks.length := by
          rcases Nat.eq_zero_or_pos blocks.length with h0 | h0
          · rw [h0] at hk; simp at hk
          · exact h0
        have hj : k - blocks.length * s < blocks.length := by
          have : blocks.length * (s + 1) = blocks.length * s + blocks.length := by ring
          omega
        rw [List.getD_append_right _ _ _ _ (by rw [hlen]; omega), hlen, hcol,
          getD_map_getD blocks s _ hj]
        have hk2 : k = blocks.length * s + (k - blocks.length * s) := by omega
        have hdiv : k / blocks.length = s := by
          rw [hk2, Nat.mul_add_div hN, Nat.div_eq_of_lt hj]
          simp
        have hmod : k % blocks.length = k - blocks.length * s := by
          rw [hk2, Nat.mul_add_mod, Nat.mod_eq_of_lt hj]
          omega
        rw [hdiv, hmod]

theorem mem_getD_index (l : List (List Nat)) (b : List Nat) (hb : b ∈ l) :
    ∃ i, i < l.length ∧ l.getD i [] = b := by
  obtain ⟨i, hi, hget⟩ := List.mem_iff_getElem.mp hb
  exact ⟨i, hi, by simp [List.getD_eq_getElem?_getD, List.getElem?_eq_getElem hi, hget]⟩

theorem getD_take (l : List (List Nat)) (m i : Nat) (hi : i < m) :
    (l.take m).getD i [] = l.getD i [] := by
  simp [List.getD_eq_getElem?_getD, List.getElem?_take, hi]

theorem getD_drop (l : List (List Nat)) (m i : Nat) :
    (l.drop m).getD i [] = l.getD (m + i) [] := by
  simp [List.getD_eq_getElem?_getD, List.getElem?_drop]

/-- For blocks shaped as the divider leaves them, column `s` holds byte `s` of
the last `r` blocks. -/
theorem column_shaped (blocks : List (List Nat)) (s r : Nat) (hr : r ≤ blocks.length)
    (hfirst : ∀ i, i < blocks.length - r → (blocks.getD i []).length = s)
    (hlast : ∀ i, blocks.length - r ≤ i → i < blocks.length →
      (blocks.getD i []).length = s + 1) :
    column s blocks = (blocks.drop (blocks.length - r)).map (fun b => b.getD s 0) := by
  have hsplit : column s blocks =
      column s (blocks.take (blocks.length - r)) ++ column s (blocks.drop (blocks.length - r)) := by
    rw [← column_append, List.take_append_drop]
  rw [hsplit, column_empty s (blocks.take (blocks.length - r)), List.nil_append]
  · apply column_full
    intro b hb
    obtain ⟨i, hi, hget⟩ := mem_getD_index _ b hb
    rw [List.length_drop] at hi
    rw [getD_drop] at hget
    rw [← hget, hlast _ (by omega) (by omega)]
    omega
  · intro b hb
    obtain ⟨i, hi, hget⟩ := mem_getD_index _ b hb
    rw [List.length_take] at hi
    rw [getD_take _ _ _ (by omega)] at hget
    rw [← hget, hfirst i (by omega)]

/-- C16: for every list of `N` data blocks shaped as the Block Divider
produces them (the first `N-r` of length `s`, the last `r` of length `s+1`),
the stream returned by `mergeBlocks` begins with their column-major reading:
`stream[k] = blocks[k mod N][k div N]` for every `k < N*s`, and
`stream[N*s + t] = blocks[N-r+t][s]` for every `t < r`; these `N*s + r` data
bytes do not depend on the correction blocks, and the bytes written by the
correction loop come only after them. -/
theorem mergeBlocks_column_major (blocks cbs : List (List Nat)) (s r : Nat)
    (hr : r ≤ blocks.length)
    (hfirst : ∀ i, i < blocks.length - r → (blocks.getD i []).length = s)
    (hlast : ∀ i, blocks.length - r ≤ i → i < blocks.length →
      (blocks.getD i []).length = s + 1) :
    (∀ k, k < blocks.length * s →
      (mergeBlocks blocks cbs).getD k 0 =
        (blocks.getD (k % blocks.length) []).getD (k / blocks.length) 0) ∧
    (∀ t, t < r →
      (mergeBlocks blocks cbs).getD (blocks.length * s + t) 0 =
        (blocks.getD (blocks.length - r + t) []).getD s 0) ∧
    (∃ dataPart corrPart, mergeBlocks blocks cbs = dataPart ++ corrPart ∧
      dataPart.length = blocks.length * s + r ∧
      dataPart = mergeBlocks blocks [] ∧
      corrPart = mergeLoop cbs (maxBlockSizeOf blocks 0) 0 []) := by
  have hlens : ∀ b, b ∈ blocks → s ≤ b.length ∧ b.length ≤ s + 1 := by
    intro b hb
    obtain ⟨i, hi, hget⟩ := mem_getD_index _ b hb
    by_cases hir : i < blocks.length - r
    · have := hfirst i hir
      rw [hget] at this
      omega
    · have := hlast i (by omega) hi
      rw [hget] at this
      omega
  have hdata : columns blocks (maxBlockSizeOf blocks 0) 0 =
      columns blocks s 0 ++ (blocks.drop (blocks.length - r)).map (fun b => b.getD s 0) := by
    rw [columns_eq_of_bound blocks _ (s + 1) (maxBlockSizeOf_ge blocks 0).2
      (fun b hb => (hlens b hb).2), columns_add blocks s 1 0]
    simp only [columns, List.append_nil, Nat.zero_add]
    rw [column_shaped blocks s r hr hfirst hlast]
  obtain ⟨hclen, hcget⟩ := columns_full blocks s (fun b hb => (hlens b hb).1)
  have hdlen : (columns blocks s 0 ++
      (blocks.drop (blocks.length - r)).map (fun b => b.getD s 0)).length =
      blocks.length * s + r := by
    rw [List.length_append, hclen, List.length_map, List.length_drop]
    omega
  refine ⟨?_, ?_, ?_⟩
  · intro k hk
    rw [mergeBlocks_eq, hdata, List.getD_append _ _ _ _ (by rw [hdlen]; omega),
      List.getD_append _ _ _ _ (by rw [hclen]; exact hk)]
    exact hcget k hk
  · intro t ht
    rw [mergeBlocks_eq, hdata, List.getD_append _ _ _ _ (by rw [hdlen]; omega),
      List.getD_append_right _ _ _ _ (by rw [hclen]; omega), hclen,
      show blocks.length * s + t - blocks.length * s = t by omega,
      getD_map_getD _ s t (by rw [List.length_drop]; omega), getD_drop]
  · refine ⟨columns blocks (maxBlockSizeOf blocks 0) 0, columns cbs (maxBlockSizeOf blocks 0) 0,
      mergeBlocks_eq blocks cbs, by rw [hdata, hdlen], ?_, ?_⟩
    · rw [mergeBlocks_eq]
      have : columns ([] : List (List Nat)) (maxBlockSizeOf blocks 0) 0 = [] :=
        columns_empty [] _ 0 (by intro b hb; simp at hb)
      rw [this, List.append_nil]
    · rw [mergeLoop_eq, List.nil_append]

/-- Three blocks of sizes 2, 3, 3 (eight bytes divided in three) and two
correction blocks. -/
theorem mergeBlocks_column_major_witness :
    mergeBlocks [[1, 2], [3, 4, 5], [6, 7, 8]] [[9, 10], [11, 12]] =
      [1, 3, 6, 2, 4, 7, 5, 8, 9, 11, 10, 12] ∧
    2 ≤ [[1, 2], [3, 4, 5], [6, 7, 8]].length ∧
    ((∀ k, k < [[1, 2], [3, 4, 5], [6, 7, 8]].length * 2 →
      (mergeBlocks [[1, 2], [3, 4, 5], [6, 7, 8]] [[9, 10], [11, 12]]).getD k 0 =
        ([[1, 2], [3, 4, 5], [6, 7, 8]].getD (k % [[1, 2], [3, 4, 5], [6, 7, 8]].length) []).getD
          (k / [[1, 2], [3, 4, 5], [6, 7, 8]].length) 0) ∧
    (∀ t, t < 2 →
      (mergeBlocks [[1, 2], [3, 4, 5], [6, 7, 8]] [[9, 10], [11, 12]]).getD
          ([[1, 2], [3, 4, 5], [6, 7, 8]].length * 2 + t) 0 =
        ([[1, 2], [3, 4, 5], [6, 7, 8]].getD
          ([[1, 2], [3, 4, 5], [6, 7, 8]].length - 2 + t) []).getD 2 0) ∧
    (∃ dataPart corrPart,
      mergeBlocks [[1, 2], [3, 4, 5], [6, 7, 8]] [[9, 10], [11, 12]] = dataPart ++ corrPart ∧
      dataPart.length = [[1, 2], [3, 4, 5], [6, 7, 8]].length * 2 + 2 ∧
      dataPart = mergeBlocks [[1, 2], [3, 4, 5], [6, 7, 8]] [] ∧
      corrPart = mergeLoop [[9, 10], [11, 12]]
        (maxBlockSizeOf [[1, 2], [3, 4, 5], [6, 7, 8]] 0) 0 [])) :=
  ⟨by decide, by decide,
    mergeBlocks_column_major [[1, 2], [3, 4, 5], [6, 7, 8]] [[9, 10], [11, 12]] 2 2 (by decide)
      (by decide) (by decide)⟩

/-! ## The matrix: reading and writing modules -/

theorem WellFormed_row (canvas : List (List Module)) (n y : Nat) (h : WellFormed canvas n)
    (hy : y < n) : (canvas.getD y []).length = n := by
  obtain ⟨hlen, hrows⟩ := h
  have hy2 : y < canvas.length := by omega
  have : canvas.getD y [] = canvas[y] := by
    simp [List.getD_eq_getElem?_getD, List.getElem?_eq_getElem hy2]
  rw [this]
  exact hrows _ (List.getElem_mem hy2)

/-- Inside a square canvas a read does not panic. -/
theorem getModule_eq (canvas : List (List Module)) (n y x : Nat) (h : WellFormed canvas n)
    (hy : y < n) (hx : x < n) :
    getModule canvas (y : Int) (x : Int) = some (cellAt canvas y x) := by
  have hrow := WellFormed_row canvas n y h hy
  have hy2 : y < canvas.length := by rw [h.1]; exact hy
  unfold getModule cellAt
  rw [if_pos ⟨by omega, by omega⟩]
  simp only [Int.toNat_ofNat, List.get?_eq_getElem?, List.getElem?_eq_getElem hy2]
  have hg : canvas.getD y [] = canvas[y] := by
    simp [List.getD_eq_getElem?_getD, List.getElem?_eq_getElem hy2]
  rw [hg] at hrow ⊢
  have hx2 : x < (canvas[y]).length := by omega
  simp [List.getD_eq_getElem?_getD, List.getElem?_eq_getElem hx2]

/-- Inside a square canvas a `Set` does not panic and replaces one module. -/
theorem setModule_eq (canvas : List (List Module)) (n y x : Nat) (v : Bool)
    (h : WellFormed canvas n) (hy : y < n) (hx : x < n) :
    setModule canvas (y : Int) (x : Int) v =
      some (setCell canvas y x { value := v, isUsed := true }) := by
  have hrow := WellFormed_row canvas n y h hy
  have hy2 : y < canvas.length := by rw [h.1]; exact hy
  unfold setModule setCell
  rw [if_pos ⟨by omega, by omega⟩]
  simp only [Int.toNat_ofNat, List.get?_eq_getElem?, List.getElem?_eq_getElem hy2]
  have hg : canvas.getD y [] = canvas[y] := by
    simp [List.getD_eq_getElem?_getD, List.getElem?_eq_getElem hy2]
  rw [hg] at hrow ⊢
  have hx2 : x < (canvas[y]).length := by omega
  simp [List.getElem?_eq_getElem hx2, Module.Set]

theorem WellFormed_setCell (canvas : List (List Module)) (n y x : Nat) (m : Module)
    (h : WellFormed canvas n) : WellFormed (setCell canvas y x m) n := by
  obtain ⟨hlen, hrows⟩ := h
  unfold setCell
  refine ⟨by simp [hlen], ?_⟩
  intro row hrow
  rcases List.mem_or_eq_of_mem_set hrow with h1 | h1
  · exact hrows row h1
  · rw [h1, List.length_set]
    by_cases hy : y < canvas.length
    · have : canvas.getD y [] = canvas[y] := by
        simp [List.getD_eq_getElem?_getD, List.getElem?_eq_getElem hy]
      rw [this]
      exact hrows _ (List.getElem_mem hy)
    · exfalso
      rw [List.set_eq_of_length_le (by omega)] at hrow
      have hr := hrows row hrow
      rw [h1, List.length_set] at hr
      have : canvas.getD y [] = [] := by
        simp [List.getD_eq_getElem?_getD, List.getElem?_eq_none (by omega : canvas.length ≤ y)]
      rw [this] at hr
      simp at hr
      rw [← hr] at hlen
      have hmem := List.length_pos_of_mem hrow
      omega

theorem cellAt_setCell_same (canvas : List (List Module)) (n y x : Nat) (m : Module)
    (h : WellFormed canvas n) (hy : y < n) (hx : x < n) :
    cellAt (setCell canvas y x m) y x = m := by
  have hrow := WellFormed_row canvas n y h hy
  have hy2 : y < canvas.length := by rw [h.1]; exact hy
  have hg : canvas.getD y [] = canvas[y] := by
    simp [List.getD_eq_getElem?_getD, List.getElem?_eq_getElem hy2]
  rw [hg] at hrow
  unfold cellAt setCell
  simp [List.getD_eq_getElem?_getD, List.getElem?_set, hy2, hrow, hx]

theorem cellAt_setCell_ne (canvas : List (List Module)) (y x y2 x2 : Nat) (m : Module)
    (hne : ¬ (y2 = y ∧ x2 = x)) :
    cellAt (setCell canvas y x m) y2 x2 = cellAt canvas y2 x2 := by
  unfold cellAt setCell
  by_cases hy : y2 = y
  · subst hy
    have hx : x ≠ x2 := fun hx => hne ⟨rfl, hx.symm⟩
    by_cases hlt : y2 < canvas.length
    · simp [List.getD_eq_getElem?_getD, List.getElem?_set, hlt, hx]
    · rw [List.set_eq_of_length_le (by omega)]
  · have : y ≠ y2 := fun h => hy h.symm
    simp [List.getD_eq_getElem?_getD, List.getElem?_set, this]

/-! ## `Write`: the loops as a placement over a list of cells -/

theorem nextBit_genAfter (dataBits : List Bool) (k : Nat) :
    nextBit (genAfter dataBits k) = (dataBits.getD k false, genAfter dataBits (k + 1)) := by
  unfold nextBit genAfter
  simp only
  by_cases h : dataBits.length ≤ k
  · rw [if_pos (by omega)]
    have h1 : dataBits.getD k false = false := by
      simp [List.getD_eq_getElem?_getD, List.getElem?_eq_none h]
    have h2 : min k dataBits.length = min (k + 1) dataBits.length := by omega
    rw [h1, h2]
  · rw [if_neg (by omega)]
    have h1 : min k dataBits.length = k := by omega
    have h2 : min (k + 1) dataBits.length = k + 1 := by omega
    rw [h1, h2]

theorem placeCell_WellFormed (dataBits : List Bool) (n : Nat) (st : List (List Module) × Nat)
    (cell : Nat × Nat) (h : WellFormed st.1 n) : WellFormed (placeCell dataBits st cell).1 n := by
  unfold placeCell
  by_cases hu : (cellAt st.1 cell.1 cell.2).isUsed
  · rw [if_pos hu]; exact h
  · rw [if_neg hu]; exact WellFormed_setCell _ _ _ _ _ h

theorem placeCells_WellFormed (dataBits : List Bool) (n : Nat) :
    ∀ (cells : List (Nat × Nat)) (st : List (List Module) × Nat),
      WellFormed st.1 n → WellFormed (placeCells dataBits cells st).1 n := by
  intro cells
  induction cells with
  | nil => intro st h; exact h
  | cons c rest ih =>
    intro st h
    exact ih _ (placeCell_WellFormed dataBits n st c h)

theorem placeCells_append (dataBits : List Bool) (a b : List (Nat × Nat))
    (st : List (List Module) × Nat) :
    placeCells dataBits (a ++ b) st = placeCells dataBits b (placeCells dataBits a st) := by
  unfold placeCells
  rw [List.foldl_append]

/-- Inside a square canvas one statement of the loop body of `Write` does not
panic and is the reference step. -/
theorem writeCell_eq (dataBits : List Bool) (canvas : List (List Module)) (n k y x : Nat)
    (h : WellFormed canvas n) (hy : y < n) (hx : x < n) :
    writeCell canvas (genAfter dataBits k) (y : Int) (x : Int) =
      some ((placeCell dataBits (canvas, k) (y, x)).1,
        genAfter dataBits (placeCell dataBits (canvas, k) (y, x)).2) := by
  unfold writeCell placeCell
  rw [getModule_eq canvas n y x h hy hx]
  simp only
  by_cases hu : (cellAt canvas y x).isUsed = true
  · simp [hu]
  · simp only [hu, Bool.not_false, if_true, Bool.false_eq_true, if_false]
    rw [setModule_eq canvas n y x _ h hy hx, nextBit_genAfter]

/-- The inner loop of `Write` going upwards from row `m - 1` to row 0 is the
reference placement over these rows, right cell first. -/
theorem writeRows_up (dataBits : List Bool) (n xl xr : Nat) (hxl : xl < n) (hxr : xr < n) :
    ∀ (m : Nat) (canvas : List (List Module)) (k : Nat), WellFormed canvas n → m ≤ n →
      writeRows (xl : Int) (xr : Int) true (-1) m ((m : Int) - 1) canvas (genAfter dataBits k) =
        some ((placeCells dataBits
            (((List.range m).reverse.map (fun y => [(y, xr), (y, xl)])).flatten) (canvas, k)).1,
          genAfter dataBits (placeCells dataBits
            (((List.range m).reverse.map (fun y => [(y, xr), (y, xl)])).flatten) (canvas, k)).2) := by
  intro m
  induction m with
  | zero =>
    intro canvas k _ _
    simp [writeRows, placeCells]
  | succ m ih =>
    intro canvas k hwf hm
    have hy : ((m + 1 : Nat) : Int) - 1 = (m : Int) := by omega
    rw [hy]
    have hne : (m : Int) ≠ -1 := by omega
    simp only [writeRows, if_pos hne, if_true]
    rw [writeCell_eq dataBits canvas n k m xr hwf (by omega) hxr]
    simp only
    rw [writeCell_eq dataBits _ n _ m xl
      (placeCell_WellFormed dataBits n (canvas, k) (m, xr) hwf) (by omega) hxl]
    simp only
    rw [ih _ _ (placeCell_WellFormed dataBits n _ (m, xl)
      (placeCell_WellFormed dataBits n (canvas, k) (m, xr) hwf)) (by omega)]
    have hl : ((List.range (m + 1)).reverse.map (fun y => [(y, xr), (y, xl)])).flatten =
        [(m, xr), (m, xl)] ++
          ((List.range m).reverse.map (fun y => [(y, xr), (y, xl)])).flatten := by
      simp [List.range_succ]
    rw [hl, placeCells_append]
    rfl

/-- The inner loop of `Write` going downwards from row `y0` to row `n - 1` is
the reference placement over these rows, right cell first. -/
theorem writeRows_down (dataBits : List Bool) (n xl xr : Nat) (hxl : xl < n) (hxr : xr < n) :
    ∀ (m y0 : Nat) (canvas : List (List Module)) (k : Nat), WellFormed canvas n → y0 + m = n →
      writeRows (xl : Int) (xr : Int) false (n : Int) m (y0 : Int) canvas (genAfter dataBits k) =
        some ((placeCells dataBits
            (((List.range' y0 m).map (fun y => [(y, xr), (y, xl)])).flatten) (canvas, k)).1,
          genAfter dataBits (placeCells dataBits
            (((List.range' y0 m).map (fun y => [(y, xr), (y, xl)])).flatten) (canvas, k)).2) := by
  intro m
  induction m with
  | zero =>
    intro y0 canvas k _ hy
    have : (y0 : Int) = (n : Int) := by omega
    simp [writeRows, placeCells, this]
  | succ m ih =>
    intro y0 canvas k hwf hy
    have hne : (y0 : Int) ≠ (n : Int) := by omega
    simp only [writeRows, if_pos hne, Bool.false_eq_true, if_false]
    rw [writeCell_eq dataBits canvas n k y0 xr hwf (by omega) hxr]
    simp only
    rw [writeCell_eq dataBits _ n _ y0 xl
      (placeCell_WellFormed dataBits n (canvas, k) (y0, xr) hwf) (by omega) hxl]
    simp only
    have hy1 : (y0 : Int) + 1 = ((y0 + 1 : Nat) : Int) := by omega
    rw [hy1, ih (y0 + 1) _ _ (placeCell_WellFormed dataBits n _ (y0, xl)
      (placeCell_WellFormed dataBits n (canvas, k) (y0, xr) hwf)) (by omega)]
    have hl : ((List.range' y0 (m + 1)).map (fun y => [(y, xr), (y, xl)])).flatten =
        [(y0, xr), (y0, xl)] ++
          ((List.range' (y0 + 1) m).map (fun y => [(y, xr), (y, xl)])).flatten := by
      simp [List.range'_succ]
    rw [hl, placeCells_append]
    rfl

/-- The inner loop of `Write` for one column pair, started as the outer loop
starts it, is the reference placement over the cells of the pair. -/
theorem writeRows_pair (dataBits : List Bool) (n xl xr : Nat) (hxl : xl < n) (hxr : xr < n)
    (upwards : Bool) (canvas : List (List Module)) (k : Nat) (hwf : WellFormed canvas n) :
    writeRows (xl : Int) (xr : Int) upwards (if !upwards then (n : Int) else -1) n
        (if !upwards then 0 else (n : Int) - 1) canvas (genAfter dataBits k) =
      some ((placeCells dataBits (pairCells n upwards (xl, xr)) (canvas, k)).1,
        genAfter dataBits (placeCells dataBits (pairCells n upwards (xl, xr)) (canvas, k)).2) := by
  cases upwards with
  | true =>
    simp only [Bool.not_true, Bool.false_eq_true, if_false, pairCells, if_true]
    exact writeRows_up dataBits n xl xr hxl hxr n canvas k hwf (le_refl _)
  | false =>
    simp only [Bool.not_false, if_true, pairCells, Bool.false_eq_true, if_false]
    have := writeRows_down dataBits n xl xr hxl hxr n 0 canvas k hwf (by omega)
    rw [← List.range_eq_range'] at this
    exact this

/-- The outer loop of `Write` stops once `xl` is negative. -/
theorem writePairs_done (n fuel : Nat) (xl xr : Int) (upwards : Bool)
    (canvas : List (List Module)) (gen : BitsGenerator) (h : xl < 0) :
    writePairs n fuel xl xr upwards canvas gen = some (canvas, gen) := by
  cases fuel with
  | zero => simp only [writePairs]; rw [if_neg (by omega)]
  | succ f => simp only [writePairs]; rw [if_neg (by omega)]

/-- One iteration of the outer loop of `Write` away from column 6. -/
theorem writePairs_step (dataBits : List Bool) (n fuel xl xr : Nat) (hxl : xl < n)
    (hxr : xr < n) (h6 : xr ≠ 6) (upwards : Bool) (canvas : List (List Module)) (k : Nat)
    (hwf : WellFormed canvas n) :
    writePairs n (fuel + 1) (xl : Int) (xr : Int) upwards canvas (genAfter dataBits k) =
      writePairs n fuel ((xl : Int) - 2) ((xr : Int) - 2) (!upwards)
        (placeCells dataBits (pairCells n upwards (xl, xr)) (canvas, k)).1
        (genAfter dataBits (placeCells dataBits (pairCells n upwards (xl, xr)) (canvas, k)).2) := by
  have h6i : ¬ ((xr : Int) = 6) := by omega
  simp only [writePairs]
  rw [if_pos (by omega), if_neg h6i, if_neg h6i,
    writeRows_pair dataBits n xl xr hxl hxr upwards canvas k hwf]

/-- The iteration of the outer loop of `Write` that meets column 6: the pair
`(5, 6)` is replaced by `(4, 5)`. -/
theorem writePairs_step6 (dataBits : List Bool) (n fuel : Nat) (hn : 7 ≤ n) (upwards : Bool)
    (canvas : List (List Module)) (k : Nat) (hwf : WellFormed canvas n) :
    writePairs n (fuel + 1) 5 6 upwards canvas (genAfter dataBits k) =
      writePairs n fuel 2 3 (!upwards)
        (placeCells dataBits (pairCells n upwards (4, 5)) (canvas, k)).1
        (genAfter dataBits (placeCells dataBits (pairCells n upwards (4, 5)) (canvas, k)).2) := by
  have hr := writeRows_pair dataBits n 4 5 (by omega) (by omega) upwards canvas k hwf
  simp only [Nat.cast_ofNat] at hr
  have e1 : (5 : Int) - 1 = 4 := by omega
  have e2 : (6 : Int) - 1 = 5 := by omega
  have e3 : (4 : Int) - 2 = 2 := by omega
  have e4 : (5 : Int) - 2 = 3 := by omega
  simp only [writePairs]
  rw [if_pos (by omega)]
  simp only [if_true, e1, e2, hr, e3, e4]

/-- Started at the pair `(2j+5, 2j+6)` with enough iterations, the outer loop
of `Write` is the reference placement over the column pairs `pairsFrom j`. -/
theorem writePairs_from (dataBits : List Bool) (n : Nat) :
    ∀ (j fuel : Nat) (upwards : Bool) (canvas : List (List Module)) (k : Nat),
      WellFormed canvas n → 2 * j + 7 ≤ n → j + 3 ≤ fuel →
      writePairs n fuel ((2 * j + 5 : Nat) : Int) ((2 * j + 6 : Nat) : Int) upwards canvas
          (genAfter dataBits k) =
        some ((placeCells dataBits (zigzagFrom n upwards (pairsFrom j)) (canvas, k)).1,
          genAfter dataBits
            (placeCells dataBits (zigzagFrom n upwards (pairsFrom j)) (canvas, k)).2) := by
  intro j
  induction j with
  | zero =>
    intro fuel upwards canvas k hwf hn hfuel
    obtain ⟨f, rfl⟩ : ∃ f, fuel = f + 3 := ⟨fuel - 3, by omega⟩
    have hc5 : ((2 * 0 + 5 : Nat) : Int) = 5 := by norm_num
    have hc6 : ((2 * 0 + 6 : Nat) : Int) = 6 := by norm_num
    rw [hc5, hc6, writePairs_step6 dataBits n (f + 2) (by omega) upwards canvas k hwf]
    have hwf1 := placeCells_WellFormed dataBits n (pairCells n upwards (4, 5)) (canvas, k) hwf
    have s2 := writePairs_step dataBits n (f + 1) 2 3 (by omega) (by omega) (by omega) (!upwards)
      _ (placeCells dataBits (pairCells n upwards (4, 5)) (canvas, k)).2 hwf1
    simp only [Nat.cast_ofNat] at s2
    rw [s2]
    have hwf2 := placeCells_WellFormed dataBits n (pairCells n (!upwards) (2, 3)) _ hwf1
    have s3 := writePairs_step dataBits n f 0 1 (by omega) (by omega) (by omega) (!!upwards)
      _ (placeCells dataBits (pairCells n (!upwards) (2, 3))
        (placeCells dataBits (pairCells n upwards (4, 5)) (canvas, k))).2 hwf2
    simp only [Nat.cast_ofNat, Nat.cast_zero, Nat.cast_one] at s3
    have e1 : (2 : Int) - 2 = 0 := by omega
    have e2 : (3 : Int) - 2 = 1 := by omega
    rw [e1, e2, s3, writePairs_done n f _ _ _ _ _ (by omega)]
    simp only [pairsFrom, zigzagFrom, placeCells_append, List.append_nil]
  | succ j ih =>
    intro fuel upwards canvas k hwf hn hfuel
    obtain ⟨f, rfl⟩ : ∃ f, fuel = f + 1 := ⟨fuel - 1, by omega⟩
    have s1 := writePairs_step dataBits n f (2 * j + 7) (2 * j + 8) (by omega) (by omega)
      (by omega) upwards canvas k hwf
    have hc5 : ((2 * (j + 1) + 5 : Nat) : Int) = ((2 * j + 7 : Nat) : Int) := by omega
    have hc6 : ((2 * (j + 1) + 6 : Nat) : Int) = ((2 * j + 8 : Nat) : Int) := by omega
    have e1 : ((2 * j + 7 : Nat) : Int) - 2 = ((2 * j + 5 : Nat) : Int) := by omega
    have e2 : ((2 * j + 8 : Nat) : Int) - 2 = ((2 * j + 6 : Nat) : Int) := by omega
    rw [hc5, hc6, s1, e1, e2]
    have hwf1 := placeCells_WellFormed dataBits n (pairCells n upwards (2 * j + 7, 2 * j + 8))
      (canvas, k) hwf
    rw [ih f (!upwards) _ _ hwf1 (by omega) (by omega)]
    simp only [pairsFrom, zigzagFrom, placeCells_append]

/-- The closed form of the column pairs agrees with the recursion. -/
theorem zigzagPairs_eq (q : Nat) : zigzagPairs (2 * q + 7) = pairsFrom q := by
  induction q with
  | zero => simp [zigzagPairs, pairsFrom]
  | succ q ih =>
    unfold zigzagPairs at ih ⊢
    have h1 : (2 * (q + 1) + 7 - 7) / 2 = q + 1 := by omega
    have h2 : (2 * q + 7 - 7) / 2 = q := by omega
    rw [h1]
    rw [h2] at ih
    rw [List.range_succ_eq_map, List.map_cons, List.map_map, pairsFrom, List.cons_append, ← ih]
    have hhead : (2 * (q + 1) + 7 - 2 - 2 * 0, 2 * (q + 1) + 7 - 1 - 2 * 0) =
        (2 * q + 7, 2 * q + 8) := by
      simp only [Prod.mk.injEq]; omega
    have htail : List.map ((fun k => (2 * (q + 1) + 7 - 2 - 2 * k, 2 * (q + 1) + 7 - 1 - 2 * k)) ∘
          Nat.succ) (List.range q) =
        List.map (fun k => (2 * q + 7 - 2 - 2 * k, 2 * q + 7 - 1 - 2 * k)) (List.range q) := by
      apply List.map_congr_left
      intro k _
      simp only [Function.comp, Prod.mk.injEq]
      omega
    rw [hhead, htail]

/-- On a square canvas of odd side `2q + 7` the loops of `Write` do not
panic, end, and are the reference placement over the zigzag enumeration. -/
theorem writePairs_zigzag (g : QRCode) (q : Nat) (hsize : g.size = 2 * q + 7)
    (hwf : WellFormed g.canvas g.size) :
    writePairs g.size g.size ((g.size : Int) - 2) ((g.size : Int) - 1) true g.canvas
        (bitsGenerator g) =
      some ((placeCells (appendDataBits g.data []) (zigzagCells g.size) (g.canvas, 0)).1,
        genAfter (appendDataBits g.data [])
          (placeCells (appendDataBits g.data []) (zigzagCells g.size) (g.canvas, 0)).2) := by
  have hgen : bitsGenerator g = genAfter (appendDataBits g.data []) 0 := by
    unfold bitsGenerator genAfter
    simp
  have e1 : (g.size : Int) - 2 = ((2 * q + 5 : Nat) : Int) := by omega
  have e2 : (g.size : Int) - 1 = ((2 * q + 6 : Nat) : Int) := by omega
  rw [hgen, e1, e2, writePairs_from (appendDataBits g.data []) g.size q g.size true g.canvas 0
    hwf (by omega) (by omega)]
  unfold zigzagCells
  rw [hsize, zigzagPairs_eq]

/-- The reference placement over distinct cells of a square canvas: the
count advances by the number of unreserved cells, the `j`-th unreserved cell
receives the negation of bit `k0 + j` and is reserved, every other module is
left as it was. -/
theorem placeCells_spec (dataBits : List Bool) (n : Nat) :
    ∀ (cells : List (Nat × Nat)) (canvas : List (List Module)) (k0 : Nat),
      WellFormed canvas n → cells.Nodup → (∀ c, c ∈ cells → c.1 < n ∧ c.2 < n) →
      (placeCells dataBits cells (canvas, k0)).2 = k0 + (unreservedCells canvas cells).length ∧
      (∀ j y x, (unreservedCells canvas cells)[j]? = some (y, x) →
        cellAt (placeCells dataBits cells (canvas, k0)).1 y x =
          { value := !(dataBits.getD (k0 + j) false), isUsed := true }) ∧
      (∀ y x, (y, x) ∉ unreservedCells canvas cells →
        cellAt (placeCells dataBits cells (canvas, k0)).1 y x = cellAt canvas y x) := by
  intro cells
  induction cells with
  | nil =>
    intro canvas k0 _ _ _
    simp [placeCells, unreservedCells]
  | cons c rest ih =>
    intro canvas k0 hwf hnd hrange
    obtain ⟨cy, cx⟩ := c
    have hnd2 := List.nodup_cons.mp hnd
    have hrange2 : ∀ c, c ∈ rest → c.1 < n ∧ c.2 < n := fun c hc => hrange c (by simp [hc])
    have hc := hrange (cy, cx) (by simp)
    by_cases hu : (cellAt canvas cy cx).isUsed = true
    · have hstep : placeCells dataBits ((cy, cx) :: rest) (canvas, k0) =
          placeCells dataBits rest (canvas, k0) := by
        simp only [placeCells, List.foldl_cons, placeCell, hu, if_true]
      have hfil : unreservedCells canvas ((cy, cx) :: rest) = unreservedCells canvas rest := by
        simp [unreservedCells, List.filter_cons, hu]
      rw [hstep, hfil]
      exact ih canvas k0 hwf hnd2.2 hrange2
    · have hu2 : (cellAt canvas cy cx).isUsed = false := by simpa using hu
      have hstep : placeCells dataBits ((cy, cx) :: rest) (canvas, k0) =
          placeCells dataBits rest
            (setCell canvas cy cx { value := !(dataBits.getD k0 false), isUsed := true },
              k0 + 1) := by
        simp only [placeCells, List.foldl_cons, placeCell, hu2, Bool.false_eq_true, if_false]
      have hfil : unreservedCells canvas ((cy, cx) :: rest) =
          (cy, cx) :: unreservedCells canvas rest := by
        simp [unreservedCells, List.filter_cons, hu2]
      have hfil2 : unreservedCells
          (setCell canvas cy cx { value := !(dataBits.getD k0 false), isUsed := true }) rest =
          unreservedCells canvas rest := by
        unfold unreservedCells
        apply List.filter_congr
        intro d hd
        rw [cellAt_setCell_ne]
        intro hcon
        apply hnd2.1
        have : d = (cy, cx) := Prod.ext hcon.1 hcon.2
        rw [← this]
        exact hd
      obtain ⟨h1, h2, h3⟩ := ih
        (setCell canvas cy cx { value := !(dataBits.getD k0 false), isUsed := true }) (k0 + 1)
        (WellFormed_setCell _ _ _ _ _ hwf) hnd2.2 hrange2
      rw [hfil2] at h1 h2 h3
      have hcnot : (cy, cx) ∉ unreservedCells canvas rest := by
        intro hmem
        exact hnd2.1 (List.mem_of_mem_filter hmem)
      rw [hstep, hfil]
      refine ⟨by rw [h1, List.length_cons]; omega, ?_, ?_⟩
      · intro j y x hj
        cases j with
        | zero =>
          simp only [List.getElem?_cons_zero, Option.some.injEq, Prod.mk.injEq] at hj
          obtain ⟨rfl, rfl⟩ := hj
          rw [h3 cy cx hcnot, cellAt_setCell_same _ n _ _ _ hwf hc.1 hc.2]
          rfl
        | succ j =>
          simp only [List.getElem?_cons_succ] at hj
          rw [h2 j y x hj]
          have : k0 + 1 + j = k0 + (j + 1) := by omega
          rw [this]
      · intro y x hnot
        have hne : ¬ (y = cy ∧ x = cx) := by
          intro hcon
          apply hnot
          rw [hcon.1, hcon.2]
          exact List.mem_cons_self _ _
        have hnot2 : (y, x) ∉ unreservedCells canvas rest := by
          intro hmem
          exact hnot (List.mem_cons_of_mem _ hmem)
        rw [h3 y x hnot2, cellAt_setCell_ne _ _ _ _ _ _ hne]

/-! ## The zigzag enumeration: which cells, each once -/

theorem rowCells_mem (xl xr : Nat) (L : List Nat) (y x : Nat) :
    (y, x) ∈ (L.map (fun r => [(r, xr), (r, xl)])).flatten ↔ y ∈ L ∧ (x = xr ∨ x = xl) := by
  induction L with
  | nil => simp
  | cons r rest ih =>
    simp only [List.map_cons, List.flatten_cons, List.mem_append, ih, List.mem_cons,
      List.mem_singleton, Prod.mk.injEq, List.not_mem_nil, or_false]
    constructor
    · rintro (⟨⟨rfl, h⟩ | ⟨rfl, h⟩⟩ | ⟨h1, h2⟩)
      · exact ⟨Or.inl rfl, Or.inl h⟩
      · exact ⟨Or.inl rfl, Or.inr h⟩
      · exact ⟨Or.inr h1, h2⟩
    · rintro ⟨rfl | h1, h2⟩
      · left
        rcases h2 with h2 | h2
        · exact Or.inl ⟨rfl, h2⟩
        · exact Or.inr ⟨rfl, h2⟩
      · exact Or.inr ⟨h1, h2⟩

theorem rowCells_nodup (xl xr : Nat) (hne : xl ≠ xr) (L : List Nat) (hL : L.Nodup) :
    ((L.map (fun r => [(r, xr), (r, xl)])).flatten).Nodup := by
  induction L with
  | nil => simp
  | cons r rest ih =>
    have h2 := List.nodup_cons.mp hL
    simp only [List.map_cons, List.flatten_cons]
    rw [List.nodup_append]
    refine ⟨?_, ih h2.2, ?_⟩
    · simp only [List.nodup_cons, List.mem_singleton, Prod.mk.injEq, true_and,
        List.not_mem_nil, not_false_eq_true, List.nodup_nil, and_true]
      exact fun h => hne h.symm
    · intro c hc1 hc2
      obtain ⟨cy, cx⟩ := c
      have hy := ((rowCells_mem xl xr rest cy cx).mp hc2).1
      simp only [List.mem_cons, Prod.mk.injEq, List.mem_singleton, List.not_mem_nil,
        or_false] at hc1
      rcases hc1 with ⟨rfl, _⟩ | ⟨rfl, _⟩
      · exact h2.1 hy
      · exact h2.1 hy

theorem pairCells_mem (n : Nat) (upwards : Bool) (xl xr y x : Nat) :
    (y, x) ∈ pairCells n upwards (xl, xr) ↔ y < n ∧ (x = xr ∨ x = xl) := by
  unfold pairCells
  cases upwards with
  | true => simp only [if_true]; rw [rowCells_mem]; simp
  | false => simp only [Bool.false_eq_true, if_false]; rw [rowCells_mem]; simp

theorem pairCells_nodup (n : Nat) (upwards : Bool) (xl xr : Nat) (hne : xl ≠ xr) :
    (pairCells n upwards (xl, xr)).Nodup := by
  unfold pairCells
  cases upwards with
  | true =>
    simp only [if_true]
    exact rowCells_nodup xl xr hne _ (List.nodup_reverse.mpr (List.nodup_range n))
  | false =>
    simp only [Bool.false_eq_true, if_false]
    exact rowCells_nodup xl xr hne _ (List.nodup_range n)

theorem zigzagFrom_mem (n : Nat) :
    ∀ (P : List (Nat × Nat)) (upwards : Bool) (y x : Nat),
      (y, x) ∈ zigzagFrom n upwards P ↔ y < n ∧ ∃ p, p ∈ P ∧ (x = p.2 ∨ x = p.1) := by
  intro P
  induction P with
  | nil => intro upwards y x; simp [zigzagFrom]
  | cons p rest ih =>
    intro upwards y x
    obtain ⟨pl, pr⟩ := p
    simp only [zigzagFrom, List.mem_append, pairCells_mem, ih, List.mem_cons]
    constructor
    · rintro (⟨h1, h2⟩ | ⟨h1, p2, hp2, h2⟩)
      · exact ⟨h1, (pl, pr), Or.inl rfl, h2⟩
      · exact ⟨h1, p2, Or.inr hp2, h2⟩
    · rintro ⟨h1, p2, rfl | hp2, h2⟩
      · exact Or.inl ⟨h1, h2⟩
      · exact Or.inr ⟨h1, p2, hp2, h2⟩

theorem zigzagFrom_nodup (n : Nat) :
    ∀ (P : List (Nat × Nat)) (upwards : Bool),
      (∀ p, p ∈ P → p.1 ≠ p.2) →
      P.Pairwise (fun p r => p.1 ≠ r.1 ∧ p.1 ≠ r.2 ∧ p.2 ≠ r.1 ∧ p.2 ≠ r.2) →
      (zigzagFrom n upwards P).Nodup := by
  intro P
  induction P with
  | nil => intro upwards _ _; simp [zigzagFrom]
  | cons p rest ih =>
    intro upwards hne hpw
    obtain ⟨pl, pr⟩ := p
    have hpw2 := List.pairwise_cons.mp hpw
    simp only [zigzagFrom]
    rw [List.nodup_append]
    refine ⟨pairCells_nodup n upwards pl pr (hne (pl, pr) (by simp)),
      ih (!upwards) (fun r hr => hne r (by simp [hr])) hpw2.2, ?_⟩
    intro c hc1 hc2
    obtain ⟨cy, cx⟩ := c
    have h1 := ((pairCells_mem n upwards pl pr cy cx).mp hc1).2
    obtain ⟨_, r, hr, h2⟩ := (zigzagFrom_mem n rest (!upwards) cy cx).mp hc2
    have hd := hpw2.1 r hr
    simp only at hd
    rcases h1 with h1 | h1 <;> rcases h2 with h2 | h2 <;> omega

/-- The columns of the pairs `pairsFrom j` are the columns below `2j + 7`
other than column 6. -/
theorem pairsFrom_columns :
    ∀ (j x : Nat), (∃ p, p ∈ pairsFrom j ∧ (x = p.2 ∨ x = p.1)) ↔ x < 2 * j + 7 ∧ x ≠ 6 := by
  intro j
  induction j with
  | zero =>
    intro x
    simp only [pairsFrom, List.mem_cons, List.mem_singleton, List.not_mem_nil, or_false]
    constructor
    · rintro ⟨p, (rfl | rfl | rfl), h⟩ <;> simp only at h <;> omega
    · intro h
      have hx : x = 0 ∨ x = 1 ∨ x = 2 ∨ x = 3 ∨ x = 4 ∨ x = 5 := by omega
      rcases hx with rfl | rfl | rfl | rfl | rfl | rfl
      · exact ⟨(0, 1), by simp, by simp⟩
      · exact ⟨(0, 1), by simp, by simp⟩
      · exact ⟨(2, 3), by simp, by simp⟩
      · exact ⟨(2, 3), by simp, by simp⟩
      · exact ⟨(4, 5), by simp, by simp⟩
      · exact ⟨(4, 5), by simp, by simp⟩
  | succ j ih =>
    intro x
    simp only [pairsFrom, List.mem_cons]
    constructor
    · rintro ⟨p, (rfl | hp), h⟩
      · simp only at h; omega
      · have := (ih x).mp ⟨p, hp, h⟩
        omega
    · intro h
      by_cases hx : x < 2 * j + 7
      · obtain ⟨p, hp, h2⟩ := (ih x).mpr ⟨hx, h.2⟩
        exact ⟨p, Or.inr hp, h2⟩
      · refine ⟨(2 * j + 7, 2 * j + 8), Or.inl rfl, ?_⟩
        simp only
        omega

theorem pairsFrom_ne : ∀ (j : Nat) (p : Nat × Nat), p ∈ pairsFrom j → p.1 ≠ p.2 := by
  intro j
  induction j with
  | zero =>
    intro p hp
    simp only [pairsFrom, List.mem_cons, List.mem_singleton, List.not_mem_nil, or_false] at hp
    rcases hp with rfl | rfl | rfl <;> simp
  | succ j ih =>
    intro p hp
    simp only [pairsFrom, List.mem_cons] at hp
    rcases hp with rfl | hp
    · simp
    · exact ih p hp

theorem pairsFrom_pairwise :
    ∀ j : Nat, (pairsFrom j).Pairwise
      (fun p r => p.1 ≠ r.1 ∧ p.1 ≠ r.2 ∧ p.2 ≠ r.1 ∧ p.2 ≠ r.2) := by
  intro j
  induction j with
  | zero => simp [pairsFrom]
  | succ j ih =>
    simp only [pairsFrom, List.pairwise_cons]
    refine ⟨?_, ih⟩
    intro r hr
    have h1 := (pairsFrom_columns j r.1).mp ⟨r, hr, Or.inr rfl⟩
    have h2 := (pairsFrom_columns j r.2).mp ⟨r, hr, Or.inl rfl⟩
    omega

/-- On an odd side `2q + 7` the zigzag enumeration lists exactly the cells of
the canvas outside column 6. -/
theorem zigzagCells_mem (q y x : Nat) :
    (y, x) ∈ zigzagCells (2 * q + 7) ↔ y < 2 * q + 7 ∧ x < 2 * q + 7 ∧ x ≠ 6 := by
  unfold zigzagCells
  rw [zigzagPairs_eq, zigzagFrom_mem, pairsFrom_columns]

/-- On an odd side `2q + 7` the zigzag enumeration lists no cell twice. -/
theorem zigzagCells_nodup (q : Nat) : (zigzagCells (2 * q + 7)).Nodup := by
  unfold zigzagCells
  rw [zigzagPairs_eq]
  exact zigzagFrom_nodup _ _ true (pairsFrom_ne q) (pairsFrom_pairwise q)

/-! ## `Write`: what it does to the matrix -/

/-- On a square canvas of odd side `2q + 7`, `Write` returns; the generator
has been called once per cell of the zigzag enumeration that was unreserved,
the `j`-th such cell holds the negation of bit `j` and is reserved, and every
other module is as before. -/
theorem Write_spec (g : QRCode) (bytes : List Nat) (q : Nat) (hsize : g.size = 2 * q + 7)
    (hwf : WellFormed g.canvas g.size) :
    ∃ canvas,
      writePairs g.size g.size ((g.size : Int) - 2) ((g.size : Int) - 1) true g.canvas
          (bitsGenerator g) =
        some (canvas, genAfter (appendDataBits g.data [])
          (unreservedCells g.canvas (zigzagCells g.size)).length) ∧
      Write g bytes =
        some ({ data := g.data, version := g.version, correction := g.correction,
                canvas := canvas, size := g.size, alignments := g.alignments }, (0, [])) ∧
      WellFormed canvas g.size ∧
      (∀ j y x, (unreservedCells g.canvas (zigzagCells g.size))[j]? = some (y, x) →
        cellAt canvas y x =
          { value := !((appendDataBits g.data []).getD j false), isUsed := true }) ∧
      (∀ y x, (y, x) ∉ unreservedCells g.canvas (zigzagCells g.size) →
        cellAt canvas y x = cellAt g.canvas y x) := by
  have hloop := writePairs_zigzag g q hsize hwf
  have hrange : ∀ c, c ∈ zigzagCells g.size → c.1 < g.size ∧ c.2 < g.size := by
    intro c hc
    obtain ⟨cy, cx⟩ := c
    rw [hsize] at hc ⊢
    have := (zigzagCells_mem q cy cx).mp hc
    exact ⟨this.1, this.2.1⟩
  have hnd : (zigzagCells g.size).Nodup := by rw [hsize]; exact zigzagCells_nodup q
  obtain ⟨h1, h2, h3⟩ := placeCells_spec (appendDataBits g.data []) g.size (zigzagCells g.size)
    g.canvas 0 hwf hnd hrange
  refine ⟨(placeCells (appendDataBits g.data []) (zigzagCells g.size) (g.canvas, 0)).1, ?_, ?_,
    placeCells_WellFormed _ _ _ _ hwf, ?_, h3⟩
  · rw [hloop, h1, Nat.zero_add]
  · unfold Write
    simp only [hloop]
  · intro j y x hj
    have := h2 j y x hj
    rw [Nat.zero_add] at this
    exact this

/-- Entry `i` of the model of `ToBoolArray` is bit `7 - i` of the byte. -/
theorem ToBoolArray_getD (b i : Nat) (hi : i < 8) :
    (ToBoolArray b).getD i false = b.testBit (7 - i) := by
  have h7 := and_two_pow_ne_zero b 7
  have h6 := and_two_pow_ne_zero b 6
  have h5 := and_two_pow_ne_zero b 5
  have h4 := and_two_pow_ne_zero b 4
  have h3 := and_two_pow_ne_zero b 3
  have h2 := and_two_pow_ne_zero b 2
  have h1 := and_two_pow_ne_zero b 1
  have h0 := and_two_pow_ne_zero b 0
  have hi2 : i = 0 ∨ i = 1 ∨ i = 2 ∨ i = 3 ∨ i = 4 ∨ i = 5 ∨ i = 6 ∨ i = 7 := by omega
  rw [Bool.eq_iff_iff]
  rcases hi2 with rfl | rfl | rfl | rfl | rfl | rfl | rfl | rfl
  · simpa [ToBoolArray, List.range, List.range.loop] using h7
  · simpa [ToBoolArray, List.range, List.range.loop] using h6
  · simpa [ToBoolArray, List.range, List.range.loop] using h5
  · simpa [ToBoolArray, List.range, List.range.loop] using h4
  · simpa [ToBoolArray, List.range, List.range.loop] using h3
  · simpa [ToBoolArray, List.range, List.range.loop] using h2
  · simpa [ToBoolArray, List.range, List.range.loop] using h1
  · simp [ToBoolArray, List.range, List.range.loop]

theorem ToBoolArray_length (b : Nat) : (ToBoolArray b).length = 8 := by
  simp [ToBoolArray]

theorem appendDataBits_eq :
    ∀ (data : List Nat) (acc : List Bool),
      appendDataBits data acc = acc ++ appendDataBits data [] := by
  intro data
  induction data with
  | nil => intro acc; simp [appendDataBits]
  | cons b rest ih =>
    intro acc
    simp only [appendDataBits, List.nil_append]
    rw [ih (acc ++ ToBoolArray b), ih (ToBoolArray b)]
    simp

theorem appendDataBits_length :
    ∀ data : List Nat, (appendDataBits data []).length = 8 * data.length := by
  intro data
  induction data with
  | nil => simp [appendDataBits]
  | cons b rest ih =>
    simp only [appendDataBits, List.nil_append]
    rw [appendDataBits_eq, List.length_append, ih, ToBoolArray_length, List.length_cons]
    omega

/-- The bits handed out by the generator of `bitsGenerator`: bit `k` of the
stream is bit `7 - k mod 8` of byte `k div 8`, most-significant bit first,
and `false` past the end of the stream. -/
theorem appendDataBits_getD :
    ∀ (data : List Nat) (k : Nat),
      (appendDataBits data []).getD k false =
        (if k < 8 * data.length then (data.getD (k / 8) 0).testBit (7 - k % 8) else false) := by
  intro data
  induction data with
  | nil => intro k; simp [appendDataBits]
  | cons b rest ih =>
    intro k
    simp only [appendDataBits, List.nil_append]
    rw [appendDataBits_eq]
    by_cases hk : k < 8
    · rw [List.getD_append _ _ _ _ (by rw [ToBoolArray_length]; exact hk),
        ToBoolArray_getD b k hk, if_pos (by simp only [List.length_cons]; omega)]
      have h1 : k / 8 = 0 := by omega
      have h2 : k % 8 = k := by omega
      rw [h1, h2, List.getD_cons_zero]
    · rw [List.getD_append_right _ _ _ _ (by rw [ToBoolArray_length]; omega), ToBoolArray_length,
        ih (k - 8)]
      have h1 : k / 8 = (k - 8) / 8 + 1 := by omega
      have h2 : k % 8 = (k - 8) % 8 := by omega
      rw [h1, h2, List.getD_cons_succ]
      by_cases hlt : k - 8 < 8 * rest.length
      · rw [if_pos hlt, if_pos (by simp only [List.length_cons]; omega)]
      · rw [if_neg hlt, if_neg (by simp only [List.length_cons]; omega)]

/-- C17: on a square canvas of odd side `n >= 7`, `Write` equals the
reference zigzag placement.  With the cells enumerated by column pairs
`(n-2, n-1)`, `(n-4, n-3)`, ..., `(4, 5)` in place of `(5, 6)`, `(2, 3)`,
`(0, 1)`, rows bottom-to-top for the first pair and reversed after each pair,
right cell before left cell, the `k`-th cell of the enumeration that was
unreserved before the call receives the colour `NOT bit_k` and is reserved,
and every other module is unchanged; `bit_k` is bit `7 - k mod 8` of byte
`k div 8` of the stream and `false` once the stream is exhausted. -/
theorem Write_is_zigzag_placement (g : QRCode) (bytes : List Nat) (q : Nat)
    (hsize : g.size = 2 * q + 7) (hwf : WellFormed g.canvas g.size) :
    ∃ canvas,
      Write g bytes =
        some ({ data := g.data, version := g.version, correction := g.correction,
                canvas := canvas, size := g.size, alignments := g.alignments }, (0, [])) ∧
      (∀ k y x, (unreservedCells g.canvas (zigzagCells g.size))[k]? = some (y, x) →
        cellAt canvas y x =
          { value := !((appendDataBits g.data []).getD k false), isUsed := true }) ∧
      (∀ y x, (y, x) ∉ unreservedCells g.canvas (zigzagCells g.size) →
        cellAt canvas y x = cellAt g.canvas y x) ∧
      (∀ k, (appendDataBits g.data []).getD k false =
        (if k < 8 * g.data.length then (g.data.getD (k / 8) 0).testBit (7 - k % 8)
          else false)) := by
  obtain ⟨canvas, _, hw, _, hset, hkeep⟩ := Write_spec g bytes q hsize hwf
  exact ⟨canvas, hw, hset, hkeep, appendDataBits_getD g.data⟩

/-- A fresh matrix of side 21 carrying the codewords `0xAB`, `0xCD`: the
enumeration starts at the bottom right corner and goes up the last two
columns. -/
theorem Write_is_zigzag_placement_witness :
    sampleFresh21.size = 2 * 7 + 7 ∧ WellFormed sampleFresh21.canvas sampleFresh21.size ∧
    (zigzagCells 21).take 5 = [(20, 20), (20, 19), (19, 20), (19, 19), (18, 20)] ∧
    ∃ canvas,
      Write sampleFresh21 [] =
        some ({ data := sampleFresh21.data, version := sampleFresh21.version,
                correction := sampleFresh21.correction, canvas := canvas,
                size := sampleFresh21.size, alignments := sampleFresh21.alignments }, (0, [])) ∧
      (∀ k y x,
        (unreservedCells sampleFresh21.canvas (zigzagCells sampleFresh21.size))[k]? =
            some (y, x) →
        cellAt canvas y x =
          { value := !((appendDataBits sampleFresh21.data []).getD k false), isUsed := true }) ∧
      (∀ y x, (y, x) ∉ unreservedCells sampleFresh21.canvas (zigzagCells sampleFresh21.size) →
        cellAt canvas y x = cellAt sampleFresh21.canvas y x) ∧
      (∀ k, (appendDataBits sampleFresh21.data []).getD k false =
        (if k < 8 * sampleFresh21.data.length then
          (sampleFresh21.data.getD (k / 8) 0).testBit (7 - k % 8)
          else false)) :=
  ⟨rfl, by decide, by decide,
    Write_is_zigzag_placement sampleFresh21 [] 7 rfl (by decide)⟩

/-- C12 as stated fails: on a fresh matrix of side 21 carrying two codewords
(16 bits), `Write` sets the 420 modules outside column 6, all unreserved
before the call, while the generator ends at bit 16: 16 bits of the stream
are consumed, not 420. -/
theorem Write_consumes_no_more_than_the_stream :
    ∃ canvas gen,
      writePairs sampleFresh21.size sampleFresh21.size ((sampleFresh21.size : Int) - 2)
          ((sampleFresh21.size : Int) - 1) true sampleFresh21.canvas
          (bitsGenerator sampleFresh21) = some (canvas, gen) ∧
      gen.i = 16 ∧
      (unreservedCells sampleFresh21.canvas (zigzagCells sampleFresh21.size)).length = 420 := by
  obtain ⟨canvas, hloop, _, _, _, _⟩ := Write_spec sampleFresh21 [] 7 rfl (by decide)
  have hU : (unreservedCells sampleFresh21.canvas (zigzagCells sampleFresh21.size)).length =
      420 := by
    set_option maxRecDepth 100000 in decide
  refine ⟨canvas, _, hloop, ?_, hU⟩
  rw [hU]
  decide

/-- C12, amended: on a square canvas of odd side `n >= 7`, `Write` leaves
every module that was reserved before the call with the same colour and
still reserved; the visited cells are the cells outside column 6, each
visited once; and the number of bits consumed from the stream equals the
number of modules that were unreserved before the call in the visited
columns, capped at the number of bits of the stream. -/
theorem Write_frame_and_bits_consumed (g : QRCode) (bytes : List Nat) (q : Nat)
    (hsize : g.size = 2 * q + 7) (hwf : WellFormed g.canvas g.size) :
    ∃ canvas gen,
      writePairs g.size g.size ((g.size : Int) - 2) ((g.size : Int) - 1) true g.canvas
          (bitsGenerator g) = some (canvas, gen) ∧
      Write g bytes =
        some ({ data := g.data, version := g.version, correction := g.correction,
                canvas := canvas, size := g.size, alignments := g.alignments }, (0, [])) ∧
      (∀ y x, (cellAt g.canvas y x).isUsed = true → cellAt canvas y x = cellAt g.canvas y x) ∧
      (zigzagCells g.size).Nodup ∧
      (∀ y x, (y, x) ∈ zigzagCells g.size ↔ y < g.size ∧ x < g.size ∧ x ≠ 6) ∧
      gen.i = min (unreservedCells g.canvas (zigzagCells g.size)).length
        (appendDataBits g.data []).length := by
  obtain ⟨canvas, hloop, hw, _, _, hkeep⟩ := Write_spec g bytes q hsize hwf
  refine ⟨canvas, _, hloop, hw, ?_, by rw [hsize]; exact zigzagCells_nodup q,
    by intro y x; rw [hsize]; exact zigzagCells_mem q y x, rfl⟩
  intro y x hused
  apply hkeep
  intro hmem
  have := (List.mem_filter.mp hmem).2
  simp [hused] at this

/-- A fresh matrix of side 21 carrying two codewords. -/
theorem Write_frame_and_bits_consumed_witness :
    sampleFresh21.size = 2 * 7 + 7 ∧ WellFormed sampleFresh21.canvas sampleFresh21.size ∧
    ∃ canvas gen,
      writePairs sampleFresh21.size sampleFresh21.size ((sampleFresh21.size : Int) - 2)
          ((sampleFresh21.size : Int) - 1) true sampleFresh21.canvas
          (bitsGenerator sampleFresh21) = some (canvas, gen) ∧
      Write sampleFresh21 [] =
        some ({ data := sampleFresh21.data, version := sampleFresh21.version,
                correction := sampleFresh21.correction, canvas := canvas,
                size := sampleFresh21.size, alignments := sampleFresh21.alignments }, (0, [])) ∧
      (∀ y x, (cellAt sampleFresh21.canvas y x).isUsed = true →
        cellAt canvas y x = cellAt sampleFresh21.canvas y x) ∧
      (zigzagCells sampleFresh21.size).Nodup ∧
      (∀ y x, (y, x) ∈ zigzagCells sampleFresh21.size ↔
        y < sampleFresh21.size ∧ x < sampleFresh21.size ∧ x ≠ 6) ∧
      gen.i = min (unreservedCells sampleFresh21.canvas (zigzagCells sampleFresh21.size)).length
        (appendDataBits sampleFresh21.data []).length :=
  ⟨rfl, by decide, Write_frame_and_bits_consumed sampleFresh21 [] 7 rfl (by decide)⟩

/-- Whenever `Write` returns, it returns the count 0 and a nil error. -/
theorem Write_result (g : QRCode) (bytes : List Nat) (r : QRCode × (Int × List Err))
    (h : Write g bytes = some r) : r.2 = (0, []) := by
  unfold Write at h
  cases hl : writePairs g.size g.size ((g.size : Int) - 2) ((g.size : Int) - 1) true g.canvas
      (bitsGenerator g) with
  | none => rw [hl] at h; cases h
  | some p =>
    rw [hl] at h
    simp only [Option.some.injEq] at h
    rw [← h]

/-- C14 as stated fails: a fresh matrix of side 21 has 420 unreserved modules
for `Write` to fill and its stream holds 480 bits; `Write` returns the count
0 and a nil error, and the generator stops at bit 420: the last 60 bits are
dropped without any failure being reported. -/
theorem Write_drops_excess_bits_silently :
    ∃ canvas gen,
      writePairs sampleOverfull21.size sampleOverfull21.size ((sampleOverfull21.size : Int) - 2)
          ((sampleOverfull21.size : Int) - 1) true sampleOverfull21.canvas
          (bitsGenerator sampleOverfull21) = some (canvas, gen) ∧
      Write sampleOverfull21 sampleOverfull21.data =
        some ({ data := sampleOverfull21.data, version := sampleOverfull21.version,
                correction := sampleOverfull21.correction, canvas := canvas,
                size := sampleOverfull21.size, alignments := sampleOverfull21.alignments },
          (0, [])) ∧
      (unreservedCells sampleOverfull21.canvas (zigzagCells sampleOverfull21.size)).length =
        420 ∧
      (appendDataBits sampleOverfull21.data []).length = 480 ∧
      gen.i = 420 := by
  obtain ⟨canvas, hloop, hw, _, _, _⟩ :=
    Write_spec sampleOverfull21 sampleOverfull21.data 7 rfl (by decide)
  have hU : (unreservedCells sampleOverfull21.canvas
      (zigzagCells sampleOverfull21.size)).length = 420 := by
    set_option maxRecDepth 100000 in decide
  have hB : (appendDataBits sampleOverfull21.data []).length = 480 := by
    rw [appendDataBits_length]
    decide
  refine ⟨canvas, _, hloop, hw, hU, hB, ?_⟩
  show min _ _ = 420
  rw [hU, hB]
  decide

/-- C14, amended: `Write` never reports a size mismatch.  Whenever it
returns, it returns the count 0 and a nil error; on a square canvas of odd
side `n >= 7` it always returns, and when the stream holds more bits than the
canvas has unreserved modules in the visited columns, the generator stops at
that number of modules: the excess bits are dropped silently. -/
theorem Write_reports_no_size_mismatch (g : QRCode) (bytes : List Nat) (q : Nat)
    (hsize : g.size = 2 * q + 7) (hwf : WellFormed g.canvas g.size) :
    (∀ r, Write g bytes = some r → r.2 = (0, [])) ∧
    ∃ canvas gen,
      writePairs g.size g.size ((g.size : Int) - 2) ((g.size : Int) - 1) true g.canvas
          (bitsGenerator g) = some (canvas, gen) ∧
      Write g bytes =
        some ({ data := g.data, version := g.version, correction := g.correction,
                canvas := canvas, size := g.size, alignments := g.alignments }, (0, [])) ∧
      ((unreservedCells g.canvas (zigzagCells g.size)).length <
          (appendDataBits g.data []).length →
        gen.i = (unreservedCells g.canvas (zigzagCells g.size)).length ∧
        gen.i < (appendDataBits g.data []).length) := by
  refine ⟨fun r hr => Write_result g bytes r hr, ?_⟩
  obtain ⟨canvas, hloop, hw, _, _, _⟩ := Write_spec g bytes q hsize hwf
  refine ⟨canvas, _, hloop, hw, ?_⟩
  intro hlt
  have : (genAfter (appendDataBits g.data [])
      (unreservedCells g.canvas (zigzagCells g.size)).length).i =
      (unreservedCells g.canvas (zigzagCells g.size)).length := by
    show min _ _ = _
    omega
  rw [this]
  exact ⟨rfl, hlt⟩

/-- A fresh matrix of side 21 carrying 60 codewords. -/
theorem Write_reports_no_size_mismatch_witness :
    sampleOverfull21.size = 2 * 7 + 7 ∧
    WellFormed sampleOverfull21.canvas sampleOverfull21.size ∧
    ((∀ r, Write sampleOverfull21 [] = some r → r.2 = (0, [])) ∧
    ∃ canvas gen,
      writePairs sampleOverfull21.size sampleOverfull21.size ((sampleOverfull21.size : Int) - 2)
          ((sampleOverfull21.size : Int) - 1) true sampleOverfull21.canvas
          (bitsGenerator sampleOverfull21) = some (canvas, gen) ∧
      Write sampleOverfull21 [] =
        some ({ data := sampleOverfull21.data, version := sampleOverfull21.version,
                correction := sampleOverfull21.correction, canvas := canvas,
                size := sampleOverfull21.size, alignments := sampleOverfull21.alignments },
          (0, [])) ∧
      ((unreservedCells sampleOverfull21.canvas (zigzagCells sampleOverfull21.size)).length <
          (appendDataBits sampleOverfull21.data []).length →
        gen.i = (unreservedCells sampleOverfull21.canvas
          (zigzagCells sampleOverfull21.size)).length ∧
        gen.i < (appendDataBits sampleOverfull21.data []).length)) :=
  ⟨rfl, by decide, Write_reports_no_size_mismatch sampleOverfull21 [] 7 rfl (by decide)⟩

/-! ## The placement steps before `Write` -/

theorem Keeps_refl (c : List (List Module)) : Keeps c c := fun _ _ _ => rfl

theorem Keeps_trans (c1 c2 c3 : List (List Module)) (h1 : Keeps c1 c2) (h2 : Keeps c2 c3) :
    Keeps c1 c3 := by
  intro y x hu
  have e1 := h1 y x hu
  have hu2 : (cellAt c2 y x).isUsed = true := by rw [e1]; exact hu
  rw [h2 y x hu2, e1]

theorem Keeps_Grows (c1 c2 : List (List Module)) (h : Keeps c1 c2) : Grows c1 c2 := by
  intro y x hu
  rw [h y x hu]
  exact hu

theorem Grows_refl (c : List (List Module)) : Grows c c := fun _ _ h => h

theorem Grows_trans (c1 c2 c3 : List (List Module)) (h1 : Grows c1 c2) (h2 : Grows c2 c3) :
    Grows c1 c3 := fun y x hu => h2 y x (h1 y x hu)

/-- Replacing an unreserved module keeps every reserved module. -/
theorem Keeps_setCell (canvas : List (List Module)) (y x : Nat) (m : Module)
    (h : (cellAt canvas y x).isUsed = false) : Keeps canvas (setCell canvas y x m) := by
  intro y2 x2 hu
  apply cellAt_setCell_ne
  rintro ⟨rfl, rfl⟩
  rw [h] at hu
  cases hu

/-- Replacing a module by a reserved one clears no flag. -/
theorem Grows_setCell (canvas : List (List Module)) (n y x : Nat) (v : Bool)
    (hwf : WellFormed canvas n) (hy : y < n) (hx : x < n) :
    Grows canvas (setCell canvas y x { value := v, isUsed := true }) := by
  intro y2 x2 hu
  by_cases h : y2 = y ∧ x2 = x
  · obtain ⟨rfl, rfl⟩ := h
    rw [cellAt_setCell_same canvas n _ _ _ hwf hy hx]
  · rw [cellAt_setCell_ne _ _ _ _ _ _ h]
    exact hu

/-- Inside a square canvas the guarded `Set` does not panic. -/
theorem setIfUnused_eq (canvas : List (List Module)) (n y x : Nat) (v : Bool)
    (hwf : WellFormed canvas n) (hy : y < n) (hx : x < n) :
    setIfUnused canvas (y : Int) (x : Int) v =
      some (if (cellAt canvas y x).isUsed then canvas
        else setCell canvas y x { value := v, isUsed := true }) := by
  unfold setIfUnused
  rw [getModule_eq canvas n y x hwf hy hx]
  simp only
  by_cases hu : (cellAt canvas y x).isUsed = true
  · simp [hu]
  · simp only [hu, Bool.not_false, if_true, Bool.false_eq_true, if_false]
    rw [setModule_eq canvas n y x v hwf hy hx]

/-- A loop of `placeSync` over `k` modules of the line from distance `loc`,
all inside the canvas: it does not panic, keeps every reserved module, and
leaves the `k` modules reserved. -/
theorem placeSyncLine_spec (t : LayoutTables) (vertical : Bool) (n : Nat) (hn : 7 ≤ n) :
    ∀ (k i loc : Nat) (canvas : List (List Module)), WellFormed canvas n → loc + k ≤ n →
      ∃ canvas2, placeSyncLine t vertical k i (loc : Int) canvas = some canvas2 ∧
        WellFormed canvas2 n ∧ Keeps canvas canvas2 ∧
        ∀ p, loc ≤ p → p < loc + k →
          (cellAt canvas2 (if vertical then p else 6) (if vertical then 6 else p)).isUsed =
            true := by
  intro k
  induction k with
  | zero =>
    intro i loc canvas hwf _
    exact ⟨canvas, by simp [placeSyncLine], hwf, Keeps_refl _, by intro p h1 h2; omega⟩
  | succ k ih =>
    intro i loc canvas hwf hloc
    have hcast : ∀ b : Bool, (if b then (loc : Int) else 6) =
        (((if b then loc else 6 : Nat)) : Int) := by
      intro b; cases b <;> simp
    have hcast2 : ∀ b : Bool, (if b then (6 : Int) else (loc : Int)) =
        (((if b then 6 else loc : Nat)) : Int) := by
      intro b; cases b <;> simp
    have hy : (if vertical then loc else 6) < n := by cases vertical <;> simp <;> omega
    have hx : (if vertical then 6 else loc) < n := by cases vertical <;> simp <;> omega
    simp only [placeSyncLine]
    rw [hcast, hcast2, setIfUnused_eq canvas n _ _ _ hwf hy hx]
    simp only
    have hloc1 : (loc : Int) + 1 = ((loc + 1 : Nat) : Int) := by omega
    rw [hloc1]
    by_cases hu : (cellAt canvas (if vertical then loc else 6)
        (if vertical then 6 else loc)).isUsed = true
    · simp only [hu, if_true]
      obtain ⟨c2, h1, h2, h3, h4⟩ := ih ((i + 1) % 2) (loc + 1) canvas hwf (by omega)
      refine ⟨c2, h1, h2, h3, ?_⟩
      intro p hp1 hp2
      by_cases hpl : p = loc
      · subst hpl
        exact Keeps_Grows _ _ h3 _ _ hu
      · exact h4 p (by omega) (by omega)
    · have hu2 : (cellAt canvas (if vertical then loc else 6)
          (if vertical then 6 else loc)).isUsed = false := by simpa using hu
      simp only [hu2, Bool.false_eq_true, if_false]
      obtain ⟨c2, h1, h2, h3, h4⟩ := ih ((i + 1) % 2) (loc + 1) _
        (WellFormed_setCell canvas n _ _ (Module.mk (if i = 0 then t.bl else t.wh) true) hwf)
        (by omega)
      refine ⟨c2, h1, h2, Keeps_trans _ _ _ (Keeps_setCell canvas _ _ _ hu2) h3, ?_⟩
      intro p hp1 hp2
      by_cases hpl : p = loc
      · subst hpl
        apply Keeps_Grows _ _ h3
        rw [cellAt_setCell_same canvas n _ _ _ hwf hy hx]
      · exact h4 p (by omega) (by omega)

/-- The method `placeSync` on a square canvas of side at least 8: it does
not panic, keeps every reserved module, and leaves the modules of column 6
and of row 6 at the distances 8 to `n - 8` reserved. -/
theorem placeSync_spec (t : LayoutTables) (g : QRCode) (n : Nat) (hsize : g.size = n)
    (hn : 8 ≤ n) (hwf : WellFormed g.canvas n) :
    ∃ canvas2,
      placeSync t g =
        some { data := g.data, version := g.version, correction := g.correction,
               canvas := canvas2, size := g.size, alignments := g.alignments } ∧
      WellFormed canvas2 n ∧ Keeps g.canvas canvas2 ∧
      ∀ p, 8 ≤ p → p + 7 < n →
        (cellAt canvas2 p 6).isUsed = true ∧ (cellAt canvas2 6 p).isUsed = true := by
  have hcount : ((g.size : Int) - syncPadding - 8).toNat = n - 15 := by
    unfold syncPadding; omega
  obtain ⟨c1, h1, hwf1, hk1, hu1⟩ :=
    placeSyncLine_spec t true n (by omega) (n - 15) 0 8 g.canvas hwf (by omega)
  obtain ⟨c2, h2, hwf2, hk2, hu2⟩ :=
    placeSyncLine_spec t false n (by omega) (n - 15) 0 8 c1 hwf1 (by omega)
  simp only [Nat.cast_ofNat] at h1 h2
  refine ⟨c2, ?_, hwf2, Keeps_trans _ _ _ hk1 hk2, ?_⟩
  · unfold placeSync
    rw [hcount, h1]
    simp only
    rw [h2]
  · intro p hp1 hp2
    have a1 := hu1 p hp1 (by omega)
    have a2 := hu2 p hp1 (by omega)
    simp only [if_true, Bool.false_eq_true, if_false] at a1 a2
    exact ⟨Keeps_Grows _ _ hk2 _ _ a1, a2⟩

/-- The inner loop of `isUnused` inside a square canvas: it does not panic
and answers whether the `k` modules of the row are all unreserved. -/
theorem isUnusedRow_spec (n i : Nat) (canvas : List (List Module)) (hwf : WellFormed canvas n)
    (hi : i < n) :
    ∀ (k j : Nat), j + k ≤ n →
      ∃ b, isUnusedRow canvas (i : Int) k (j : Int) = some b ∧
        (b = true ↔ ∀ c, j ≤ c → c < j + k → (cellAt canvas i c).isUsed = false) := by
  intro k
  induction k with
  | zero =>
    intro j _
    exact ⟨true, by simp [isUnusedRow], by simp; intro c h1 h2; omega⟩
  | succ k ih =>
    intro j hj
    simp only [isUnusedRow]
    rw [getModule_eq canvas n i j hwf hi (by omega)]
    simp only
    by_cases hu : (cellAt canvas i j).isUsed = true
    · rw [if_pos hu]
      refine ⟨false, rfl, ?_⟩
      constructor
      · intro h; cases h
      · intro h
        have := h j (le_refl _) (by omega)
        rw [this] at hu
        cases hu
    · rw [if_neg hu]
      have hj1 : (j : Int) + 1 = ((j + 1 : Nat) : Int) := by omega
      rw [hj1]
      obtain ⟨b, hb, hiff⟩ := ih (j + 1) (by omega)
      refine ⟨b, hb, ?_⟩
      rw [hiff]
      constructor
      · intro h c hc1 hc2
        by_cases hcj : c = j
        · subst hcj; simpa using hu
        · exact h c (by omega) (by omega)
      · intro h c hc1 hc2
        exact h c (by omega) (by omega)

/-- The outer loop of `isUnused` inside a square canvas: it does not panic
and answers whether the modules of the rectangle are all unreserved. -/
theorem isUnusedRows_spec (n startY cols : Nat) (canvas : List (List Module))
    (hwf : WellFormed canvas n) (hcols : startY + cols ≤ n) :
    ∀ (k i : Nat), i + k ≤ n →
      ∃ b, isUnusedRows canvas (startY : Int) cols k (i : Int) = some b ∧
        (b = true ↔ ∀ r c, i ≤ r → r < i + k → startY ≤ c → c < startY + cols →
          (cellAt canvas r c).isUsed = false) := by
  intro k
  induction k with
  | zero =>
    intro i _
    exact ⟨true, by simp [isUnusedRows], by simp; intro r c h1 h2; omega⟩
  | succ k ih =>
    intro i hi
    simp only [isUnusedRows]
    obtain ⟨b1, hb1, hiff1⟩ := isUnusedRow_spec n i canvas hwf (by omega) cols startY hcols
    rw [hb1]
    cases b1 with
    | false =>
      simp only
      refine ⟨false, rfl, ?_⟩
      constructor
      · intro h; cases h
      · intro h
        exfalso
        have : false = true := hiff1.mpr (fun c hc1 hc2 => h i c (le_refl _) (by omega) hc1 hc2)
        cases this
    | true =>
      simp only
      have hi1 : (i : Int) + 1 = ((i + 1 : Nat) : Int) := by omega
      rw [hi1]
      obtain ⟨b, hb, hiff⟩ := ih (i + 1) (by omega)
      refine ⟨b, hb, ?_⟩
      rw [hiff]
      have hrow := hiff1.mp rfl
      constructor
      · intro h r c hr1 hr2 hc1 hc2
        by_cases hri : r = i
        · subst hri; exact hrow c hc1 hc2
        · exact h r c (by omega) (by omega) hc1 hc2
      · intro h r c hr1 hr2 hc1 hc2
        exact h r c (by omega) (by omega) hc1 hc2

/-- The method `isUnused` on a square canvas, for a rectangle given by its
corner and sizes: it does not panic, and it answers `true` exactly when the
rectangle lies inside the canvas and holds no reserved module. -/
theorem isUnused_spec (g : QRCode) (n locX locY px py : Nat) (hsize : g.size = n)
    (hwf : WellFormed g.canvas n) :
    ∃ b, isUnused g (locX : Int) (locY : Int) ((locX : Int) + (px : Int))
        ((locY : Int) + (py : Int)) = some b ∧
      (b = true ↔ (locX < n ∧ locY < n ∧ locX + px ≤ n ∧ locY + py ≤ n ∧
        ∀ r c, locX ≤ r → r < locX + px → locY ≤ c → c < locY + py →
          (cellAt g.canvas r c).isUsed = false)) := by
  unfold isUnused
  rw [hsize]
  by_cases hout : (locX : Int) ≥ (n : Int) ∨ (locY : Int) ≥ (n : Int) ∨
      (locX : Int) + (px : Int) > (n : Int) ∨ (locY : Int) + (py : Int) > (n : Int)
  · rw [if_pos hout]
    refine ⟨false, rfl, ?_⟩
    constructor
    · intro h; cases h
    · rintro ⟨h1, h2, h3, h4, _⟩
      omega
  · rw [if_neg hout]
    have e1 : ((locY : Int) + (py : Int) - (locY : Int)).toNat = py := by omega
    have e2 : ((locX : Int) + (px : Int) - (locX : Int)).toNat = px := by omega
    rw [e1, e2]
    obtain ⟨b, hb, hiff⟩ := isUnusedRows_spec n locY py g.canvas hwf (by omega) px locX (by omega)
    refine ⟨b, hb, ?_⟩
    rw [hiff]
    constructor
    · intro h
      exact ⟨by omega, by omega, by omega, by omega, h⟩
    · intro h
      exact h.2.2.2.2

/-- The inner loop of `placePattern` over `k` modules of a row, all inside
the canvas and inside the pattern row: it does not panic, reserves these
modules and changes no other module. -/
theorem placePatternRow_spec (n : Nat) (p : Pattern) (i pi : Nat) (row : List Bool)
    (hrow : p.data.get? pi = some row) (hi : i < n) :
    ∀ (k j pj : Nat) (canvas : List (List Module)), WellFormed canvas n → j + k ≤ n →
      pj + k ≤ row.length →
      ∃ canvas2, placePatternRow n p (i : Int) pi k (j : Int) pj canvas = some canvas2 ∧
        WellFormed canvas2 n ∧
        (∀ c, j ≤ c → c < j + k → (cellAt canvas2 i c).isUsed = true) ∧
        (∀ y x, ¬ (y = i ∧ j ≤ x ∧ x < j + k) → cellAt canvas2 y x = cellAt canvas y x) := by
  intro k
  induction k with
  | zero =>
    intro j pj canvas hwf _ _
    exact ⟨canvas, by simp [placePatternRow], hwf, by intro c h1 h2; omega,
      by intro y x _; rfl⟩
  | succ k ih =>
    intro j pj canvas hwf hj hpj
    have hlt : ((j : Int) < (n : Int)) := by omega
    have hget : row.get? pj = some (row.getD pj false) := by
      have : pj < row.length := by omega
      simp [List.getD_eq_getElem?_getD, List.getElem?_eq_getElem this]
    simp only [placePatternRow]
    rw [if_pos hlt, hrow]
    simp only
    rw [hget]
    simp only
    rw [setModule_eq canvas n i j _ hwf hi (by omega)]
    simp only
    have hj1 : (j : Int) + 1 = ((j + 1 : Nat) : Int) := by omega
    rw [hj1]
    obtain ⟨c2, h1, h2, h3, h4⟩ := ih (j + 1) (pj + 1) _
      (WellFormed_setCell canvas n i j (Module.mk (row.getD pj false) true) hwf)
      (by omega) (by omega)
    refine ⟨c2, h1, h2, ?_, ?_⟩
    · intro c hc1 hc2
      by_cases hcj : c = j
      · subst hcj
        rw [h4 i c (by omega), cellAt_setCell_same canvas n _ _ _ hwf hi (by omega)]
      · exact h3 c (by omega) (by omega)
    · intro y x hnot
      rw [h4 y x (by omega), cellAt_setCell_ne]
      omega

/-- The outer loop of `placePattern` over `k` rows of a shaped pattern, the
rectangle lying inside the canvas: it does not panic, reserves the modules
of the rectangle and changes no other module. -/
theorem placePatternRows_spec (n : Nat) (p : Pattern) (hp : PatternShaped p) (locY : Nat)
    (hcols : locY + p.ySize ≤ n) :
    ∀ (k i pi : Nat) (canvas : List (List Module)), WellFormed canvas n → i + k ≤ n →
      pi + k ≤ p.xSize →
      ∃ canvas2, placePatternRows n p (locY : Int) k (i : Int) pi canvas = some canvas2 ∧
        WellFormed canvas2 n ∧
        (∀ r c, i ≤ r → r < i + k → locY ≤ c → c < locY + p.ySize →
          (cellAt canvas2 r c).isUsed = true) ∧
        (∀ y x, ¬ (i ≤ y ∧ y < i + k ∧ locY ≤ x ∧ x < locY + p.ySize) →
          cellAt canvas2 y x = cellAt canvas y x) := by
  intro k
  induction k with
  | zero =>
    intro i pi canvas hwf _ _
    exact ⟨canvas, by simp [placePatternRows], hwf, by intro r c h1 h2; omega,
      by intro y x _; rfl⟩
  | succ k ih =>
    intro i pi canvas hwf hi hpi
    have hlt : ((i : Int) < (n : Int)) := by omega
    have hpilt : pi < p.data.length := by have := hp.1; omega
    have hrow : p.data.get? pi = some (p.data[pi]) := by
      simp [List.getElem?_eq_getElem hpilt]
    have hrowlen : p.ySize ≤ (p.data[pi]).length := hp.2 _ (List.getElem_mem hpilt)
    simp only [placePatternRows]
    rw [if_pos hlt]
    obtain ⟨c1, h1, hwf1, hu1, hk1⟩ := placePatternRow_spec n p i pi _ hrow (by omega)
      p.ySize locY 0 canvas hwf hcols (by omega)
    have h1b : placePatternRow n p (i : Int) pi p.ySize (locY : Int) 0 canvas = some c1 := h1
    rw [h1b]
    simp only
    have hi1 : (i : Int) + 1 = ((i + 1 : Nat) : Int) := by omega
    rw [hi1]
    obtain ⟨c2, h2, hwf2, hu2, hk2⟩ := ih (i + 1) (pi + 1) c1 hwf1 (by omega) (by omega)
    refine ⟨c2, h2, hwf2, ?_, ?_⟩
    · intro r c hr1 hr2 hc1 hc2
      by_cases hri : r = i
      · subst hri
        rw [hk2 r c (by omega)]
        exact hu1 c hc1 hc2
      · exact hu2 r c (by omega) (by omega) hc1 hc2
    · intro y x hnot
      rw [hk2 y x (by omega), hk1 y x (by omega)]

/-- The method `placePattern` for a shaped pattern at a corner inside a
square canvas: it does not panic, keeps every reserved module, changes no
module outside the rectangle of the pattern, and reserves the rectangle when
it lies inside the canvas and held no reserved module. -/
theorem placePattern_spec (g : QRCode) (n locX locY : Nat) (p : Pattern)
    (hp : PatternShaped p) (hsize : g.size = n) (hwf : WellFormed g.canvas n) :
    ∃ canvas2,
      placePattern g (locX : Int) (locY : Int) p =
        some { data := g.data, version := g.version, correction := g.correction,
               canvas := canvas2, size := g.size, alignments := g.alignments } ∧
      WellFormed canvas2 n ∧ Keeps g.canvas canvas2 ∧
      (∀ y x, ¬ (locX ≤ y ∧ y < locX + p.xSize ∧ locY ≤ x ∧ x < locY + p.ySize) →
        cellAt canvas2 y x = cellAt g.canvas y x) ∧
      ((locX < n ∧ locY < n ∧ locX + p.xSize ≤ n ∧ locY + p.ySize ≤ n ∧
          ∀ r c, locX ≤ r → r < locX + p.xSize → locY ≤ c → c < locY + p.ySize →
            (cellAt g.canvas r c).isUsed = false) →
        ∀ r c, locX ≤ r → r < locX + p.xSize → locY ≤ c → c < locY + p.ySize →
          (cellAt canvas2 r c).isUsed = true) := by
  obtain ⟨b, hb, hiff⟩ := isUnused_spec g n locX locY p.xSize p.ySize hsize hwf
  unfold placePattern
  simp only
  rw [hb]
  cases b with
  | false =>
    simp only
    refine ⟨g.canvas, rfl, hwf, Keeps_refl _, fun _ _ _ => rfl, ?_⟩
    intro h
    have : false = true := hiff.mpr h
    cases this
  | true =>
    simp only
    obtain ⟨h1, h2, h3, h4, hun⟩ := hiff.mp rfl
    obtain ⟨c2, hc2, hwf2, hu2, hk2⟩ := placePatternRows_spec n p hp locY h4 p.xSize locX 0
      g.canvas hwf h3 (by omega)
    rw [hsize, hc2]
    simp only
    refine ⟨c2, rfl, hwf2, ?_, ?_, fun _ => hu2⟩
    · intro y x hused
      apply hk2
      intro hin
      have := hun y x hin.1 hin.2.1 hin.2.2.1 hin.2.2.2
      rw [this] at hused
      cases hused
    · intro y x hnot
      exact hk2 y x hnot

/-- The method `placeSearchPatterns` on a square canvas of side at least 16
with no reserved module, for shaped search patterns of 8 by 8 pixels: it does
not panic, keeps every reserved module, and reserves the 8 by 8 squares of
the top-left and bottom-left corners. -/
theorem placeSearchPatterns_spec (t : LayoutTables) (g : QRCode) (n : Nat) (hsize : g.size = n)
    (hn : 16 ≤ n) (hwf : WellFormed g.canvas n)
    (hfresh : ∀ y x, (cellAt g.canvas y x).isUsed = false)
    (hTL : PatternShaped t.searchPatternTL ∧ t.searchPatternTL.xSize = 8 ∧
      t.searchPatternTL.ySize = 8)
    (hTR : PatternShaped t.searchPatternTR ∧ t.searchPatternTR.xSize = 8 ∧
      t.searchPatternTR.ySize = 8)
    (hBL : PatternShaped t.searchPatternBL ∧ t.searchPatternBL.xSize = 8 ∧
      t.searchPatternBL.ySize = 8) :
    ∃ canvas2,
      placeSearchPatterns t g =
        some { data := g.data, version := g.version, correction := g.correction,
               canvas := canvas2, size := g.size, alignments := g.alignments } ∧
      WellFormed canvas2 n ∧ Keeps g.canvas canvas2 ∧
      (∀ r c, r < 8 → c < 8 → (cellAt canvas2 r c).isUsed = true) ∧
      (∀ r c, n - 8 ≤ r → r < n → c < 8 → (cellAt canvas2 r c).isUsed = true) := by
  obtain ⟨c1, h1, hwf1, hk1, ho1, hu1⟩ :=
    placePattern_spec g n 0 0 t.searchPatternTL hTL.1 hsize hwf
  simp only [Nat.cast_zero] at h1
  obtain ⟨c2, h2, hwf2, hk2, ho2, hu2⟩ :=
    placePattern_spec
      { data := g.data, version := g.version, correction := g.correction,
        canvas := c1, size := g.size, alignments := g.alignments }
      n 0 (n - 8) t.searchPatternTR hTR.1 hsize hwf1
  simp only [Nat.cast_zero] at h2
  obtain ⟨c3, h3, hwf3, hk3, ho3, hu3⟩ :=
    placePattern_spec
      { data := g.data, version := g.version, correction := g.correction,
        canvas := c2, size := g.size, alignments := g.alignments }
      n (n - 8) 0 t.searchPatternBL hBL.1 hsize hwf2
  simp only [Nat.cast_zero] at h3
  have e2 : (g.size : Int) - (t.searchPatternTR.xSize : Int) = ((n - 8 : Nat) : Int) := by
    rw [hTR.2.1, hsize]; omega
  have e3 : (g.size : Int) - (t.searchPatternBL.ySize : Int) = ((n - 8 : Nat) : Int) := by
    rw [hBL.2.2, hsize]; omega
  refine ⟨c3, ?_, hwf3, Keeps_trans _ _ _ hk1 (Keeps_trans _ _ _ hk2 hk3), ?_, ?_⟩
  · unfold placeSearchPatterns
    rw [h1]
    simp only
    rw [e2, h2]
    simp only
    rw [e3, h3]
  · intro r c hr hc
    have hTLused : (cellAt c1 r c).isUsed = true := by
      apply hu1
      · refine ⟨by omega, by omega, by rw [hTL.2.1]; omega, by rw [hTL.2.2]; omega, ?_⟩
        intro rr cc _ _ _ _
        exact hfresh rr cc
      · omega
      · rw [hTL.2.1]; omega
      · omega
      · rw [hTL.2.2]; omega
    exact Keeps_Grows _ _ (Keeps_trans _ _ _ hk2 hk3) _ _ hTLused
  · intro r c hr1 hr2 hc
    apply hu3
    · refine ⟨by omega, by omega, by rw [hBL.2.1]; omega, by rw [hBL.2.2]; omega, ?_⟩
      intro rr cc hr3 hr4 _ hc4
      rw [hBL.2.1] at hr4
      rw [hBL.2.2] at hc4
      have a2 : cellAt c2 rr cc = cellAt c1 rr cc := ho2 rr cc (by rw [hTR.2.1]; omega)
      have a1 : cellAt c1 rr cc = cellAt g.canvas rr cc := ho1 rr cc (by rw [hTL.2.1]; omega)
      show (cellAt c2 rr cc).isUsed = false
      rw [a2, a1]
      exact hfresh rr cc
    · exact hr1
    · rw [hBL.2.1]; omega
    · omega
    · rw [hBL.2.2]; omega

theorem GeneratePermutations_mem (l : List Nat) (a b : Nat)
    (h : (a, b) ∈ GeneratePermutations l) : a ∈ l ∧ b ∈ l := by
  unfold GeneratePermutations at h
  simp only [List.mem_flatten, List.mem_map] at h
  obtain ⟨row, ⟨a2, ha2, rfl⟩, hmem⟩ := h
  simp only [List.mem_map, Prod.mk.injEq] at hmem
  obtain ⟨b2, hb2, rfl, rfl⟩ := hmem
  exact ⟨ha2, hb2⟩

/-- The loop of `placeAlignments` over coordinate pairs that leave room for
half a pattern above and to the left: it does not panic and keeps every
reserved module. -/
theorem placeAlignmentsLoop_spec (t : LayoutTables) (n : Nat)
    (hp : PatternShaped t.alignPattern) :
    ∀ (perms : List (Nat × Nat)) (g : QRCode), g.size = n → WellFormed g.canvas n →
      (∀ loc, loc ∈ perms →
        t.alignPattern.xSize / 2 ≤ loc.1 ∧ t.alignPattern.ySize / 2 ≤ loc.2) →
      ∃ canvas2,
        placeAlignmentsLoop t perms g =
          some { data := g.data, version := g.version, correction := g.correction,
                 canvas := canvas2, size := g.size, alignments := g.alignments } ∧
        WellFormed canvas2 n ∧ Keeps g.canvas canvas2 := by
  intro perms
  induction perms with
  | nil =>
    intro g _ hwf _
    exact ⟨g.canvas, rfl, hwf, Keeps_refl _⟩
  | cons loc rest ih =>
    intro g hsize hwf hlocs
    have hl := hlocs loc (by simp)
    have e1 : (loc.1 : Int) - ((t.alignPattern.xSize / 2 : Nat) : Int) =
        ((loc.1 - t.alignPattern.xSize / 2 : Nat) : Int) := by omega
    have e2 : (loc.2 : Int) - ((t.alignPattern.ySize / 2 : Nat) : Int) =
        ((loc.2 - t.alignPattern.ySize / 2 : Nat) : Int) := by omega
    obtain ⟨c1, h1, hwf1, hk1, _, _⟩ := placePattern_spec g n
      (loc.1 - t.alignPattern.xSize / 2) (loc.2 - t.alignPattern.ySize / 2) t.alignPattern hp
      hsize hwf
    obtain ⟨c2, h2, hwf2, hk2⟩ := ih
      { data := g.data, version := g.version, correction := g.correction,
        canvas := c1, size := g.size, alignments := g.alignments } hsize hwf1
      (fun l hlm => hlocs l (by simp [hlm]))
    refine ⟨c2, ?_, hwf2, Keeps_trans _ _ _ hk1 hk2⟩
    simp only [placeAlignmentsLoop]
    rw [e1, e2, h1]
    simp only
    exact h2

/-- The method `placeAlignments` for alignment coordinates that leave room
for half a pattern: it does not panic and keeps every reserved module. -/
theorem placeAlignments_spec (t : LayoutTables) (g : QRCode) (n : Nat) (hsize : g.size = n)
    (hwf : WellFormed g.canvas n) (hp : PatternShaped t.alignPattern)
    (hal : ∀ a, a ∈ g.alignments →
      t.alignPattern.xSize / 2 ≤ a ∧ t.alignPattern.ySize / 2 ≤ a) :
    ∃ canvas2,
      placeAlignments t g =
        some { data := g.data, version := g.version, correction := g.correction,
               canvas := canvas2, size := g.size, alignments := g.alignments } ∧
      WellFormed canvas2 n ∧ Keeps g.canvas canvas2 := by
  unfold placeAlignments
  apply placeAlignmentsLoop_spec t n hp _ g hsize hwf
  intro loc hloc
  obtain ⟨a, b⟩ := loc
  obtain ⟨ha, hb⟩ := GeneratePermutations_mem _ a b hloc
  exact ⟨(hal a ha).1, (hal b hb).2⟩

/-- The inner loop of `placeVersion` over bits that stay inside the canvas:
it does not panic and clears no reserved flag. -/
theorem placeVersionBits_spec (n yOffset : Nat) (hn : 11 ≤ n) (hy : yOffset < 11) :
    ∀ (bits : List Bool) (xOffset : Nat) (canvas : List (List Module)),
      WellFormed canvas n → xOffset + bits.length ≤ n →
      ∃ canvas2,
        placeVersionBits 0 ((n : Int) - versionPadding) yOffset bits xOffset canvas =
          some canvas2 ∧
        WellFormed canvas2 n ∧ Grows canvas canvas2 := by
  intro bits
  induction bits with
  | nil =>
    intro xOffset canvas hwf _
    exact ⟨canvas, by simp [placeVersionBits], hwf, Grows_refl _⟩
  | cons bit rest ih =>
    intro xOffset canvas hwf hx
    simp only [List.length_cons] at hx
    have e1 : (n : Int) - versionPadding + (yOffset : Int) = ((n - 11 + yOffset : Nat) : Int) := by
      unfold versionPadding; omega
    have e2 : (0 : Int) + (xOffset : Int) = (xOffset : Int) := by omega
    simp only [placeVersionBits]
    rw [e1, e2, setModule_eq canvas n _ _ _ hwf (by omega) (by omega)]
    simp only
    have hwf1 := WellFormed_setCell canvas n (n - 11 + yOffset) xOffset
      (Module.mk (!bit) true) hwf
    rw [setModule_eq _ n _ _ _ hwf1 (by omega) (by omega)]
    simp only
    have hwf2 := WellFormed_setCell _ n xOffset (n - 11 + yOffset) (Module.mk (!bit) true) hwf1
    obtain ⟨c2, h1, h2, h3⟩ := ih (xOffset + 1) _ hwf2 (by omega)
    refine ⟨c2, h1, h2, ?_⟩
    exact Grows_trans _ _ _
      (Grows_trans _ _ _ (Grows_setCell canvas n _ _ _ hwf (by omega) (by omega))
        (Grows_setCell _ n _ _ _ hwf1 (by omega) (by omega))) h3

/-- The outer loop of `placeVersion` over at most 11 bytes: it does not
panic and clears no reserved flag. -/
theorem placeVersionBytes_spec (n : Nat) (hn : 11 ≤ n) :
    ∀ (bytes : List Nat) (yOffset : Nat) (canvas : List (List Module)),
      WellFormed canvas n → yOffset + bytes.length ≤ 11 →
      ∃ canvas2,
        placeVersionBytes 0 ((n : Int) - versionPadding) bytes yOffset canvas = some canvas2 ∧
        WellFormed canvas2 n ∧ Grows canvas canvas2 := by
  intro bytes
  induction bytes with
  | nil =>
    intro yOffset canvas hwf _
    exact ⟨canvas, by simp [placeVersionBytes], hwf, Grows_refl _⟩
  | cons b rest ih =>
    intro yOffset canvas hwf hy
    simp only [List.length_cons] at hy
    obtain ⟨c1, h1, hwf1, hg1⟩ := placeVersionBits_spec n yOffset hn (by omega)
      ((ToBoolArray b).drop 2) 0 canvas hwf
      (by rw [List.length_drop, ToBoolArray_length]; omega)
    obtain ⟨c2, h2, hwf2, hg2⟩ := ih (yOffset + 1) c1 hwf1 (by omega)
    refine ⟨c2, ?_, hwf2, Grows_trans _ _ _ hg1 hg2⟩
    simp only [placeVersionBytes]
    rw [h1]
    simp only
    exact h2

/-- The method `placeVersion` on a square canvas of side at least 11, for a
version code of at most 11 bytes: it does not panic and clears no reserved
flag. -/
theorem placeVersion_spec (t : LayoutTables) (g : QRCode) (n : Nat) (hsize : g.size = n)
    (hn : 11 ≤ n) (hwf : WellFormed g.canvas n) (hcode : (t.versionCodes g.version).length ≤ 11) :
    ∃ canvas2,
      placeVersion t g =
        some { data := g.data, version := g.version, correction := g.correction,
               canvas := canvas2, size := g.size, alignments := g.alignments } ∧
      WellFormed canvas2 n ∧ Grows g.canvas canvas2 := by
  obtain ⟨c2, h1, hwf2, hg⟩ := placeVersionBytes_spec n hn (t.versionCodes g.version) 0 g.canvas
    hwf (by omega)
  refine ⟨c2, ?_, hwf2, hg⟩
  unfold placeVersion
  simp only
  rw [hsize, h1]

/-- On a square canvas of odd side `2q + 7`, `Write` leaves every module
outside column 6 reserved, keeps every reserved module, and leaves column 6
as it was. -/
theorem Write_fills (g : QRCode) (bytes : List Nat) (q : Nat) (hsize : g.size = 2 * q + 7)
    (hwf : WellFormed g.canvas g.size) :
    ∃ canvas,
      Write g bytes =
        some ({ data := g.data, version := g.version, correction := g.correction,
                canvas := canvas, size := g.size, alignments := g.alignments }, (0, [])) ∧
      WellFormed canvas g.size ∧ Keeps g.canvas canvas ∧
      (∀ y x, y < g.size → x < g.size → x ≠ 6 → (cellAt canvas y x).isUsed = true) ∧
      (∀ y, cellAt canvas y 6 = cellAt g.canvas y 6) := by
  obtain ⟨canvas, _, hw, hwf2, hset, hkeep⟩ := Write_spec g bytes q hsize hwf
  refine ⟨canvas, hw, hwf2, ?_, ?_, ?_⟩
  · intro y x hused
    apply hkeep
    intro hmem
    have := (List.mem_filter.mp hmem).2
    simp [hused] at this
  · intro y x hy hx h6
    by_cases hu : (cellAt g.canvas y x).isUsed = true
    · have hnot : (y, x) ∉ unreservedCells g.canvas (zigzagCells g.size) := by
        intro hmem
        have := (List.mem_filter.mp hmem).2
        simp [hu] at this
      rw [hkeep y x hnot]
      exact hu
    · have hmem : (y, x) ∈ unreservedCells g.canvas (zigzagCells g.size) := by
        apply List.mem_filter.mpr
        refine ⟨?_, by simpa using hu⟩
        rw [hsize] at hy hx ⊢
        exact (zigzagCells_mem q y x).mpr ⟨hy, hx, h6⟩
      obtain ⟨j, hj⟩ := List.mem_iff_getElem?.mp hmem
      rw [hset j y x hj]
  · intro y
    apply hkeep
    intro hmem
    have h2 := (List.mem_filter.mp hmem).1
    rw [hsize] at h2
    have := (zigzagCells_mem q y 6).mp h2
    omega

/-! ## `MakeLayout`: every module ends up reserved -/

/-- A fresh canvas holds no reserved module. -/
theorem newCanvas_fresh (n y x : Nat) : (cellAt (newCanvas n) y x).isUsed = false := by
  unfold cellAt newCanvas
  simp only [List.getD_eq_getElem?_getD, List.getElem?_replicate]
  by_cases hy : y < n
  · simp only [if_pos hy, Option.getD_some, List.getElem?_replicate]
    by_cases hx : x < n
    · simp only [if_pos hx, Option.getD_some]
    · simp only [if_neg hx, Option.getD_none]
  · simp only [if_neg hy, Option.getD_none, List.getElem?_nil]

/-- A fresh canvas of side `n` is a square of side `n`. -/
theorem newCanvas_WellFormed (n : Nat) : WellFormed (newCanvas n) n := by
  unfold WellFormed newCanvas
  refine ⟨List.length_replicate _ _, ?_⟩
  intro row hrow
  rw [List.eq_of_mem_replicate hrow, List.length_replicate]

/-- The steps of `MakeLayout` up to `Write` on a fresh square canvas of odd
side `2q + 7` with `q >= 5`: none panics, and the resulting canvas has every
module reserved. -/
theorem MakeLayout_steps (t : LayoutTables) (g : QRCode) (q : Nat)
    (hsize : g.size = 2 * q + 7) (hq : 5 ≤ q)
    (hwf : WellFormed g.canvas g.size)
    (hfresh : ∀ y x, (cellAt g.canvas y x).isUsed = false)
    (hTL : PatternShaped t.searchPatternTL ∧ t.searchPatternTL.xSize = 8 ∧
      t.searchPatternTL.ySize = 8)
    (hTR : PatternShaped t.searchPatternTR ∧ t.searchPatternTR.xSize = 8 ∧
      t.searchPatternTR.ySize = 8)
    (hBL : PatternShaped t.searchPatternBL ∧ t.searchPatternBL.xSize = 8 ∧
      t.searchPatternBL.ySize = 8)
    (hp : PatternShaped t.alignPattern)
    (hal : ∀ a, a ∈ g.alignments →
      t.alignPattern.xSize / 2 ≤ a ∧ t.alignPattern.ySize / 2 ≤ a)
    (hcode : 6 < g.version → (t.versionCodes g.version).length ≤ 11) :
    ∃ canvas,
      MakeLayout t g =
        some { data := g.data, version := g.version, correction := g.correction,
               canvas := canvas, size := g.size, alignments := g.alignments } ∧
      WellFormed canvas g.size ∧
      ∀ y x, y < g.size → x < g.size → (cellAt canvas y x).isUsed = true := by
  obtain ⟨cA, hA, hwfA, _, hTLu, hBLu⟩ :=
    placeSearchPatterns_spec t g g.size rfl (by omega) hwf hfresh hTL hTR hBL
  obtain ⟨cB, hB, hwfB, hkB⟩ :=
    placeAlignments_spec t
      { data := g.data, version := g.version, correction := g.correction,
        canvas := cA, size := g.size, alignments := g.alignments }
      g.size rfl hwfA hp hal
  obtain ⟨cC, hC, hwfC, hkC, hsync⟩ :=
    placeSync_spec t
      { data := g.data, version := g.version, correction := g.correction,
        canvas := cB, size := g.size, alignments := g.alignments }
      g.size rfl (by omega) hwfB
  have hD : ∃ cD,
      (if g.version > 6 then
          placeVersion t
            { data := g.data, version := g.version, correction := g.correction,
              canvas := cC, size := g.size, alignments := g.alignments }
        else
          some { data := g.data, version := g.version, correction := g.correction,
                 canvas := cC, size := g.size, alignments := g.alignments }) =
        some { data := g.data, version := g.version, correction := g.correction,
               canvas := cD, size := g.size, alignments := g.alignments } ∧
      WellFormed cD g.size ∧ Grows cC cD := by
    by_cases hv : g.version > 6
    · obtain ⟨cD, h1, h2, h3⟩ :=
        placeVersion_spec t
          { data := g.data, version := g.version, correction := g.correction,
            canvas := cC, size := g.size, alignments := g.alignments }
          g.size rfl (by omega) hwfC (hcode hv)
      exact ⟨cD, by rw [if_pos hv]; exact h1, h2, h3⟩
    · exact ⟨cC, by rw [if_neg hv], hwfC, Grows_refl _⟩
  obtain ⟨cD, hD, hwfD, hgD⟩ := hD
  obtain ⟨cE, hE, hwfE, _, hfill, hcol⟩ :=
    Write_fills
      { data := g.data, version := g.version, correction := g.correction,
        canvas := cD, size := g.size, alignments := g.alignments }
      g.data q hsize hwfD
  refine ⟨cE, ?_, hwfE, ?_⟩
  · unfold MakeLayout
    rw [hA]
    simp only
    rw [hB]
    simp only
    rw [hC]
    simp only
    rw [hD]
    simp only
    rw [hE]
    rfl
  · intro y x hy hx
    by_cases h6 : x = 6
    · subst h6
      have hgrow : Grows cA cD :=
        Grows_trans _ _ _ (Keeps_Grows _ _ hkB)
          (Grows_trans _ _ _ (Keeps_Grows _ _ hkC) hgD)
      have hgrowC : Grows cC cD := hgD
      have e := hcol y
      simp only at e
      rw [e]
      by_cases h1 : y < 8
      · exact hgrow y 6 (hTLu y 6 h1 (by omega))
      · by_cases h2 : y + 7 < g.size
        · exact hgrowC y 6 (hsync y (by omega) h2).1
        · exact hgrow y 6 (hBLu y 6 (by omega) hy (by omega))
    · exact hfill y x hy hx h6

/-- C11: on a fresh square canvas of odd side `2q + 7 >= 17` (the sides of
the supported versions), with 8 by 8 search patterns, a shaped alignment
pattern, alignment coordinates at least half a pattern from the border and a
version code of at most 11 bytes, `MakeLayout` returns a matrix on which every
module is reserved; and on every square canvas of odd side `2r + 7`, `Write`
returns a matrix with every module outside column 6 reserved and column 6
left exactly as it was. -/
theorem MakeLayout_reserves_every_module (t : LayoutTables) (g : QRCode) (q : Nat)
    (hsize : g.size = 2 * q + 7) (hq : 5 ≤ q)
    (hwf : WellFormed g.canvas g.size)
    (hfresh : ∀ y x, (cellAt g.canvas y x).isUsed = false)
    (hTL : PatternShaped t.searchPatternTL ∧ t.searchPatternTL.xSize = 8 ∧
      t.searchPatternTL.ySize = 8)
    (hTR : PatternShaped t.searchPatternTR ∧ t.searchPatternTR.xSize = 8 ∧
      t.searchPatternTR.ySize = 8)
    (hBL : PatternShaped t.searchPatternBL ∧ t.searchPatternBL.xSize = 8 ∧
      t.searchPatternBL.ySize = 8)
    (hp : PatternShaped t.alignPattern)
    (hal : ∀ a, a ∈ g.alignments →
      t.alignPattern.xSize / 2 ≤ a ∧ t.alignPattern.ySize / 2 ≤ a)
    (hcode : 6 < g.version → (t.versionCodes g.version).length ≤ 11) :
    (∃ canvas,
      MakeLayout t g =
        some { data := g.data, version := g.version, correction := g.correction,
               canvas := canvas, size := g.size, alignments := g.alignments } ∧
      WellFormed canvas g.size ∧
      ∀ y x, y < g.size → x < g.size → (cellAt canvas y x).isUsed = true) ∧
    (∀ (h : QRCode) (bytes : List Nat) (r : Nat), h.size = 2 * r + 7 →
      WellFormed h.canvas h.size →
      ∃ canvas,
        Write h bytes =
          some ({ data := h.data, version := h.version, correction := h.correction,
                  canvas := canvas, size := h.size, alignments := h.alignments }, (0, [])) ∧
        (∀ y x, y < h.size → x < h.size → x ≠ 6 → (cellAt canvas y x).isUsed = true) ∧
        (∀ y, cellAt canvas y 6 = cellAt h.canvas y 6)) := by
  refine ⟨MakeLayout_steps t g q hsize hq hwf hfresh hTL hTR hBL hp hal hcode, ?_⟩
  intro h bytes r hs hw
  obtain ⟨canvas, h1, _, _, h2, h3⟩ := Write_fills h bytes r hs hw
  exact ⟨canvas, h1, h2, h3⟩

/-- C11 at a fresh matrix of version 7 (side 45, alignment coordinates 6, 22
and 38) with the sample patterns. -/
theorem MakeLayout_reserves_every_module_witness :
    (∃ canvas,
      MakeLayout sampleLayout sampleFresh45 =
        some { data := sampleFresh45.data, version := sampleFresh45.version,
               correction := sampleFresh45.correction,
               canvas := canvas, size := sampleFresh45.size,
               alignments := sampleFresh45.alignments } ∧
      WellFormed canvas sampleFresh45.size ∧
      ∀ y x, y < sampleFresh45.size → x < sampleFresh45.size →
        (cellAt canvas y x).isUsed = true) ∧
    (∀ (h : QRCode) (bytes : List Nat) (r : Nat), h.size = 2 * r + 7 →
      WellFormed h.canvas h.size →
      ∃ canvas,
        Write h bytes =
          some ({ data := h.data, version := h.version, correction := h.correction,
                  canvas := canvas, size := h.size, alignments := h.alignments }, (0, [])) ∧
        (∀ y x, y < h.size → x < h.size → x ≠ 6 → (cellAt canvas y x).isUsed = true) ∧
        (∀ y, cellAt canvas y 6 = cellAt h.canvas y 6)) :=
  MakeLayout_reserves_every_module sampleLayout sampleFresh45 19 rfl (by decide)
    (newCanvas_WellFormed 45) (newCanvas_fresh 45)
    (by decide) (by decide) (by decide) (by decide) (by decide) (by decide)

/-! ## `placeVersion`: reserved modules are overwritten -/

/-- C13 fails at `placeVersion`: on a matrix of version 7 whose module at row
34, column 4 is reserved with the colour `true`, the step returns a matrix
whose module at row 34, column 4 has the colour `false`.  The version code
`[2, 30, 38]` has the bit 1 at offset 4 of its first byte, and the step sets
the module to the negated bit without reading the reserved flag. -/
theorem placeVersion_overwrites_reserved_module :
    cellAt sampleReserved45.canvas 34 4 = { value := true, isUsed := true } ∧
    (placeVersion sampleLayout sampleReserved45).map (fun g => cellAt g.canvas 34 4) =
      some { value := false, isUsed := true } := by
  constructor
  · set_option maxRecDepth 100000 in decide
  · set_option maxRecDepth 100000 in decide

/-! ## `placeMask`: no mask is applied -/

/-- The body of `MakeLayout` is the steps before `Write`, then `Write` on the
data of the matrix, whose results are dropped, then `placeMask`. -/
theorem MakeLayout_eq (t : LayoutTables) (g : QRCode) :
    MakeLayout t g =
      (layoutBeforeWrite t g).bind (fun gB =>
        (Write gB gB.data).bind (fun r => placeMask r.1)) := by
  unfold MakeLayout layoutBeforeWrite
  cases placeSearchPatterns t g with
  | none => rfl
  | some g1 =>
    simp only
    cases placeAlignments t g1 with
    | none => rfl
    | some g2 =>
      simp only
      cases placeSync t g2 with
      | none => rfl
      | some g3 =>
        simp only
        cases (if g3.version > 6 then placeVersion t g3 else some g3) with
        | none => rfl
        | some g4 =>
          simp only [Option.some_bind]
          cases Write g4 g4.data with
          | none => rfl
          | some r => rfl

/-- Every one of the 8 mask formulas flips the module at row 12, column 12. -/
theorem maskFormula_12_12 (k : Nat) (hk : k < 8) : maskFormula k 12 12 = true := by
  interval_cases k <;> rfl

/-- C18 as stated fails: on a fresh matrix of side 21 the module at row 12,
column 12 is not reserved before `Write` (a data module), all 8 mask formulas
flip it, and the matrix returned by `MakeLayout` holds there the colour left
by `Write`: the result is the candidate matrix of none of the 8 masks. -/
theorem MakeLayout_result_is_no_masked_candidate :
    ∃ gB gW gF r,
      layoutBeforeWrite sampleLayout sampleFresh21 = some gB ∧
      Write gB gB.data = some (gW, r) ∧
      MakeLayout sampleLayout sampleFresh21 = some gF ∧
      (cellAt gB.canvas 12 12).isUsed = false ∧
      ∀ k, k < 8 →
        cellAt gF.canvas 12 12 ≠
          maskedCell k (cellAt gB.canvas 12 12).isUsed (cellAt gW.canvas 12 12) 12 12 := by
  have hfacts : (layoutBeforeWrite sampleLayout sampleFresh21).map
      (fun g => decide (g.size = 21) && decide (WellFormed g.canvas 21) &&
        !(cellAt g.canvas 12 12).isUsed) = some true := by
    set_option maxRecDepth 100000 in decide
  cases hB : layoutBeforeWrite sampleLayout sampleFresh21 with
  | none => rw [hB] at hfacts; cases hfacts
  | some gB =>
    rw [hB] at hfacts
    simp only [Option.map_some', Option.some.injEq, Bool.and_eq_true, decide_eq_true_eq,
      Bool.not_eq_true'] at hfacts
    obtain ⟨⟨hs, hwf⟩, hun⟩ := hfacts
    obtain ⟨cW, hW, _, _, _, _⟩ := Write_fills gB gB.data 7 hs (by rw [hs]; exact hwf)
    refine ⟨gB,
      { data := gB.data, version := gB.version, correction := gB.correction,
        canvas := cW, size := gB.size, alignments := gB.alignments },
      { data := gB.data, version := gB.version, correction := gB.correction,
        canvas := cW, size := gB.size, alignments := gB.alignments },
      (0, []), rfl, hW, ?_, hun, ?_⟩
    · rw [MakeLayout_eq, hB]
      simp only [Option.some_bind, hW]
      rfl
    · intro k hk heq
      rw [hun] at heq
      simp only [maskedCell, maskFormula_12_12 k hk, Bool.false_eq_true, if_false,
        Bool.xor_true] at heq
      have := congrArg Module.value heq
      simp only at this
      cases hv : (cellAt cW 12 12).value <;> rw [hv] at this <;> cases this

/-- C18, amended: `placeMask` returns the matrix unchanged, and `MakeLayout`
returns the matrix left by `Write` (run on the matrix of the steps before it):
no mask formula is applied and no penalty score is computed. -/
theorem MakeLayout_returns_the_matrix_left_by_Write (t : LayoutTables) (g : QRCode) :
    (∀ gW, placeMask gW = some gW) ∧
    MakeLayout t g =
      (layoutBeforeWrite t g).bind (fun gB => (Write gB gB.data).map (fun r => r.1)) := by
  refine ⟨fun _ => rfl, ?_⟩
  rw [MakeLayout_eq]
  cases layoutBeforeWrite t g with
  | none => rfl
  | some gB =>
    simp only [Option.some_bind]
    cases Write gB gB.data with
    | none => rfl
    | some r => rfl

end QrEncode
